import Mathlib

/-!
Shallow embedding of the `rbtree` Go package (files `rbtree.go`, `iterator.go`).

The Go code works on a mutable pointer graph: nodes hold `color`, `parent`,
`left`, `right`, `Value`, and the tree shares one sentinel node used for every
"no child" link.  We model the heap as an arena: nodes live in an `Array`,
a Go pointer is an `Option Nat` (`none` is Go's `nil`, `some i` points at
arena slot `i`), and the shared sentinel is the node at slot `0`.
Every Go statement that reads a field reads it from the current heap state;
the translation below threads the heap through `Except` and re-reads fields
exactly where the Go source does.  Go panics (duplicate value, rotation
precondition, nil-pointer dereference, index out of range) become `Except`
errors carrying the heap at the moment of the panic; a Go loop that would not
terminate becomes a `fuel` error.  The element type is instantiated at `Int`
with the standard comparator (the Go code is generic in `T` and `compare`).
-/

namespace Rbt

/-- A Go pointer: `none` is Go `nil`, `some i` points to arena slot `i`. -/
abbrev Ptr := Option Nat

/-- The tree-wide sentinel `r.nil` lives at arena slot 0. -/
def nilP : Ptr := some 0

/-- Go `red color = true` (rbtree.go line 18). -/
def red : Bool := true

/-- Go `black color = false` (rbtree.go line 17). -/
def black : Bool := false

/-- A node of the red-black tree (Go `Node[T]`, rbtree.go lines 37-45). -/
structure GNode where
  color : Bool
  parent : Ptr
  left : Ptr
  right : Ptr
  value : Int
deriving DecidableEq, Repr

/-- The tree: the arena of nodes plus the root pointer (Go `RBTree[T]`,
rbtree.go lines 22-26).  The comparator is fixed to the standard order on
`Int`; the sentinel is the node at slot 0. -/
structure RBTree where
  nodes : Array GNode
  root : Ptr
deriving DecidableEq, Repr

/-- Reasons a Go run can abort (or hang, for `fuel`). -/
inductive Panic where
  | dupValue
  | rotNil
  | nilDeref
  | range
  | fuel
deriving DecidableEq, Repr

/-- Computation that can panic; the error carries the heap at panic time. -/
abbrev M (α : Type) := Except (RBTree × Panic) α

/-- Go `New(compare)` (rbtree.go lines 29-32): a fresh black sentinel whose
links are Go `nil`, and the root pointing at the sentinel. -/
def new : RBTree :=
  { nodes := #[{ color := black, parent := none, left := none, right := none, value := 0 }],
    root := nilP }

/-- The caller-supplied comparator, instantiated as the standard comparator
on `Int` (Go `cmp.Compare`): negative, zero or positive. -/
def cmp (a b : Int) : Int :=
  if a < b then -1 else if b < a then 1 else 0

/-- Dereference a pointer; Go `nil` dereference (or a dangling slot, which
cannot arise) panics. -/
def RBTree.getE (t : RBTree) (p : Ptr) : M GNode :=
  match p with
  | none => .error (t, .nilDeref)
  | some i =>
    match t.nodes[i]? with
    | none => .error (t, .nilDeref)
    | some n => .ok n

/-- Write through a pointer with an update of one field. -/
def RBTree.setF (t : RBTree) (p : Ptr) (f : GNode → GNode) : M RBTree :=
  match p with
  | none => .error (t, .nilDeref)
  | some i =>
    match t.nodes[i]? with
    | none => .error (t, .nilDeref)
    | some n => .ok { t with nodes := t.nodes.setD i (f n) }

/-- Go `x.color = c`. -/
def RBTree.setColor (t : RBTree) (p : Ptr) (c : Bool) : M RBTree :=
  t.setF p (fun n => { n with color := c })

/-- Go `x.parent = q`. -/
def RBTree.setParent (t : RBTree) (p : Ptr) (q : Ptr) : M RBTree :=
  t.setF p (fun n => { n with parent := q })

/-- Go `x.left = q`. -/
def RBTree.setLeft (t : RBTree) (p : Ptr) (q : Ptr) : M RBTree :=
  t.setF p (fun n => { n with left := q })

/-- Go `x.right = q`. -/
def RBTree.setRight (t : RBTree) (p : Ptr) (q : Ptr) : M RBTree :=
  t.setF p (fun n => { n with right := q })

/-- Go `(n *Node[T]) getColor()` (rbtree.go lines 47-52): a Go-nil node
reads as black, otherwise the node's color. -/
def RBTree.getColor (t : RBTree) (p : Ptr) : Bool :=
  match p with
  | none => black
  | some i =>
    match t.nodes[i]? with
    | none => black
    | some n => n.color

/-- Go `rotateLeft` (rbtree.go lines 305-333).  Panics when `n.right` is the
sentinel; otherwise relinks the four pointer relationships, re-reading each
field from the current heap exactly as the Go statements do. -/
def rotateLeft (t0 : RBTree) (p : Ptr) : M RBTree := do
  let n ← t0.getE p
  if n.right = nilP then .error (t0, .rotNil) else do
  let newRoot := n.right
  let nr ← t0.getE newRoot
  let t1 ← t0.setRight p nr.left
  let t2 ← t1.setLeft newRoot p
  let n5 ← t2.getE p
  let t3 ← if n5.right ≠ nilP then t2.setParent n5.right p else pure t2
  let n6 ← t3.getE p
  let t4 ←
    match n6.parent with
    | none => pure { t3 with root := newRoot }
    | some j => do
      let pn ← t3.getE (some j)
      if pn.left = p then t3.setLeft (some j) newRoot
      else t3.setRight (some j) newRoot
  let n7 ← t4.getE p
  let t5 ← t4.setParent newRoot n7.parent
  t5.setParent p newRoot

/-- Go `rotateRight` (rbtree.go lines 335-363).  Mirror image of
`rotateLeft`, except that the Go source guards with `n.left == nil`
(the Go `nil` pointer), not `n.left == r.nil` (the sentinel). -/
def rotateRight (t0 : RBTree) (p : Ptr) : M RBTree := do
  let n ← t0.getE p
  if n.left = none then .error (t0, .rotNil) else do
  let newRoot := n.left
  let nr ← t0.getE newRoot
  let t1 ← t0.setLeft p nr.right
  let t2 ← t1.setRight newRoot p
  let n5 ← t2.getE p
  let t3 ← if n5.left ≠ nilP then t2.setParent n5.left p else pure t2
  let n6 ← t3.getE p
  let t4 ←
    match n6.parent with
    | none => pure { t3 with root := newRoot }
    | some j => do
      let pn ← t3.getE (some j)
      if pn.right = p then t3.setRight (some j) newRoot
      else t3.setLeft (some j) newRoot
  let n7 ← t4.getE p
  let t5 ← t4.setParent newRoot n7.parent
  t5.setParent p newRoot

/-- Go `transplant(u, v)` (rbtree.go lines 202-212): replace the subtree at
`u` in `u`'s parent (or at the root) by `v`, then set `v.parent`. -/
def transplant (t0 : RBTree) (u v : Ptr) : M RBTree := do
  let un ← t0.getE u
  let t1 ←
    match un.parent with
    | none => pure { t0 with root := v }
    | some j => do
      let pn ← t0.getE (some j)
      if pn.left = u then t0.setLeft (some j) v
      else t0.setRight (some j) v
  let un2 ← t1.getE u
  t1.setParent v un2.parent

/-- The descent loop of Go `Search` (rbtree.go lines 285-295): follow left on
negative comparison, right on positive, stop at an equal value; reaching the
sentinel means not found (`nil` in Go, `none` here). -/
def searchLoop (t : RBTree) (v : Int) : Nat → Ptr → M Ptr
  | 0, _ => .error (t, .fuel)
  | fuel+1, current =>
    if current = nilP then pure none
    else do
      let cur ← t.getE current
      let test := cmp v cur.value
      if test < 0 then searchLoop t v fuel cur.left
      else if test > 0 then searchLoop t v fuel cur.right
      else pure current

/-- Go `Search` (rbtree.go lines 284-298). -/
def search (t : RBTree) (v : Int) : M Ptr :=
  searchLoop t v (t.nodes.size + 1) t.root

/-- Go `Has` (rbtree.go lines 301-303): `Search(val) != nil`. -/
def has (t : RBTree) (v : Int) : M Bool := do
  let s ← search t v
  pure (decide (s ≠ none))

/-- The descent loop of Go `Insert` (rbtree.go lines 75-94): walk down
comparing `v`; on reaching a sentinel child, attach the already-allocated
node at slot `insIdx`; an equal value panics with "duplicate value". -/
def insertDescend (t : RBTree) (v : Int) (insIdx : Nat) : Nat → Ptr → M RBTree
  | 0, _ => .error (t, .fuel)
  | fuel+1, current =>
    if current = nilP then pure t
    else do
      let cur ← t.getE current
      let test := cmp v cur.value
      if test < 0 then
        if cur.left = nilP then do
          let t1 ← t.setParent (some insIdx) current
          t1.setLeft current (some insIdx)
        else insertDescend t v insIdx fuel cur.left
      else if test > 0 then
        if cur.right = nilP then do
          let t1 ← t.setParent (some insIdx) current
          t1.setRight current (some insIdx)
        else insertDescend t v insIdx fuel cur.right
      else .error (t, .dupValue)

/-- The loop of Go `insertFixup` (rbtree.go lines 100-140), one recursive
call per iteration of `for check.parent.getColor() == red`. -/
def insertFixupLoop : RBTree → Ptr → Nat → M RBTree
  | t, _, 0 => .error (t, .fuel)
  | t, check, fuel+1 => do
    let cn ← t.getE check
    if t.getColor cn.parent ≠ red then pure t
    else do
      let par ← t.getE cn.parent
      let gpP := par.parent
      let gp ← t.getE gpP
      if cn.parent = gp.left then
        let uncleP := gp.right
        if t.getColor uncleP = red then do
          let t ← t.setColor cn.parent black
          let t ← t.setColor uncleP black
          let t ← t.setColor gpP red
          insertFixupLoop t gpP fuel
        else do
          let (t, check) ←
            if check = par.right then do
              let check2 := cn.parent
              let t ← rotateLeft t check2
              pure (t, check2)
            else pure (t, check)
          let cn2 ← t.getE check
          let t ← t.setColor cn2.parent black
          let cn3 ← t.getE check
          let pn3 ← t.getE cn3.parent
          let t ← t.setColor pn3.parent red
          let cn4 ← t.getE check
          let pn4 ← t.getE cn4.parent
          let t ← rotateRight t pn4.parent
          insertFixupLoop t check fuel
      else
        let uncleP := gp.left
        if t.getColor uncleP = red then do
          let t ← t.setColor cn.parent black
          let t ← t.setColor uncleP black
          let t ← t.setColor gpP red
          insertFixupLoop t gpP fuel
        else do
          let (t, check) ←
            if check = par.left then do
              let check2 := cn.parent
              let t ← rotateRight t check2
              pure (t, check2)
            else pure (t, check)
          let cn2 ← t.getE check
          let t ← t.setColor cn2.parent black
          let cn3 ← t.getE check
          let pn3 ← t.getE cn3.parent
          let t ← t.setColor pn3.parent red
          let cn4 ← t.getE check
          let pn4 ← t.getE cn4.parent
          let t ← rotateLeft t pn4.parent
          insertFixupLoop t check fuel

/-- Go `insertFixup` (rbtree.go lines 100-143): the loop followed by
`r.root.color = black`. -/
def insertFixup (t : RBTree) (check : Ptr) : M RBTree := do
  let t ← insertFixupLoop t check (t.nodes.size + 1)
  t.setColor t.root black

/-- Go `Insert` (rbtree.go lines 56-98).  An empty tree gets a black root
directly; otherwise a red node is allocated (pushed into the arena, exactly
as Go allocates it before the descent loop), attached by the descent, and
`insertFixup` runs.  Returns the new tree and the pointer to the inserted
node. -/
def insert (t : RBTree) (v : Int) : M (RBTree × Ptr) := do
  if t.root = nilP then
    let idx := t.nodes.size
    let t1 : RBTree :=
      { nodes := t.nodes.push { color := black, parent := none, left := nilP, right := nilP, value := v },
        root := some idx }
    pure (t1, some idx)
  else do
    let idx := t.nodes.size
    let t1 : RBTree :=
      { t with nodes := t.nodes.push { color := red, parent := none, left := nilP, right := nilP, value := v } }
    let t2 ← insertDescend t1 v idx (t1.nodes.size + 1) t1.root
    let t3 ← insertFixup t2 (some idx)
    pure (t3, some idx)

/-- The loop of Go `deleteFixup` (rbtree.go lines 215-279), one recursive
call per iteration of `for n != r.root && n.getColor() == black`; returns
the heap and the final `n` for the trailing `n.color = black`. -/
def deleteFixupLoop : RBTree → Ptr → Nat → M (RBTree × Ptr)
  | t, _, 0 => .error ((t, .fuel) : RBTree × Panic)
  | t, n, fuel+1 =>
    if n = t.root ∨ t.getColor n = red then pure (t, n)
    else do
      let nn ← t.getE n
      let pn ← t.getE nn.parent
      if n = pn.left then do
        let sibling := pn.right
        let (t, sibling) ←
          if t.getColor sibling = red then do
            let t ← t.setColor sibling black
            let nn1 ← t.getE n
            let t ← t.setColor nn1.parent red
            let nn2 ← t.getE n
            let t ← rotateLeft t nn2.parent
            let nn3 ← t.getE n
            let pn3 ← t.getE nn3.parent
            pure (t, pn3.right)
          else pure (t, sibling)
        let sn ← t.getE sibling
        if t.getColor sn.left = black ∧ t.getColor sn.right = black then do
          let t ← t.setColor sibling red
          let nn4 ← t.getE n
          deleteFixupLoop t nn4.parent fuel
        else do
          let (t, sibling) ←
            if t.getColor sn.right = black then do
              let sn1 ← t.getE sibling
              let t ← t.setColor sn1.left black
              let t ← t.setColor sibling red
              let t ← rotateRight t sibling
              let nn5 ← t.getE n
              let pn5 ← t.getE nn5.parent
              pure (t, pn5.right)
            else pure (t, sibling)
          let nn6 ← t.getE n
          let pn6 ← t.getE nn6.parent
          let t ← t.setColor sibling pn6.color
          let nn7 ← t.getE n
          let t ← t.setColor nn7.parent black
          let sn2 ← t.getE sibling
          let t ← t.setColor sn2.right black
          let nn8 ← t.getE n
          let t ← rotateLeft t nn8.parent
          deleteFixupLoop t t.root fuel
      else do
        let sibling := pn.left
        let (t, sibling) ←
          if t.getColor sibling = red then do
            let t ← t.setColor sibling black
            let nn1 ← t.getE n
            let t ← t.setColor nn1.parent red
            let nn2 ← t.getE n
            let t ← rotateRight t nn2.parent
            let nn3 ← t.getE n
            let pn3 ← t.getE nn3.parent
            pure (t, pn3.left)
          else pure (t, sibling)
        let sn ← t.getE sibling
        if t.getColor sn.right = black ∧ t.getColor sn.left = black then do
          let t ← t.setColor sibling red
          let nn4 ← t.getE n
          deleteFixupLoop t nn4.parent fuel
        else do
          let (t, sibling) ←
            if t.getColor sn.left = black then do
              let sn1 ← t.getE sibling
              let t ← t.setColor sn1.right black
              let t ← t.setColor sibling red
              let t ← rotateLeft t sibling
              let nn5 ← t.getE n
              let pn5 ← t.getE nn5.parent
              pure (t, pn5.left)
            else pure (t, sibling)
          let nn6 ← t.getE n
          let pn6 ← t.getE nn6.parent
          let t ← t.setColor sibling pn6.color
          let nn7 ← t.getE n
          let t ← t.setColor nn7.parent black
          let sn2 ← t.getE sibling
          let t ← t.setColor sn2.left black
          let nn8 ← t.getE n
          let t ← rotateRight t nn8.parent
          deleteFixupLoop t t.root fuel

/-- Go `deleteFixup` (rbtree.go lines 214-281): the loop followed by
`n.color = black`. -/
def deleteFixup (t : RBTree) (n : Ptr) : M RBTree := do
  let (t1, n1) ← deleteFixupLoop t n (t.nodes.size + 1)
  t1.setColor n1 black

/-- The loop `for minimum.left != r.nil { minimum = minimum.left }` of
Go `DeleteNode` case 3 (rbtree.go lines 172-174). -/
def minimumLoop (t : RBTree) : Nat → Ptr → M Ptr
  | 0, _ => .error (t, .fuel)
  | fuel+1, m => do
    let mn ← t.getE m
    if mn.left ≠ nilP then minimumLoop t fuel mn.left
    else pure m

/-- Go `DeleteNode` (rbtree.go lines 153-200).  A Go-nil argument returns
false; otherwise the three CLRS cases run (note the Go-nil test
`if odd != nil` in case 3), `deleteFixup` runs when the removed color was
black, and true is returned. -/
def deleteNode (t0 : RBTree) (p : Ptr) : M (RBTree × Bool) := do
  if p = none then pure (t0, false) else do
  let n ← t0.getE p
  let originalColor := n.color
  if n.left = nilP then do
    let odd := n.right
    let t1 ← transplant t0 p odd
    let t2 ← if originalColor = black then deleteFixup t1 odd else pure t1
    pure (t2, true)
  else if n.right = nilP then do
    let odd := n.left
    let t1 ← transplant t0 p odd
    let t2 ← if originalColor = black then deleteFixup t1 odd else pure t1
    pure (t2, true)
  else do
    let minP ← minimumLoop t0 (t0.nodes.size + 1) n.right
    let minN ← t0.getE minP
    let originalColor := minN.color
    let odd := minN.right
    let t1 ←
      if minN.parent = p then
        if odd ≠ none then t0.setParent odd minP else pure t0
      else do
        let mn ← t0.getE minP
        let ta ← transplant t0 minP mn.right
        let nn ← ta.getE p
        let tb ← ta.setRight minP nn.right
        let mn2 ← tb.getE minP
        tb.setParent mn2.right minP
    let t2 ← transplant t1 p minP
    let nn2 ← t2.getE p
    let t3 ← t2.setLeft minP nn2.left
    let mn3 ← t3.getE minP
    let t4 ← t3.setParent mn3.left minP
    let nn3 ← t4.getE p
    let t5 ← t4.setColor minP nn3.color
    let t6 ← if originalColor = black then deleteFixup t5 odd else pure t5
    pure (t6, true)

/-- Go `Delete` (rbtree.go lines 146-148): `DeleteNode(Search(val))`. -/
def delete (t : RBTree) (v : Int) : M (RBTree × Bool) := do
  let s ← search t v
  deleteNode t s

/-- Go `Successor` (rbtree.go lines 368-387), descent part: after
`node = node.right`, the loop `for node.left != t.nil { node = node.left }`. -/
def succDescend (t : RBTree) : Nat → Ptr → M Ptr
  | 0, _ => .error (t, .fuel)
  | fuel+1, p => do
    let n ← t.getE p
    if n.left ≠ nilP then succDescend t fuel n.left
    else pure p

/-- Go `Successor`, ascent part: `succ := node.parent;
for succ != nil && node == succ.right { node = succ; succ = succ.parent }`. -/
def succAscend (t : RBTree) : Nat → Ptr → Ptr → M Ptr
  | 0, _, _ => .error (t, .fuel)
  | fuel+1, node, succ =>
    match succ with
    | none => pure none
    | some j => do
      let sn ← t.getE (some j)
      if node = sn.right then succAscend t fuel (some j) sn.parent
      else pure (some j)

/-- Go `Successor` (rbtree.go lines 368-387): nil input gives nil; a
non-sentinel right child leads to the leftmost node of the right subtree;
otherwise ascend until arriving from a left link. -/
def successor (t : RBTree) (p : Ptr) : M Ptr := do
  if p = none then pure none else do
  let n ← t.getE p
  if n.right ≠ nilP then succDescend t (t.nodes.size + 1) n.right
  else succAscend t (t.nodes.size + 1) p n.parent

/-- Go `Predecessor` (rbtree.go lines 392-411), descent part. -/
def predDescend (t : RBTree) : Nat → Ptr → M Ptr
  | 0, _ => .error (t, .fuel)
  | fuel+1, p => do
    let n ← t.getE p
    if n.right ≠ nilP then predDescend t fuel n.right
    else pure p

/-- Go `Predecessor`, ascent part. -/
def predAscend (t : RBTree) : Nat → Ptr → Ptr → M Ptr
  | 0, _, _ => .error (t, .fuel)
  | fuel+1, node, pred =>
    match pred with
    | none => pure none
    | some j => do
      let pn ← t.getE (some j)
      if node = pn.left then predAscend t fuel (some j) pn.parent
      else pure (some j)

/-- Go `Predecessor` (rbtree.go lines 392-411). -/
def predecessor (t : RBTree) (p : Ptr) : M Ptr := do
  if p = none then pure none else do
  let n ← t.getE p
  if n.left ≠ nilP then predDescend t (t.nodes.size + 1) n.left
  else predAscend t (t.nodes.size + 1) p n.parent

/-- Go `IterationMethod` (iterator.go lines 3-10). -/
inductive IterationMethod where
  | inOrder
  | preOrder
  | postOrder
  | levelOrder
deriving DecidableEq, Repr

/-- The inner loop of `inOrderIter.Iterate` (iterator.go lines 62-65):
push left spine onto the stack. -/
def inOrderPush (t : RBTree) : Nat → Ptr → List Ptr → M (Ptr × List Ptr)
  | 0, _, _ => .error (t, .fuel)
  | fuel+1, current, stack =>
    if current = nilP then pure (current, stack)
    else do
      let cn ← t.getE current
      inOrderPush t fuel cn.left (current :: stack)

/-- The outer loop of Go `inOrderIter.Iterate` (iterator.go lines 58-75),
with a consumer that never stops early, collecting the yielded values. -/
def inOrderLoop (t : RBTree) : Nat → Ptr → List Ptr → M (List Int)
  | 0, _, _ => .error (t, .fuel)
  | fuel+1, current, stack =>
    if current = nilP ∧ stack = [] then pure []
    else do
      let (_, stack1) ← inOrderPush t (t.nodes.size + 1) current stack
      match stack1 with
      | [] => .error (t, .range)
      | top :: rest => do
        let tn ← t.getE top
        let vals ← inOrderLoop t fuel tn.right rest
        pure (tn.value :: vals)

/-- Go `Iterate(InOrder)` as the list of all yielded values. -/
def inOrderList (t : RBTree) : M (List Int) :=
  inOrderLoop t (2 * t.nodes.size + 2) t.root []

/-- The loop of Go `preOrderIter.Iterate` (iterator.go lines 83-97):
pop, yield, push right then left. -/
def preOrderLoop (t : RBTree) : Nat → List Ptr → M (List Int)
  | 0, _ => .error (t, .fuel)
  | fuel+1, stack =>
    match stack with
    | [] => pure []
    | node :: rest => do
      let nn ← t.getE node
      let rest1 := if nn.right ≠ nilP then nn.right :: rest else rest
      let rest2 := if nn.left ≠ nilP then nn.left :: rest1 else rest1
      let vals ← preOrderLoop t fuel rest2
      pure (nn.value :: vals)

/-- Go `Iterate(PreOrder)` as the list of all yielded values
(iterator.go lines 77-98). -/
def preOrderList (t : RBTree) : M (List Int) :=
  if t.root = nilP then pure []
  else preOrderLoop t (t.nodes.size + 1) [t.root]

/-- The loop of Go `postOrderIter.Iterate` (iterator.go lines 106-122),
with the `lastVisit` marker distinguishing "subtree done" from "descend
right". -/
def postOrderLoop (t : RBTree) : Nat → Ptr → List Ptr → Ptr → M (List Int)
  | 0, _, _, _ => .error (t, .fuel)
  | fuel+1, current, stack, lastVisit =>
    if current = nilP ∧ stack = [] then pure []
    else
      if current ≠ nilP then do
        let cn ← t.getE current
        postOrderLoop t fuel cn.left (current :: stack) lastVisit
      else
        match stack with
        | [] => .error (t, .range)
        | peek :: rest => do
          let pkn ← t.getE peek
          if pkn.right ≠ nilP ∧ lastVisit ≠ pkn.right then
            postOrderLoop t fuel pkn.right (peek :: rest) lastVisit
          else do
            let vals ← postOrderLoop t fuel current rest peek
            pure (pkn.value :: vals)

/-- Go `Iterate(PostOrder)` as the list of all yielded values
(iterator.go lines 100-123). -/
def postOrderList (t : RBTree) : M (List Int) :=
  if t.root = nilP then pure []
  else postOrderLoop t (3 * t.nodes.size + 3) t.root [] none

/-- The loop of Go `levelOrderIter.Iterate` (iterator.go lines 131-145):
FIFO queue, enqueue left then right. -/
def levelOrderLoop (t : RBTree) : Nat → List Ptr → M (List Int)
  | 0, _ => .error (t, .fuel)
  | fuel+1, queue =>
    match queue with
    | [] => pure []
    | node :: rest => do
      let nn ← t.getE node
      let q1 := if nn.left ≠ nilP then rest ++ [nn.left] else rest
      let q2 := if nn.right ≠ nilP then q1 ++ [nn.right] else q1
      let vals ← levelOrderLoop t fuel q2
      pure (nn.value :: vals)

/-- Go `Iterate(LevelOrder)` as the list of all yielded values
(iterator.go lines 125-146). -/
def levelOrderList (t : RBTree) : M (List Int) :=
  if t.root = nilP then pure []
  else levelOrderLoop t (t.nodes.size + 1) [t.root]

/-- Go `Iterate` (iterator.go lines 18-35), as the full yielded sequence of
the chosen method for a consumer that never stops early. -/
def iterate (t : RBTree) (m : IterationMethod) : M (List Int) :=
  match m with
  | .inOrder => inOrderList t
  | .preOrder => preOrderList t
  | .postOrder => postOrderList t
  | .levelOrder => levelOrderList t

/-- One public mutation of the tree: `Insert val` or `Delete val`. -/
inductive Op where
  | ins (v : Int)
  | del (v : Int)
deriving DecidableEq, Repr

/-- Run one public mutation, dropping the returned node / boolean. -/
def runOp (t : RBTree) (o : Op) : M RBTree :=
  match o with
  | .ins v => do
    let (t1, _) ← insert t v
    pure t1
  | .del v => do
    let (t1, _) ← delete t v
    pure t1

/-- Run a sequence of `Insert`/`Delete` calls starting from `t`. -/
def runOps (t : RBTree) : List Op → M RBTree
  | [] => pure t
  | o :: rest => do
    let t1 ← runOp t o
    runOps t1 rest

/-!
Abstraction layer: a functional view of the pointer structure, used to state
the data-model invariants of the spec (BST order, colors, black-height) and
to reason about the heap operations.
-/

/-- Functional binary tree extracted from the arena; each node remembers the
arena slot it came from. -/
inductive FT where
  | leaf
  | node (i : Nat) (c : Bool) (v : Int) (l r : FT)
deriving DecidableEq, Repr

/-- Extract the functional tree hanging from pointer `p`.  The sentinel reads
as `leaf`; a Go-nil link, a dangling slot or exhausted fuel fail. -/
def extractT (t : RBTree) : Nat → Ptr → Option FT
  | 0, _ => none
  | fuel+1, p =>
    match p with
    | none => none
    | some i =>
      if i = 0 then some .leaf
      else
        match t.nodes[i]? with
        | none => none
        | some n =>
          match extractT t fuel n.left, extractT t fuel n.right with
          | some l, some r => some (.node i n.color n.value l r)
          | _, _ => none

/-- In-order list of stored values. -/
def FT.keys : FT → List Int
  | .leaf => []
  | .node _ _ v l r => l.keys ++ v :: r.keys

/-- In-order list of arena slots. -/
def FT.idxs : FT → List Nat
  | .leaf => []
  | .node i _ _ l r => l.idxs ++ i :: r.idxs

/-- Number of (non-sentinel) nodes. -/
def FT.size : FT → Nat
  | .leaf => 0
  | .node _ _ _ l r => l.size + r.size + 1

/-- Height of the extracted tree. -/
def FT.depth : FT → Nat
  | .leaf => 0
  | .node _ _ _ l r => max l.depth r.depth + 1

/-- Color a subtree presents to its parent; a leaf (sentinel) is black. -/
def FT.colorOf : FT → Bool
  | .leaf => black
  | .node _ c _ _ _ => c

/-- Invariant 1 of the data model: binary-search-tree order within the
optional strict bounds `lo` and `hi`. -/
def FT.bstB : Option Int → Option Int → FT → Bool
  | _, _, .leaf => true
  | lo, hi, .node _ _ v l r =>
    (match lo with | none => true | some a => decide (a < v)) &&
    (match hi with | none => true | some b => decide (v < b)) &&
    FT.bstB lo (some v) l && FT.bstB (some v) hi r

/-- Invariant 4 of the data model: no red node has a red child. -/
def FT.redOk : FT → Bool
  | .leaf => true
  | .node _ c _ l r => (!(c && (l.colorOf || r.colorOf))) && l.redOk && r.redOk

/-- Invariant 5 of the data model: every path from a node to a descendant
sentinel has the same number of black nodes; returns that count (the
sentinel included), or `none` on a mismatch. -/
def FT.bhChk : FT → Option Nat
  | .leaf => some 1
  | .node _ c _ l r =>
    match l.bhChk, r.bhChk with
    | some a, some b => if a = b then some (a + (if c then 0 else 1)) else none
    | _, _ => none

/-- Parent back-links: every extracted node's `parent` field points at the
node it hangs from (`none` at the root). -/
def parentsOk (t : RBTree) : Ptr → FT → Bool
  | _, .leaf => true
  | par, .node i _ _ l r =>
    (match t.nodes[i]? with
     | none => false
     | some n => decide (n.parent = par)) &&
    parentsOk t (some i) l && parentsOk t (some i) r

/-- Structural well-formedness of the heap: the sentinel sits at slot 0,
black, with Go-nil links; the root extracts to a functional tree whose
slots are pairwise distinct; parent back-links agree with the child links. -/
def wfB (t : RBTree) : Bool :=
  match t.nodes[0]? with
  | none => false
  | some s =>
    (s.color = black) && (s.left = none) && (s.right = none) &&
    (match extractT t (t.nodes.size + 1) t.root with
     | none => false
     | some τ => decide τ.idxs.Nodup && parentsOk t none τ)

/-- The extracted functional tree of a heap (leaf when ill-formed). -/
def treeOf (t : RBTree) : FT :=
  (extractT t (t.nodes.size + 1) t.root).getD .leaf

/-- The in-order values of the heap's tree. -/
def keysOf (t : RBTree) : List Int :=
  (treeOf t).keys

/-- All six invariants of the data model (spec section 3) plus structural
well-formedness: BST order, black root, black sentinel, no red-red edge,
uniform black-height, no duplicate keys. -/
def invB (t : RBTree) : Bool :=
  wfB t &&
  FT.bstB none none (treeOf t) &&
  (t.getColor t.root = black) &&
  (t.getColor nilP = black) &&
  FT.redOk (treeOf t) &&
  (FT.bhChk (treeOf t)).isSome &&
  decide (keysOf t).Nodup

/-- Pointer `p` hangs a faithful copy of the functional tree `τ` in heap
`t`: fuel-free version of `extractT`, convenient for induction. -/
inductive ReprOf (t : RBTree) : Ptr → FT → Prop
  | leaf : ReprOf t nilP .leaf
  | node : ∀ i n l r, i ≠ 0 → t.nodes[i]? = some n →
      ReprOf t n.left l → ReprOf t n.right r →
      ReprOf t (some i) (.node i n.color n.value l r)

/-- The functional descent of `Search`: the slot and stored value an
equal-comparing descent stops at. -/
def FT.findP (v : Int) : FT → Option (Nat × Int)
  | .leaf => none
  | .node i _ w l r =>
    if v < w then l.findP v else if w < v then r.findP v else some (i, w)

/-! Concrete example data used by witnesses and counterexamples. -/

/-- The spec's concrete scenario: insert 1 through 10 in ascending order. -/
def ops1to10 : List Op :=
  [Op.ins 1, Op.ins 2, Op.ins 3, Op.ins 4, Op.ins 5, Op.ins 6, Op.ins 7,
   Op.ins 8, Op.ins 9, Op.ins 10]

/-- The tree obtained by inserting 1..10 ascending into an empty tree. -/
def treeTen : RBTree :=
  match runOps new ops1to10 with
  | .ok t => t
  | .error e => e.1

/-- `treeTen` together with one extra node that is allocated in the arena
but attached nowhere in the tree structure. -/
def treeOrphan : RBTree :=
  { treeTen with
    nodes := treeTen.nodes.push
      { color := red, parent := none, left := nilP, right := nilP, value := 99 } }

deriving instance DecidableEq for Except

/-- The panic kind of a computation, if it panicked. -/
def panicKindOf {α : Type} (x : M α) : Option Panic :=
  match x with
  | .error (_, k) => some k
  | .ok _ => none

/-- The heap at panic time, if the computation panicked. -/
def errHeapOf {α : Type} (x : M α) : Option RBTree :=
  match x with
  | .error (t, _) => some t
  | .ok _ => none

/-- The arena after Go `Insert` has allocated its new red node (which it does
before descending), but with nothing else changed. -/
def pushOrphan (t : RBTree) (v : Int) : RBTree :=
  { t with
    nodes := t.nodes.push
      { color := red, parent := none, left := nilP, right := nilP, value := v } }

/-- First-some choice on options (strict version of orElse). -/
def oalt {α : Type} : Option α → Option α → Option α
  | some x, _ => some x
  | none, y => y

/-- Leftmost (slot, value) pair of a functional tree. -/
def FT.leftmost : FT → Option (Nat × Int)
  | .leaf => none
  | .node i _ w l _ => oalt l.leftmost (some (i, w))

/-- Rightmost (slot, value) pair of a functional tree. -/
def FT.rightmost : FT → Option (Nat × Int)
  | .leaf => none
  | .node i _ w _ r => oalt r.rightmost (some (i, w))

/-- The node holding the least key strictly greater than `v` (on a BST). -/
def FT.succAfter (v : Int) : FT → Option (Nat × Int)
  | .leaf => none
  | .node i _ w l r =>
    if w ≤ v then r.succAfter v else oalt (l.succAfter v) (some (i, w))

/-- The node holding the greatest key strictly less than `v` (on a BST). -/
def FT.predBefore (v : Int) : FT → Option (Nat × Int)
  | .leaf => none
  | .node i _ w l r =>
    if v ≤ w then l.predBefore v else oalt (r.predBefore v) (some (i, w))

/-- The node at slot `j` inside a functional tree, with its color, value and
subtrees. -/
inductive NodeIn : FT → Nat → Bool → Int → FT → FT → Prop
  | here (i : Nat) (c : Bool) (w : Int) (l r : FT) : NodeIn (.node i c w l r) i c w l r
  | inL {l : FT} {j : Nat} {cj : Bool} {wj : Int} {lj rj : FT}
      (i : Nat) (c : Bool) (w : Int) (r : FT) :
      NodeIn l j cj wj lj rj → NodeIn (.node i c w l r) j cj wj lj rj
  | inR {r : FT} {j : Nat} {cj : Bool} {wj : Int} {lj rj : FT}
      (i : Nat) (c : Bool) (w : Int) (l : FT) :
      NodeIn r j cj wj lj rj → NodeIn (.node i c w l r) j cj wj lj rj

/-- One frame of tree context around a subtree hole: the hole is the left
(`lf`) or right (`rf`) child of the node at slot `i`, whose other child is
the recorded sibling subtree. -/
inductive Frame where
  | lf (i : Nat) (c : Bool) (v : Int) (r : FT)
  | rf (i : Nat) (c : Bool) (v : Int) (l : FT)
deriving DecidableEq, Repr

/-- A context: list of frames, innermost first. -/
abbrev Ctx := List Frame

/-- Plug a subtree into a context. -/
def plug : FT → Ctx → FT
  | σ, [] => σ
  | σ, .lf i c v r :: ctx => plug (.node i c v σ r) ctx
  | σ, .rf i c v l :: ctx => plug (.node i c v l σ) ctx

/-- The slot of a frame's node. -/
def Frame.idx : Frame → Nat
  | .lf i _ _ _ => i
  | .rf i _ _ _ => i

/-- The arena slot the hole's parent occupies (`none` at the root). -/
def ctxParent : Ctx → Ptr
  | [] => none
  | f :: _ => some f.idx

/-- Lower BST bound of the hole, given the outer bound. -/
def ctxLo (lo0 : Option Int) : Ctx → Option Int
  | [] => lo0
  | .lf _ _ _ _ :: ctx => ctxLo lo0 ctx
  | .rf _ _ v _ :: _ => some v

/-- Upper BST bound of the hole, given the outer bound. -/
def ctxHi (hi0 : Option Int) : Ctx → Option Int
  | [] => hi0
  | .lf _ _ v _ :: _ => some v
  | .rf _ _ _ _ :: ctx => ctxHi hi0 ctx

/-- Keys stored in the context. -/
def ctxKeys : Ctx → List Int
  | [] => []
  | .lf _ _ v r :: ctx => v :: r.keys ++ ctxKeys ctx
  | .rf _ _ v l :: ctx => v :: l.keys ++ ctxKeys ctx

/-- Slots used by the context. -/
def ctxIdxs : Ctx → List Nat
  | [] => []
  | .lf i _ _ r :: ctx => i :: r.idxs ++ ctxIdxs ctx
  | .rf i _ _ l :: ctx => i :: l.idxs ++ ctxIdxs ctx

/-- The hole at pointer `p` sits under context `ctx` in heap `t`: the chain
of frame nodes runs down from the root with correct child links, parent
back-links, and faithfully represented siblings. -/
inductive CtxAt (t : RBTree) : Ptr → Ctx → Prop
  | root : CtxAt t t.root []
  | left {p : Ptr} {ctx : Ctx} {i : Nat} {n : GNode} {r : FT} :
      CtxAt t (some i) ctx → i ≠ 0 → t.nodes[i]? = some n →
      n.parent = ctxParent ctx → n.left = p →
      ReprOf t n.right r → parentsOk t (some i) r = true →
      CtxAt t p (.lf i n.color n.value r :: ctx)
  | right {p : Ptr} {ctx : Ctx} {i : Nat} {n : GNode} {l : FT} :
      CtxAt t (some i) ctx → i ≠ 0 → t.nodes[i]? = some n →
      n.parent = ctxParent ctx → n.right = p →
      ReprOf t n.left l → parentsOk t (some i) l = true →
      CtxAt t p (.rf i n.color n.value l :: ctx)

/-- Structural well-formedness relative to an extracted tree: faithful
representation from the root, parent back-links, distinct slots, BST order,
and a sentinel with Go-nil child links.  (Colors are not constrained.) -/
def WfS (t : RBTree) (τ : FT) : Prop :=
  ReprOf t t.root τ ∧ parentsOk t none τ = true ∧ τ.idxs.Nodup ∧
  FT.bstB none none τ = true ∧
  (∃ s, t.nodes[0]? = some s ∧ s.left = none ∧ s.right = none)

/-- Overwrite one arena slot. -/
def upd (t : RBTree) (k : Nat) (x : GNode) : RBTree :=
  { t with nodes := t.nodes.setD k x }

/-- Two optional nodes with the same color, links and value (the parent
field may differ). -/
def shapeEq (x y : Option GNode) : Prop :=
  match x, y with
  | some a, some b => a.color = b.color ∧ a.left = b.left ∧
      a.right = b.right ∧ a.value = b.value
  | none, none => True
  | _, _ => False

/-- Pointer at which a functional tree hangs: the sentinel for a leaf,
the root slot for a node. -/
def FT.rootPtr : FT → Ptr
  | .leaf => nilP
  | .node i _ _ _ _ => some i

/-- The color stored in a frame's node. -/
def Frame.color : Frame → Bool
  | .lf _ c _ _ => c
  | .rf _ c _ _ => c

/-- The outermost frame of the context — the root of the plugged tree when
the context is non-empty — is black.  (Trivially true at the root itself.)
This is the piece of color information the insert fixup loop needs in order
not to fall off the top: a red parent can then never be the root, so a
grandparent always exists. -/
def topBlack (ctx : Ctx) : Prop :=
  ∀ f, ctx.getLast? = some f → Frame.color f = black

/-- Repaint the root of a functional tree; painting a leaf is invisible at
this level (the heap-level sentinel repaint does not change the
abstraction). -/
def FT.paint (c : Bool) : FT → FT
  | .leaf => .leaf
  | .node i _ v l r => .node i c v l r

/-- Invariant bundle carried through the fixup loops: a zipper focused at
slot `g`, with coherent parent links, distinct slots, BST order of the
whole plugged tree, and a sentinel with Go-nil child links. -/
def ZipInv (t : RBTree) (g : Nat) (ctx : Ctx) (σ : FT) : Prop :=
  CtxAt t (some g) ctx ∧ ReprOf t (some g) σ ∧
  parentsOk t (ctxParent ctx) σ = true ∧
  (plug σ ctx).idxs.Nodup ∧
  FT.bstB none none (plug σ ctx) = true ∧
  (∃ s0, t.nodes[0]? = some s0 ∧ s0.left = none ∧ s0.right = none)

/-! Basic lemmas about the `Except` monad, the comparator and `ReprOf`. -/

@[simp] theorem mbind_def {α β : Type} (x : M α) (f : α → M β) :
    x >>= f = Except.bind x f := rfl

@[simp] theorem ebind_ok {α β : Type} (a : α) (f : α → M β) :
    Except.bind (Except.ok a) f = f a := rfl

@[simp] theorem ebind_err {α β : Type} (e : RBTree × Panic) (f : α → M β) :
    Except.bind (Except.error e : M α) f = Except.error e := rfl

@[simp] theorem mpure_def {α : Type} (a : α) : (pure a : M α) = Except.ok a := rfl

theorem bind_ok_iff {α β : Type} {x : M α} {f : α → M β} {b : β} :
    Except.bind x f = .ok b ↔ ∃ a, x = .ok a ∧ f a = .ok b := by
  cases x <;> simp [Except.bind]

theorem cmp_neg {a b : Int} : cmp a b < 0 ↔ a < b := by
  unfold cmp
  by_cases h : a < b
  · simp [h]
  · rw [if_neg h]
    by_cases h2 : b < a
    · rw [if_pos h2]
      exact ⟨fun h3 => absurd h3 (by omega), fun h3 => absurd h3 h⟩
    · rw [if_neg h2]
      exact ⟨fun h3 => absurd h3 (by omega), fun h3 => absurd h3 h⟩

theorem cmp_pos {a b : Int} : 0 < cmp a b ↔ b < a := by
  unfold cmp
  by_cases h : a < b
  · rw [if_pos h]
    exact ⟨fun h3 => absurd h3 (by omega), fun h3 => absurd h3 (by omega)⟩
  · rw [if_neg h]
    by_cases h2 : b < a
    · simp [h2]
    · rw [if_neg h2]
      exact ⟨fun h3 => absurd h3 (by omega), fun h3 => absurd h3 h2⟩

theorem cmp_zero {a b : Int} : cmp a b = 0 ↔ a = b := by
  unfold cmp
  by_cases h : a < b
  · rw [if_pos h]
    exact ⟨fun h3 => absurd h3 (by omega), fun h3 => absurd h3 (by omega)⟩
  · rw [if_neg h]
    by_cases h2 : b < a
    · rw [if_pos h2]
      exact ⟨fun h3 => absurd h3 (by omega), fun h3 => absurd h3 (by omega)⟩
    · rw [if_neg h2]
      exact ⟨fun _ => by omega, fun _ => rfl⟩

theorem reprOf_nilP {t : RBTree} {τ : FT} (h : ReprOf t nilP τ) : τ = .leaf := by
  rw [show nilP = some 0 from rfl] at h
  cases h with
  | leaf => rfl
  | node i n l r hi hn hl hr => exact absurd rfl hi

theorem reprOf_leaf {t : RBTree} {p : Ptr} (h : ReprOf t p .leaf) : p = nilP := by
  cases h; rfl

theorem reprOf_not_none {t : RBTree} {τ : FT} (h : ReprOf t none τ) : False := by
  cases h

/-- `ReprOf` is deterministic in the pointer. -/
theorem reprOf_unique {t : RBTree} {p : Ptr} {τ₁ τ₂ : FT}
    (h₁ : ReprOf t p τ₁) (h₂ : ReprOf t p τ₂) : τ₁ = τ₂ := by
  induction h₁ generalizing τ₂ with
  | leaf => exact (reprOf_nilP h₂).symm
  | node i n l r hi hn hl hr ihl ihr =>
    cases h₂ with
    | leaf => exact absurd rfl hi
    | node i2 n2 l2 r2 hi2 hn2 hl2 hr2 =>
      rw [hn] at hn2
      cases hn2
      rw [ihl hl2, ihr hr2]

/-- A successful extraction yields a faithful representation. -/
theorem extractT_reprOf {t : RBTree} :
    ∀ {fuel : Nat} {p : Ptr} {τ : FT}, extractT t fuel p = some τ → ReprOf t p τ := by
  intro fuel
  induction fuel with
  | zero => intro p τ h; simp [extractT] at h
  | succ m ih =>
    intro p τ h
    match p with
    | none => simp [extractT] at h
    | some i =>
      simp only [extractT] at h
      by_cases hi : i = 0
      · subst hi
        rw [if_pos rfl] at h
        obtain rfl : FT.leaf = τ := by injection h
        exact ReprOf.leaf
      · rw [if_neg hi] at h
        split at h
        · exact absurd h (by simp)
        next n hn =>
          split at h
          next l r hl hr =>
            obtain rfl : FT.node i n.color n.value l r = τ := by injection h
            exact ReprOf.node i n l r hi hn (ih hl) (ih hr)
          next hx => exact absurd h (by simp)

/-- A representation extracts successfully given enough fuel. -/
theorem reprOf_extractT {t : RBTree} {p : Ptr} {τ : FT} (h : ReprOf t p τ) :
    ∀ {fuel : Nat}, τ.depth < fuel → extractT t fuel p = some τ := by
  induction h with
  | leaf => intro fuel hf; match fuel, hf with
    | m+1, _ => simp [extractT, nilP]
  | node i n l r hi hn hl hr ihl ihr =>
    intro fuel hf
    match fuel, hf with
    | m+1, hf =>
      have hdl : l.depth < m := by simp [FT.depth] at hf; omega
      have hdr : r.depth < m := by simp [FT.depth] at hf; omega
      simp only [extractT, hi, if_false, hn, ihl hdl, ihr hdr]

theorem getElem?_some_lt {α : Type} {a : Array α} {i : Nat} {n : α}
    (h : a[i]? = some n) : i < a.size := by
  by_contra hc
  rw [getElem?_neg a i (by omega)] at h
  exact absurd h (by simp)

theorem getElem?_setD_ne {α : Type} (a : Array α) (i j : Nat) (v : α)
    (hne : j ≠ i) : (a.setD i v)[j]? = a[j]? := by
  unfold Array.setD
  split
  · exact Array.getElem?_set_ne _ _ _ (Ne.symm hne)
  · rfl

theorem setF_ok {t : RBTree} {i : Nat} {f : GNode → GNode} {n : GNode}
    (hn : t.nodes[i]? = some n) :
    t.setF (some i) f = .ok { t with nodes := t.nodes.setD i (f n) } := by
  simp only [RBTree.setF, hn]

theorem setF_ok_inv {t : RBTree} {p : Ptr} {f : GNode → GNode} {t' : RBTree}
    (h : t.setF p f = .ok t') :
    ∃ i n, p = some i ∧ t.nodes[i]? = some n ∧
      t' = { t with nodes := t.nodes.setD i (f n) } := by
  match p with
  | none => exact absurd h (by simp [RBTree.setF])
  | some i =>
    match hn : t.nodes[i]? with
    | none => exact absurd h (by simp [RBTree.setF, hn])
    | some n =>
      simp only [RBTree.setF, hn] at h
      refine ⟨i, n, rfl, hn, ?_⟩
      injection h with h
      exact h.symm

theorem FT.depth_le_size (τ : FT) : τ.depth ≤ τ.size := by
  induction τ with
  | leaf => simp [FT.depth, FT.size]
  | node i c v l r ihl ihr => simp [FT.depth, FT.size]; omega

theorem FT.size_eq_idxs_length (τ : FT) : τ.size = τ.idxs.length := by
  induction τ with
  | leaf => simp [FT.size, FT.idxs]
  | node i c v l r ihl ihr => simp [FT.size, FT.idxs, ihl, ihr]; omega

theorem reprOf_idxs_lt {t : RBTree} {p : Ptr} {τ : FT} (h : ReprOf t p τ) :
    ∀ i ∈ τ.idxs, i ≠ 0 ∧ i < t.nodes.size := by
  induction h with
  | leaf => intro i hi; simp [FT.idxs] at hi
  | node j n l r hj hn hl hr ihl ihr =>
    intro i hi
    simp [FT.idxs] at hi
    rcases hi with hi | rfl | hi
    · exact ihl i hi
    · exact ⟨hj, getElem?_some_lt hn⟩
    · exact ihr i hi

theorem idxs_length_le {t : RBTree} {p : Ptr} {τ : FT} (h : ReprOf t p τ)
    (hn : τ.idxs.Nodup) : τ.idxs.length ≤ t.nodes.size := by
  have hsub : τ.idxs.toFinset ⊆ Finset.range t.nodes.size := by
    intro i hi
    simp only [List.mem_toFinset] at hi
    simp only [Finset.mem_range]
    exact (reprOf_idxs_lt h i hi).2
  have := Finset.card_le_card hsub
  rw [List.toFinset_card_of_nodup hn, Finset.card_range] at this
  exact this

theorem reprOf_depth_lt {t : RBTree} {p : Ptr} {τ : FT} (h : ReprOf t p τ)
    (hn : τ.idxs.Nodup) : τ.depth < t.nodes.size + 1 := by
  have h1 := FT.depth_le_size τ
  have h2 := FT.size_eq_idxs_length τ
  have h3 := idxs_length_le h hn
  omega

/-- Pushing a fresh node onto the arena does not disturb any represented
subtree. -/
theorem reprOf_push {t : RBTree} {p : Ptr} {τ : FT} (h : ReprOf t p τ)
    (x : GNode) :
    ReprOf { t with nodes := t.nodes.push x } p τ := by
  induction h with
  | leaf => exact ReprOf.leaf
  | node j n l r hj hn hl hr ihl ihr =>
    refine ReprOf.node j n l r hj ?_ ihl ihr
    have hlt := getElem?_some_lt hn
    rw [Array.getElem?_push_lt _ _ _ hlt, ← Array.getElem?_eq_getElem hlt]
    exact hn

/-- The search loop refines the functional descent `findP`. -/
theorem searchLoop_spec {t : RBTree} {p : Ptr} {τ : FT} (h : ReprOf t p τ)
    (v : Int) : ∀ fuel, τ.depth < fuel →
    searchLoop t v fuel p = .ok ((τ.findP v).map Prod.fst) := by
  induction h with
  | leaf =>
    intro fuel hf
    match fuel, hf with
    | m+1, _ => simp [searchLoop, FT.findP]
  | node i n l r hi hn hl hr ihl ihr =>
    intro fuel hf
    match fuel, hf with
    | m+1, hf =>
      have hdl : l.depth < m := by simp [FT.depth] at hf; omega
      have hdr : r.depth < m := by simp [FT.depth] at hf; omega
      have hne : (some i : Ptr) ≠ nilP := by simp [nilP]; omega
      simp only [searchLoop, if_neg hne, RBTree.getE, hn, mbind_def, ebind_ok, FT.findP]
      by_cases hv : v < n.value
      · rw [if_pos (cmp_neg.mpr hv), if_pos hv]
        exact ihl m hdl
      · rw [if_neg (fun hc => hv (cmp_neg.mp hc)), if_neg hv]
        by_cases hv2 : n.value < v
        · rw [if_pos (by have := cmp_pos.mpr hv2; omega), if_pos hv2]
          exact ihr m hdr
        · rw [if_neg (by intro hc; exact hv2 (cmp_pos.mp (by omega))), if_neg hv2]
          simp

/-- A found entry's stored value is the searched value. -/
theorem findP_value {τ : FT} {v : Int} :
    ∀ {i : Nat} {w : Int}, τ.findP v = some (i, w) → w = v := by
  induction τ with
  | leaf => intro i w h; simp [FT.findP] at h
  | node j c u l r ihl ihr =>
    intro i w h
    simp only [FT.findP] at h
    by_cases h1 : v < u
    · rw [if_pos h1] at h; exact ihl h
    · rw [if_neg h1] at h
      by_cases h2 : u < v
      · rw [if_pos h2] at h; exact ihr h
      · rw [if_neg h2] at h
        injection h with h
        cases h
        omega

/-- A found entry's value is one of the keys. -/
theorem findP_mem {τ : FT} {v : Int} :
    ∀ {i : Nat} {w : Int}, τ.findP v = some (i, w) → w ∈ τ.keys := by
  induction τ with
  | leaf => intro i w h; simp [FT.findP] at h
  | node j c u l r ihl ihr =>
    intro i w h
    simp only [FT.findP] at h
    by_cases h1 : v < u
    · rw [if_pos h1] at h; simp [FT.keys]; exact Or.inl (ihl h)
    · rw [if_neg h1] at h
      by_cases h2 : u < v
      · rw [if_pos h2] at h; simp [FT.keys]; right; right; exact ihr h
      · rw [if_neg h2] at h
        injection h with h
        cases h
        simp [FT.keys]

/-- All keys respect the BST bounds. -/
theorem bstB_keys_bounded {τ : FT} :
    ∀ {lo hi : Option Int}, FT.bstB lo hi τ = true →
    ∀ k ∈ τ.keys, (∀ a, lo = some a → a < k) ∧ (∀ b, hi = some b → k < b) := by
  induction τ with
  | leaf => intro lo hi _ k hk; simp [FT.keys] at hk
  | node j c u l r ihl ihr =>
    intro lo hi h k hk
    simp only [FT.bstB, Bool.and_eq_true] at h
    obtain ⟨⟨⟨hlo, hhi⟩, hl⟩, hr⟩ := h
    simp only [FT.keys, List.mem_append, List.mem_cons] at hk
    rcases hk with hk | hk | hk
    · have := ihl hl k hk
      refine ⟨this.1, fun b hb => ?_⟩
      have hu : k < u := this.2 u rfl
      have : u < b ∨ hi = none := by
        cases hi with
        | none => exact Or.inr rfl
        | some b2 =>
          injection hb with hb; subst hb
          exact Or.inl (by simpa using hhi)
      rcases this with h2 | h2
      · omega
      · rw [h2] at hb; exact absurd hb (by simp)
    · subst hk
      constructor
      · intro a ha; rw [ha] at hlo; simpa using hlo
      · intro b hb; rw [hb] at hhi; simpa using hhi
    · have := ihr hr k hk
      refine ⟨fun a ha => ?_, this.2⟩
      have hu : u < k := this.1 u rfl
      cases lo with
      | none => exact absurd ha (by simp)
      | some a2 =>
        have h3 : a2 < u := by simpa using hlo
        injection ha with ha
        omega

/-- On a BST, every key is found by the functional descent. -/
theorem findP_of_mem {τ : FT} {v : Int} :
    ∀ {lo hi : Option Int}, FT.bstB lo hi τ = true → v ∈ τ.keys →
    ∃ i, τ.findP v = some (i, v) := by
  induction τ with
  | leaf => intro lo hi _ hv; simp [FT.keys] at hv
  | node j c u l r ihl ihr =>
    intro lo hi h hv
    simp only [FT.bstB, Bool.and_eq_true] at h
    obtain ⟨⟨⟨hlo, hhi⟩, hl⟩, hr⟩ := h
    simp only [FT.keys, List.mem_append, List.mem_cons] at hv
    simp only [FT.findP]
    rcases hv with hv | hv | hv
    · have hb := (bstB_keys_bounded hl v hv).2 u rfl
      rw [if_pos hb]
      exact ihl hl hv
    · subst hv
      rw [if_neg (by omega), if_neg (by omega)]
      exact ⟨j, rfl⟩
    · have hb := (bstB_keys_bounded hr v hv).1 u rfl
      rw [if_neg (by omega), if_pos hb]
      exact ihr hr hv

/-- Keys are absent exactly when the functional descent fails (BST case). -/
theorem findP_none_of_not_mem {τ : FT} {v : Int} (hv : v ∉ τ.keys) :
    τ.findP v = none := by
  rcases hf : τ.findP v with _ | ⟨i, w⟩
  · rfl
  · have := findP_mem hf
    rw [findP_value hf] at this
    exact absurd this hv

/-- The arena node behind a found entry. -/
theorem reprOf_findP_node {t : RBTree} {p : Ptr} {τ : FT} (h : ReprOf t p τ) :
    ∀ {v : Int} {i : Nat} {w : Int}, τ.findP v = some (i, w) →
    ∃ n, t.nodes[i]? = some n ∧ n.value = w := by
  induction h with
  | leaf => intro v i w h2; simp [FT.findP] at h2
  | node j n l r hj hn hl hr ihl ihr =>
    intro v i w h2
    simp only [FT.findP] at h2
    by_cases h1 : v < n.value
    · rw [if_pos h1] at h2; exact ihl h2
    · rw [if_neg h1] at h2
      by_cases h3 : n.value < v
      · rw [if_pos h3] at h2; exact ihr h2
      · rw [if_neg h3] at h2
        injection h2 with h2
        cases h2
        exact ⟨n, hn, rfl⟩

/-- Unpack structural well-formedness. -/
theorem wfB_spec {t : RBTree} (h : wfB t = true) :
    ∃ s τ, t.nodes[0]? = some s ∧ s.color = black ∧ s.left = none ∧
      s.right = none ∧ extractT t (t.nodes.size + 1) t.root = some τ ∧
      treeOf t = τ ∧ ReprOf t t.root τ ∧ τ.idxs.Nodup ∧
      parentsOk t none τ = true := by
  unfold wfB at h
  split at h
  · exact absurd h (by simp)
  next s hs =>
    split at h
    next hx => exact absurd h (by simp)
    next τ hτ =>
      simp only [Bool.and_eq_true, decide_eq_true_eq] at h
      exact ⟨s, τ, hs, h.1.1.1, h.1.1.2, h.1.2,
        hτ, by simp [treeOf, hτ], extractT_reprOf hτ, h.2.1, h.2.2⟩

/-- Unpack the full invariant bundle. -/
theorem invB_spec {t : RBTree} (h : invB t = true) :
    wfB t = true ∧ FT.bstB none none (treeOf t) = true ∧
    t.getColor t.root = black ∧ t.getColor nilP = black ∧
    FT.redOk (treeOf t) = true ∧ (FT.bhChk (treeOf t)).isSome = true ∧
    (keysOf t).Nodup := by
  unfold invB at h
  simp only [Bool.and_eq_true, decide_eq_true_eq] at h
  exact ⟨h.1.1.1.1.1.1, h.1.1.1.1.1.2, by simp [h.1.1.1.1.2], by simp [h.1.1.1.2],
    h.1.1.2, h.1.2, h.2⟩

/-- A search that misses: `Search` reports absent for values outside the key
set of a well-formed tree. -/
theorem search_absent {t : RBTree} {v : Int} (h : invB t = true)
    (hv : v ∉ keysOf t) : search t v = .ok none := by
  obtain ⟨hwf, hbst, _⟩ := invB_spec h
  obtain ⟨s, τ, hs0, _, _, _, hext, htree, hrep, hnodup, hpar⟩ := wfB_spec hwf
  rw [keysOf, htree] at hv
  have hd := reprOf_depth_lt hrep hnodup
  have := searchLoop_spec hrep v (t.nodes.size + 1) hd
  rw [search, this, findP_none_of_not_mem hv]
  rfl

/-- A search that hits: `Search` returns the node holding the value. -/
theorem search_found {t : RBTree} {v : Int} (h : invB t = true)
    (hv : v ∈ keysOf t) :
    ∃ i n, search t v = .ok (some i) ∧ t.nodes[i]? = some n ∧ n.value = v := by
  obtain ⟨hwf, hbst, _⟩ := invB_spec h
  obtain ⟨s, τ, hs0, _, _, _, hext, htree, hrep, hnodup, hpar⟩ := wfB_spec hwf
  rw [keysOf, htree] at hv
  rw [htree] at hbst
  obtain ⟨i, hfind⟩ := findP_of_mem hbst hv
  have hd := reprOf_depth_lt hrep hnodup
  have hloop := searchLoop_spec hrep v (t.nodes.size + 1) hd
  obtain ⟨n, hn, hnv⟩ := reprOf_findP_node hrep hfind
  refine ⟨i, n, ?_, hn, hnv⟩
  rw [search, hloop, hfind]
  rfl

/-- The descent of `Insert` panics with "duplicate value" when the inserted
value is already a key of the represented BST, leaving the heap untouched. -/
theorem insertDescend_dup {t : RBTree} {v : Int} {p : Ptr} {τ : FT}
    (h : ReprOf t p τ) :
    ∀ {lo hi : Option Int}, FT.bstB lo hi τ = true → v ∈ τ.keys →
    ∀ (insIdx fuel : Nat), τ.depth < fuel →
    insertDescend t v insIdx fuel p = .error (t, .dupValue) := by
  induction h with
  | leaf => intro lo hi _ hv; simp [FT.keys] at hv
  | node i n l r hi' hn hl hr ihl ihr =>
    intro lo hi hb hv insIdx fuel hf
    match fuel, hf with
    | m+1, hf =>
      have hdl : l.depth < m := by simp [FT.depth] at hf; omega
      have hdr : r.depth < m := by simp [FT.depth] at hf; omega
      have hne : (some i : Ptr) ≠ nilP := by simp [nilP]; omega
      simp only [FT.bstB, Bool.and_eq_true] at hb
      obtain ⟨⟨⟨hlo, hhi⟩, hbl⟩, hbr⟩ := hb
      simp only [insertDescend, if_neg hne, RBTree.getE, hn, mbind_def, ebind_ok]
      simp only [FT.keys, List.mem_append, List.mem_cons] at hv
      rcases hv with hv | hv | hv
      · have hvlt : v < n.value := (bstB_keys_bounded hbl v hv).2 n.value rfl
        rw [if_pos (cmp_neg.mpr hvlt)]
        have hlne : n.left ≠ nilP := by
          intro hc
          rw [hc] at hl
          have hleaf := reprOf_nilP hl
          subst hleaf
          simp [FT.keys] at hv
        rw [if_neg hlne]
        exact ihl hbl hv insIdx m hdl
      · rw [if_neg (show ¬(cmp v n.value < 0) by rw [cmp_neg]; omega),
          if_neg (show ¬(cmp v n.value > 0) by
            show ¬(0 < cmp v n.value); rw [cmp_pos]; omega)]
      · have hvgt : n.value < v := (bstB_keys_bounded hbr v hv).1 n.value rfl
        rw [if_neg (show ¬(cmp v n.value < 0) by rw [cmp_neg]; omega),
          if_pos (show cmp v n.value > 0 by
            show 0 < cmp v n.value; rw [cmp_pos]; omega)]
        have hrne : n.right ≠ nilP := by
          intro hc
          rw [hc] at hr
          have hleaf := reprOf_nilP hr
          subst hleaf
          simp [FT.keys] at hv
        rw [if_neg hrne]
        exact ihr hbr hv insIdx m hdr

theorem nodes_push_lt {t : RBTree} {x : GNode} {j : Nat}
    (hj : j < t.nodes.size) :
    ({ t with nodes := t.nodes.push x } : RBTree).nodes[j]? = t.nodes[j]? := by
  show (t.nodes.push x)[j]? = t.nodes[j]?
  rw [Array.getElem?_push_lt _ _ _ hj, ← Array.getElem?_eq_getElem hj]

/-- C2: inserting a value that compares equal to an existing key of a
well-formed tree fails with the duplicate-value panic; the heap at panic
time is the original arena plus the one pre-allocated orphan node, with the
root, every original slot and the whole represented tree unchanged. -/
theorem c2_insert_duplicate (t : RBTree) (v : Int) (h : invB t = true)
    (hv : v ∈ keysOf t) :
    insert t v = .error (pushOrphan t v, .dupValue) ∧
    (pushOrphan t v).root = t.root ∧
    (∀ j, j < t.nodes.size → (pushOrphan t v).nodes[j]? = t.nodes[j]?) ∧
    treeOf (pushOrphan t v) = treeOf t := by
  obtain ⟨hwf, hbst, _⟩ := invB_spec h
  obtain ⟨s, τ, hs0, _, _, _, hext, htree, hrep, hnodup, hpar⟩ := wfB_spec hwf
  rw [keysOf, htree] at hv
  rw [htree] at hbst
  have hτne : τ ≠ .leaf := by
    intro hc; rw [hc] at hv; simp [FT.keys] at hv
  have hroot : t.root ≠ nilP := by
    intro hc
    rw [hc] at hrep
    exact hτne (reprOf_nilP hrep)
  have hrep1 : ReprOf (pushOrphan t v) t.root τ := reprOf_push hrep _
  have hd := reprOf_depth_lt hrep hnodup
  have hdesc := insertDescend_dup hrep1 hbst hv t.nodes.size
    ((pushOrphan t v).nodes.size + 1) (by simp [pushOrphan]; omega)
  have hins : insert t v = .error (pushOrphan t v, .dupValue) := by
    simp only [pushOrphan] at hdesc ⊢
    simp only [insert, if_neg hroot, mbind_def]
    rw [hdesc]
    rfl
  refine ⟨hins, rfl, fun j hj => nodes_push_lt hj, ?_⟩
  have hd1 : τ.depth < (pushOrphan t v).nodes.size + 1 := by
    simp [pushOrphan]; omega
  show (extractT (pushOrphan t v) ((pushOrphan t v).nodes.size + 1)
    t.root).getD .leaf = treeOf t
  rw [reprOf_extractT hrep1 hd1, htree]
  rfl

/-- C2 witness: inserting 5 into the 1..10 tree panics with the
duplicate-value fault and leaves the tree unchanged. -/
theorem c2_insert_duplicate_witness :
    insert treeTen 5 = .error (pushOrphan treeTen 5, .dupValue) ∧
    treeOf (pushOrphan treeTen 5) = treeOf treeTen :=
  ⟨(c2_insert_duplicate treeTen 5 (by decide) (by decide)).1,
   (c2_insert_duplicate treeTen 5 (by decide) (by decide)).2.2.2⟩

/-- C4: inserting 1..10 ascending into the empty tree and traversing yields
exactly the four sequences stated in the spec. -/
theorem c4_concrete_traversals :
    Except.bind (runOps new ops1to10) (fun t => iterate t .inOrder) =
      .ok [1,2,3,4,5,6,7,8,9,10] ∧
    Except.bind (runOps new ops1to10) (fun t => iterate t .preOrder) =
      .ok [4,2,1,3,6,5,8,7,9,10] ∧
    Except.bind (runOps new ops1to10) (fun t => iterate t .postOrder) =
      .ok [1,3,2,5,7,10,9,8,6,4] ∧
    Except.bind (runOps new ops1to10) (fun t => iterate t .levelOrder) =
      .ok [4,2,6,1,3,5,8,7,9,10] := by
  decide

/-- C5: on a well-formed tree, `Search` finds exactly the present values and
returns the node holding the value; `Has` is precisely "`Search` found a
match". -/
theorem c5_search_has (t : RBTree) (v : Int) (h : invB t = true) :
    (v ∈ keysOf t →
      ∃ i n, search t v = .ok (some i) ∧ t.nodes[i]? = some n ∧ n.value = v) ∧
    (v ∉ keysOf t → search t v = .ok none) ∧
    has t v = Except.bind (search t v) (fun s => .ok (decide (s ≠ none))) :=
  ⟨fun hv => search_found h hv, fun hv => search_absent h hv, rfl⟩

/-- C5 witness: in the 1..10 tree, 5 is found at its node and 11 is reported
absent. -/
theorem c5_search_has_witness :
    (∃ i n, search treeTen 5 = .ok (some i) ∧ treeTen.nodes[i]? = some n ∧
      n.value = 5) ∧
    search treeTen 11 = .ok none :=
  ⟨(c5_search_has treeTen 5 (by decide)).1 (by decide),
   (c5_search_has treeTen 11 (by decide)).2.1 (by decide)⟩

/-- C6: deleting an absent value is a no-op returning false; `DeleteNode` of
the Go-nil reference returns false; and `Delete` is literally
`DeleteNode(Search(val))`. -/
theorem c6_delete_absent (t : RBTree) (v : Int) (h : invB t = true)
    (hv : v ∉ keysOf t) :
    delete t v = .ok (t, false) ∧
    (∀ u : RBTree, deleteNode u none = .ok (u, false)) ∧
    (∀ (u : RBTree) (w : Int),
      delete u w = Except.bind (search u w) (fun s => deleteNode u s)) := by
  refine ⟨?_, fun u => by simp [deleteNode], fun u w => rfl⟩
  have hs := search_absent h hv
  show Except.bind (search t v) (fun s => deleteNode t s) = .ok (t, false)
  rw [hs]
  simp [deleteNode]

/-- C6 witness: deleting 11 from the 1..10 tree returns false and leaves the
tree untouched. -/
theorem c6_delete_absent_witness : delete treeTen 11 = .ok (treeTen, false) :=
  (c6_delete_absent treeTen 11 (by decide) (by decide)).1

/-- C8: `rotateLeft` checks its precondition against the sentinel and aborts
with the guarded invariant fault before mutating anything; `rotateRight`
guards against the Go-nil pointer instead, so on a node whose left child is
the sentinel it does not raise the invariant fault: it mutates the heap and
then crashes with a nil-pointer dereference. -/
theorem c8_rotation_guards :
    (∀ (t : RBTree) (p : Ptr) (n : GNode), t.getE p = .ok n → n.right = nilP →
      rotateLeft t p = .error (t, .rotNil)) ∧
    (treeTen.getE (some 5)).map GNode.left = .ok nilP ∧
    panicKindOf (rotateRight treeTen (some 5)) = some Panic.nilDeref ∧
    errHeapOf (rotateRight treeTen (some 5)) ≠ some treeTen := by
  refine ⟨?_, by decide, by decide, by decide⟩
  intro t p n hget hnil
  simp only [rotateLeft, mbind_def, hget, ebind_ok, if_pos hnil]

/-- C8 witness: `rotateLeft` at the node holding 5 (right child is the
sentinel) aborts with the invariant fault and an untouched heap. -/
theorem c8_rotation_guards_witness :
    rotateLeft treeTen (some 5) = .error (treeTen, Panic.rotNil) :=
  c8_rotation_guards.1 treeTen (some 5)
    { color := false, parent := some 6, left := some 0, right := some 0,
      value := 5 }
    (by decide) (by decide)

/-- C10: `DeleteNode` returns false only for the Go-nil reference; any
non-nil node reference that completes returns true, with no membership
check — witnessed by an arena node that hangs nowhere in the tree structure
yet is "deleted" with result true. -/
theorem c10_deleteNode_null_only (t : RBTree) (p : Ptr) (t' : RBTree)
    (b : Bool) (h : deleteNode t p = .ok (t', b)) :
    (b = false ↔ p = none) ∧
    (∀ u : RBTree, deleteNode u none = .ok (u, false)) ∧
    (11 ∉ (treeOf treeOrphan).idxs ∧
      (deleteNode treeOrphan (some 11)).toOption.map (fun r => r.2) =
        some true) := by
  refine ⟨?_, fun u => by simp [deleteNode], by decide, by decide⟩
  match p with
  | none =>
    simp [deleteNode] at h
    simp [h.2.symm]
  | some j =>
    refine ⟨fun hb => ?_, fun hc => by simp at hc⟩
    subst hb
    simp only [deleteNode, mbind_def] at h
    rw [if_neg (by simp : ¬((some j : Ptr) = none))] at h
    exfalso
    rcases bind_ok_iff.mp h with ⟨n, _, h⟩
    by_cases h1 : n.left = nilP
    · rw [if_pos h1] at h
      rcases bind_ok_iff.mp h with ⟨t1, _, h⟩
      split at h <;>
        · rcases bind_ok_iff.mp h with ⟨t2, _, h⟩
          simp at h
    · rw [if_neg h1] at h
      by_cases h2 : n.right = nilP
      · rw [if_pos h2] at h
        rcases bind_ok_iff.mp h with ⟨t1, _, h⟩
        split at h <;>
          · rcases bind_ok_iff.mp h with ⟨t2, _, h⟩
            simp at h
      · rw [if_neg h2] at h
        rcases bind_ok_iff.mp h with ⟨minP, _, h⟩
        rcases bind_ok_iff.mp h with ⟨minN, _, h⟩
        split at h
        · split at h <;>
            (rcases bind_ok_iff.mp h with ⟨y, _, h⟩
             rcases bind_ok_iff.mp h with ⟨t2, _, h⟩
             rcases bind_ok_iff.mp h with ⟨nn2, _, h⟩
             rcases bind_ok_iff.mp h with ⟨t3, _, h⟩
             rcases bind_ok_iff.mp h with ⟨mn3, _, h⟩
             rcases bind_ok_iff.mp h with ⟨t4, _, h⟩
             rcases bind_ok_iff.mp h with ⟨nn3, _, h⟩
             rcases bind_ok_iff.mp h with ⟨t5, _, h⟩
             split at h <;>
               · rcases bind_ok_iff.mp h with ⟨t6, _, h⟩
                 simp at h)
        · rcases bind_ok_iff.mp h with ⟨mn, _, h⟩
          rcases bind_ok_iff.mp h with ⟨ta, _, h⟩
          rcases bind_ok_iff.mp h with ⟨nn, _, h⟩
          rcases bind_ok_iff.mp h with ⟨tb, _, h⟩
          rcases bind_ok_iff.mp h with ⟨mn2, _, h⟩
          rcases bind_ok_iff.mp h with ⟨y, _, h⟩
          rcases bind_ok_iff.mp h with ⟨t2, _, h⟩
          rcases bind_ok_iff.mp h with ⟨nn2, _, h⟩
          rcases bind_ok_iff.mp h with ⟨t3, _, h⟩
          rcases bind_ok_iff.mp h with ⟨mn3, _, h⟩
          rcases bind_ok_iff.mp h with ⟨t4, _, h⟩
          rcases bind_ok_iff.mp h with ⟨nn3, _, h⟩
          rcases bind_ok_iff.mp h with ⟨t5, _, h⟩
          split at h <;>
            · rcases bind_ok_iff.mp h with ⟨t6, _, h⟩
              simp at h

/-- C10 witness: the theorem applied to the concrete one-node tree holding
the value 1, whose node deletes with result true. -/
theorem c10_deleteNode_null_only_witness :
    ((true : Bool) = false ↔ (some 1 : Ptr) = none) ∧
    (∀ u : RBTree, deleteNode u none = .ok (u, false)) ∧
    (11 ∉ (treeOf treeOrphan).idxs ∧
      (deleteNode treeOrphan (some 11)).toOption.map (fun r => r.2) =
        some true) :=
  c10_deleteNode_null_only
    { nodes := #[{ color := false, parent := none, left := none, right := none, value := 0 },
                 { color := false, parent := none, left := some 0, right := some 0, value := 1 }],
      root := some 1 }
    (some 1)
    { nodes := #[{ color := false, parent := none, left := none, right := none, value := 0 },
                 { color := false, parent := none, left := some 0, right := some 0, value := 1 }],
      root := some 0 }
    true (by decide)

/-! Navigation machinery: relating `Successor`/`Predecessor` to the
functional next/previous key. -/

@[simp] theorem oalt_none_right {α : Type} (x : Option α) : oalt x none = x := by
  cases x <;> rfl

@[simp] theorem oalt_none_left {α : Type} (y : Option α) : oalt none y = y := rfl

@[simp] theorem oalt_some_left {α : Type} (x : α) (y : Option α) :
    oalt (some x) y = some x := rfl

theorem oalt_absorb {α : Type} (x : Option α) (z : α) (y : Option α) :
    oalt (oalt x (some z)) y = oalt x (some z) := by
  cases x <;> rfl

theorem oalt_map {α β : Type} (f : α → β) (x y : Option α) :
    (oalt x y).map f = oalt (x.map f) (y.map f) := by
  cases x <;> rfl

theorem nodeIn_not_leaf {j : Nat} {c : Bool} {w : Int} {l r : FT}
    (h : NodeIn .leaf j c w l r) : False := by
  cases h

theorem nodeIn_value_mem {τ : FT} {j : Nat} {c : Bool} {w : Int} {l r : FT}
    (h : NodeIn τ j c w l r) : w ∈ τ.keys := by
  induction h with
  | here i c w l r => simp [FT.keys]
  | inL i c w r _ ih => simp [FT.keys]; exact Or.inl ih
  | inR i c w l _ ih => simp [FT.keys]; right; right; exact ih

/-- The arena node behind a node of the represented tree. -/
theorem reprOf_nodeIn {t : RBTree} {τ : FT} {j : Nat} {c : Bool} {w : Int}
    {lj rj : FT} (hin : NodeIn τ j c w lj rj) :
    ∀ {p : Ptr}, ReprOf t p τ →
    ∃ n, t.nodes[j]? = some n ∧ j ≠ 0 ∧ n.color = c ∧ n.value = w ∧
      ReprOf t n.left lj ∧ ReprOf t n.right rj := by
  induction hin with
  | here i c w l r =>
    intro p hrep
    cases hrep with
    | node i n l r hi hn hl hr => exact ⟨n, hn, hi, rfl, rfl, hl, hr⟩
  | inL i c w r hsub ih =>
    intro p hrep
    cases hrep with
    | node i n l r hi hn hl hr => exact ih hl
  | inR i c w l hsub ih =>
    intro p hrep
    cases hrep with
    | node i n l r hi hn hl hr => exact ih hr

theorem parentsOk_node {t : RBTree} {par : Ptr} {i : Nat} {c : Bool} {w : Int}
    {l r : FT} (h : parentsOk t par (.node i c w l r) = true) :
    (∃ n, t.nodes[i]? = some n ∧ n.parent = par) ∧
    parentsOk t (some i) l = true ∧ parentsOk t (some i) r = true := by
  simp only [parentsOk, Bool.and_eq_true] at h
  refine ⟨?_, h.1.2, h.2⟩
  have h1 := h.1.1
  split at h1
  · exact absurd h1 (by simp)
  next n hn => exact ⟨n, hn, by simpa using h1⟩

theorem idxs_node_nodup {i : Nat} {c : Bool} {w : Int} {l r : FT}
    (h : (FT.node i c w l r).idxs.Nodup) :
    l.idxs.Nodup ∧ r.idxs.Nodup ∧ i ∉ l.idxs ∧ i ∉ r.idxs ∧
    ∀ x ∈ l.idxs, x ∉ r.idxs := by
  simp only [FT.idxs] at h
  rw [List.nodup_append] at h
  obtain ⟨hl, hcons, hdisj⟩ := h
  rw [List.nodup_cons] at hcons
  refine ⟨hl, hcons.2, ?_, hcons.1, ?_⟩
  · intro hc
    exact hdisj hc (by simp)
  · intro x hx hc
    exact hdisj hx (by simp [hc])

theorem keys_node_nodup {i : Nat} {c : Bool} {w : Int} {l r : FT}
    (h : (FT.node i c w l r).keys.Nodup) :
    l.keys.Nodup ∧ r.keys.Nodup ∧ w ∉ l.keys ∧ w ∉ r.keys ∧
    ∀ x ∈ l.keys, x ∉ r.keys := by
  simp only [FT.keys] at h
  rw [List.nodup_append] at h
  obtain ⟨hl, hcons, hdisj⟩ := h
  rw [List.nodup_cons] at hcons
  refine ⟨hl, hcons.2, ?_, hcons.1, ?_⟩
  · intro hc
    exact hdisj hc (by simp)
  · intro x hx hc
    exact hdisj hx (by simp [hc])

/-- The descent part of `Successor` lands on the leftmost node. -/
theorem succDescend_spec {t : RBTree} {p : Ptr} {τ : FT} (h : ReprOf t p τ) :
    ∀ fuel, τ ≠ .leaf → τ.depth < fuel →
    succDescend t fuel p = .ok ((τ.leftmost).map Prod.fst) := by
  induction h with
  | leaf => intro fuel hne _; exact absurd rfl hne
  | node i n l r hi hn hl hr ihl ihr =>
    intro fuel _ hf
    match fuel, hf with
    | m+1, hf =>
      simp only [succDescend, RBTree.getE, hn, mbind_def, ebind_ok]
      cases hleft : l with
      | leaf =>
        have hnl : n.left = nilP := by rw [hleft] at hl; exact reprOf_leaf hl
        rw [if_neg (by simp [hnl])]
        simp [FT.leftmost, hleft]
      | node il cl wl ll rl =>
        have hnne : n.left ≠ nilP := by
          intro hc
          rw [hc] at hl
          rw [reprOf_nilP hl] at hleft
          cases hleft
        rw [if_pos hnne]
        have hdl : l.depth < m := by simp [FT.depth] at hf; omega
        rw [ihl m (by rw [hleft]; simp) hdl]
        simp [FT.leftmost, hleft, oalt_absorb]

/-- The descent part of `Predecessor` lands on the rightmost node. -/
theorem predDescend_spec {t : RBTree} {p : Ptr} {τ : FT} (h : ReprOf t p τ) :
    ∀ fuel, τ ≠ .leaf → τ.depth < fuel →
    predDescend t fuel p = .ok ((τ.rightmost).map Prod.fst) := by
  induction h with
  | leaf => intro fuel hne _; exact absurd rfl hne
  | node i n l r hi hn hl hr ihl ihr =>
    intro fuel _ hf
    match fuel, hf with
    | m+1, hf =>
      simp only [predDescend, RBTree.getE, hn, mbind_def, ebind_ok]
      cases hright : r with
      | leaf =>
        have hnr : n.right = nilP := by rw [hright] at hr; exact reprOf_leaf hr
        rw [if_neg (by simp [hnr])]
        simp [FT.rightmost, hright]
      | node ir cr wr lr rr =>
        have hnne : n.right ≠ nilP := by
          intro hc
          rw [hc] at hr
          rw [reprOf_nilP hr] at hright
          cases hright
        rw [if_pos hnne]
        have hdr : r.depth < m := by simp [FT.depth] at hf; omega
        rw [ihr m (by rw [hright]; simp) hdr]
        simp [FT.rightmost, hright, oalt_absorb]

theorem reprOf_node_ptr {t : RBTree} {p : Ptr} {i : Nat} {c : Bool} {w : Int}
    {l r : FT} (h : ReprOf t p (.node i c w l r)) :
    p = some i ∧ i ≠ 0 ∧ ∃ n, t.nodes[i]? = some n ∧ n.color = c ∧
      n.value = w ∧ ReprOf t n.left l ∧ ReprOf t n.right r := by
  cases h with
  | node _ n _ _ hi hn hl hr => exact ⟨rfl, hi, n, hn, rfl, rfl, hl, hr⟩

theorem bstB_node {lo hi : Option Int} {i : Nat} {c : Bool} {w : Int}
    {l r : FT} (h : FT.bstB lo hi (.node i c w l r) = true) :
    FT.bstB lo (some w) l = true ∧ FT.bstB (some w) hi r = true ∧
    (∀ a, lo = some a → a < w) ∧ (∀ b, hi = some b → w < b) := by
  simp only [FT.bstB, Bool.and_eq_true] at h
  refine ⟨h.1.2, h.2, ?_, ?_⟩
  · intro a ha
    have h2 := h.1.1.1
    rw [ha] at h2
    simpa using h2
  · intro b hb
    have h2 := h.1.1.2
    rw [hb] at h2
    simpa using h2

theorem nodeIn_depth_le {τ : FT} {j : Nat} {c : Bool} {w : Int} {l r : FT}
    (h : NodeIn τ j c w l r) : l.depth < τ.depth ∧ r.depth < τ.depth := by
  induction h with
  | here i c w l r => simp [FT.depth]; omega
  | inL i c w r _ ih => simp [FT.depth]; omega
  | inR i c w l _ ih => simp [FT.depth]; omega

theorem leftmost_isSome {τ : FT} (h : τ ≠ .leaf) : ∃ q, τ.leftmost = some q := by
  cases τ with
  | leaf => exact absurd rfl h
  | node i c w l r =>
    simp only [FT.leftmost]
    cases hl : l.leftmost with
    | none => exact ⟨(i, w), rfl⟩
    | some q => exact ⟨q, rfl⟩

theorem rightmost_isSome {τ : FT} (h : τ ≠ .leaf) : ∃ q, τ.rightmost = some q := by
  cases τ with
  | leaf => exact absurd rfl h
  | node i c w l r =>
    simp only [FT.rightmost]
    cases hr : r.rightmost with
    | none => exact ⟨(i, w), rfl⟩
    | some q => exact ⟨q, rfl⟩

/-- All keys at most `v`: no strict successor. -/
theorem succAfter_none {τ : FT} {v : Int} (h : ∀ k ∈ τ.keys, k ≤ v) :
    FT.succAfter v τ = none := by
  induction τ with
  | leaf => rfl
  | node i c w l r ihl ihr =>
    have hw : w ≤ v := h w (by simp [FT.keys])
    simp only [FT.succAfter, if_pos hw]
    exact ihr (fun k hk => h k (by simp [FT.keys]; right; right; exact hk))

/-- All keys above `v`: the successor is the leftmost node. -/
theorem succAfter_min {τ : FT} {v : Int} (h : ∀ k ∈ τ.keys, v < k) :
    FT.succAfter v τ = τ.leftmost := by
  induction τ with
  | leaf => rfl
  | node i c w l r ihl ihr =>
    have hw : v < w := h w (by simp [FT.keys])
    simp only [FT.succAfter, FT.leftmost]
    rw [if_neg (show ¬(w ≤ v) by omega)]
    rw [ihl (fun k hk => h k (by simp [FT.keys]; exact Or.inl hk))]

/-- A computed successor is a key strictly above `v`. -/
theorem succAfter_mem_gt {τ : FT} {v : Int} :
    ∀ {j : Nat} {w : Int}, FT.succAfter v τ = some (j, w) →
    w ∈ τ.keys ∧ v < w := by
  induction τ with
  | leaf => intro j w h; simp [FT.succAfter] at h
  | node i c u l r ihl ihr =>
    intro j w h
    simp only [FT.succAfter] at h
    by_cases hu : u ≤ v
    · rw [if_pos hu] at h
      obtain ⟨hm, hlt⟩ := ihr h
      exact ⟨by simp [FT.keys]; right; right; exact hm, hlt⟩
    · rw [if_neg hu] at h
      cases hl : FT.succAfter v l with
      | some q =>
        rw [hl] at h
        simp only [oalt_some_left] at h
        injection h with h
        subst h
        obtain ⟨hm, hlt⟩ := ihl hl
        exact ⟨by simp [FT.keys]; exact Or.inl hm, hlt⟩
      | none =>
        rw [hl] at h
        simp only [oalt_none_left] at h
        injection h with h
        injection h with h1 h2
        subst h1; subst h2
        exact ⟨by simp [FT.keys], by omega⟩

/-- No computed successor: every key is at most `v` (needs BST order). -/
theorem succAfter_none_inv {τ : FT} :
    ∀ {lo hi : Option Int}, FT.bstB lo hi τ = true →
    ∀ {v : Int}, FT.succAfter v τ = none → ∀ k ∈ τ.keys, k ≤ v := by
  induction τ with
  | leaf => intro lo hi _ v _ k hk; simp [FT.keys] at hk
  | node i c u l r ihl ihr =>
    intro lo hi hb v h k hk
    obtain ⟨hbl, hbr, _, _⟩ := bstB_node hb
    simp only [FT.succAfter] at h
    by_cases hu : u ≤ v
    · rw [if_pos hu] at h
      simp only [FT.keys, List.mem_append, List.mem_cons] at hk
      rcases hk with hk | hk | hk
      · have := (bstB_keys_bounded hbl k hk).2 u rfl
        omega
      · omega
      · exact ihr hbr h k hk
    · rw [if_neg hu] at h
      cases hl2 : FT.succAfter v l with
      | some q => rw [hl2] at h; simp at h
      | none => rw [hl2] at h; simp at h

/-- The computed successor is the least key strictly above `v`. -/
theorem succAfter_least {τ : FT} :
    ∀ {lo hi : Option Int}, FT.bstB lo hi τ = true →
    ∀ {v : Int} {j : Nat} {w : Int}, FT.succAfter v τ = some (j, w) →
    ∀ k ∈ τ.keys, v < k → w ≤ k := by
  induction τ with
  | leaf => intro lo hi _ v j w h; simp [FT.succAfter] at h
  | node i c u l r ihl ihr =>
    intro lo hi hb v j w h k hk hvk
    obtain ⟨hbl, hbr, _, _⟩ := bstB_node hb
    simp only [FT.succAfter] at h
    simp only [FT.keys, List.mem_append, List.mem_cons] at hk
    by_cases hu : u ≤ v
    · rw [if_pos hu] at h
      rcases hk with hk | hk | hk
      · have := (bstB_keys_bounded hbl k hk).2 u rfl
        omega
      · omega
      · exact ihr hbr h k hk hvk
    · rw [if_neg hu] at h
      cases hl2 : FT.succAfter v l with
      | some q =>
        rw [hl2] at h
        simp only [oalt_some_left] at h
        injection h with h
        subst h
        have hwl : w ∈ l.keys ∧ v < w := succAfter_mem_gt hl2
        have hwu : w < u := (bstB_keys_bounded hbl w hwl.1).2 u rfl
        rcases hk with hk | hk | hk
        · exact ihl hbl hl2 k hk hvk
        · omega
        · have := (bstB_keys_bounded hbr k hk).1 u rfl
          omega
      | none =>
        rw [hl2] at h
        simp only [oalt_none_left] at h
        injection h with h
        injection h with h1 h2
        rcases hk with hk | hk | hk
        · have := succAfter_none_inv hbl hl2 k hk
          omega
        · omega
        · have := (bstB_keys_bounded hbr k hk).1 u rfl
          omega

/-- The ascent part of `Successor`: from a node whose right child is the
sentinel, the parent walk returns the functional successor within the
subtree, falling back to `bound`, the successor that the surrounding context
supplies for the whole subtree. -/
theorem succAscend_main {t : RBTree} {τ : FT} {j : Nat} {cj : Bool} {wj : Int}
    {lj rj : FT} (hin : NodeIn τ j cj wj lj rj) :
    ∀ {p par : Ptr} {fb : Nat} {bound : Option (Nat × Int)} {lo hi : Option Int},
    ReprOf t p τ → parentsOk t par τ = true → τ.idxs.Nodup →
    FT.bstB lo hi τ = true →
    (∀ fuel, fb ≤ fuel → succAscend t fuel p par = .ok (bound.map Prod.fst)) →
    rj = .leaf →
    ∀ (nj : GNode), t.nodes[j]? = some nj →
    ∀ fuel, fb + τ.depth ≤ fuel →
    succAscend t fuel (some j) nj.parent =
      .ok ((oalt (FT.succAfter wj τ) bound).map Prod.fst) := by
  induction hin with
  | here i c w l r =>
    intro p par fb bound lo hi hrep hpar hnodup hbst Hcont hrj nj hnj fuel hfuel
    subst hrj
    obtain ⟨hp, hi0, n, hn, hc, hv, hl, hr⟩ := reprOf_node_ptr hrep
    obtain ⟨⟨n2, hn2, hn2par⟩, _, _⟩ := parentsOk_node hpar
    rw [hn] at hn2 hnj
    injection hn2 with he
    subst he
    injection hnj with he2
    subst he2
    rw [hp] at Hcont
    rw [hn2par, Hcont fuel (by omega)]
    simp [FT.succAfter]
  | inL i c w r hsub ih =>
    rename_i l0 j0 cj0 wj0 lj0 rj0
    intro p par fb bound lo hi hrep hpar hnodup hbst Hcont hrj nj hnj fuel hfuel
    obtain ⟨hp, hi0, n, hn, hc, hv, hl, hr⟩ := reprOf_node_ptr hrep
    obtain ⟨⟨n2, hn2, hn2par⟩, hpl, hpr⟩ := parentsOk_node hpar
    rw [hn] at hn2
    injection hn2 with he
    subst he
    obtain ⟨hndl, hndr, hil, hir, hdisj⟩ := idxs_node_nodup hnodup
    obtain ⟨hbl, hbr, _, _⟩ := bstB_node hbst
    cases hlshape : l0 with
    | leaf => exact absurd (hlshape ▸ hsub) (fun hc2 => nodeIn_not_leaf hc2)
    | node il cl wl ll rl =>
      rw [hlshape] at hsub hl hpl hndl hbl hdisj ih hfuel
      obtain ⟨hpl2, hil0, nl, hnl, _⟩ := reprOf_node_ptr hl
      have Hcont2 : ∀ f, fb + 1 ≤ f →
          succAscend t f n.left (some i) = .ok ((some (i, w)).map Prod.fst) := by
        intro f hf
        match f, hf with
        | g+1, _ =>
          rw [hpl2]
          simp only [succAscend, RBTree.getE, hn, mbind_def, ebind_ok]
          have hner : (some il : Ptr) ≠ n.right := by
            cases hrshape : r with
            | leaf =>
              have hrn : n.right = nilP := by
                rw [hrshape] at hr; exact reprOf_leaf hr
              rw [hrn]
              simp [nilP]
              omega
            | node ir cr wr lr rr =>
              rw [hrshape] at hr hdisj
              obtain ⟨hpr2, hir0, _⟩ := reprOf_node_ptr hr
              rw [hpr2]
              have h1 : il ∈ (FT.node il cl wl ll rl).idxs := by simp [FT.idxs]
              have h2 : ir ∈ (FT.node ir cr wr lr rr).idxs := by simp [FT.idxs]
              intro hcc
              injection hcc with hcc
              exact (hdisj il h1) (hcc ▸ h2)
          rw [if_neg hner]
          rfl
      have hstep := ih hl hpl hndl hbl Hcont2 hrj nj hnj fuel
        (by simp [FT.depth] at hfuel ⊢; omega)
      rw [hstep]
      have hwjw : wj0 < w :=
        (bstB_keys_bounded hbl wj0 (nodeIn_value_mem hsub)).2 w rfl
      simp only [FT.succAfter]
      rw [if_neg (show ¬(w ≤ wj0) by omega), oalt_absorb]
  | inR i c w l hsub ih =>
    rename_i r0 j0 cj0 wj0 lj0 rj0
    intro p par fb bound lo hi hrep hpar hnodup hbst Hcont hrj nj hnj fuel hfuel
    obtain ⟨hp, hi0, n, hn, hc, hv, hl, hr⟩ := reprOf_node_ptr hrep
    obtain ⟨⟨n2, hn2, hn2par⟩, hpl, hpr⟩ := parentsOk_node hpar
    rw [hn] at hn2
    injection hn2 with he
    subst he
    obtain ⟨hndl, hndr, hil, hir, hdisj⟩ := idxs_node_nodup hnodup
    obtain ⟨hbl, hbr, _, _⟩ := bstB_node hbst
    cases hrshape : r0 with
    | leaf => exact absurd (hrshape ▸ hsub) (fun hc2 => nodeIn_not_leaf hc2)
    | node ir cr wr lr rr =>
      rw [hrshape] at hsub hr hpr hndr hbr hfuel ih
      obtain ⟨hpr2, hir0, nr, hnr, _⟩ := reprOf_node_ptr hr
      rw [hp] at Hcont
      have Hcont2 : ∀ f, fb + 1 ≤ f →
          succAscend t f n.right (some i) = .ok (bound.map Prod.fst) := by
        intro f hf
        match f, hf with
        | g+1, hf2 =>
          rw [hpr2]
          simp only [succAscend, RBTree.getE, hn, mbind_def, ebind_ok]
          rw [if_pos hpr2.symm, hn2par]
          exact Hcont g (by omega)
      have hstep := ih hr hpr hndr hbr Hcont2 hrj nj hnj fuel
        (by simp [FT.depth] at hfuel ⊢; omega)
      rw [hstep]
      have hwwj : w < wj0 :=
        (bstB_keys_bounded hbr wj0 (nodeIn_value_mem hsub)).1 w rfl
      simp only [FT.succAfter]
      rw [if_pos (show w ≤ wj0 by omega)]

/-- At a node with a nonempty right subtree, the functional successor of its
value is the leftmost node of that subtree. -/
theorem succAfter_at_node {τ : FT} {j : Nat} {cj : Bool} {wj : Int}
    {lj rj : FT} (hin : NodeIn τ j cj wj lj rj) :
    ∀ {lo hi : Option Int}, FT.bstB lo hi τ = true → rj ≠ .leaf →
    FT.succAfter wj τ = rj.leftmost := by
  induction hin with
  | here i c w l r =>
    intro lo hi hb hne
    obtain ⟨hbl, hbr, _, _⟩ := bstB_node hb
    simp only [FT.succAfter, if_pos (le_refl w)]
    exact succAfter_min (fun k hk => (bstB_keys_bounded hbr k hk).1 w rfl)
  | inL i c w r hsub ih =>
    rename_i l0 j0 cj0 wj0 lj0 rj0
    intro lo hi hb hne
    obtain ⟨hbl, hbr, _, _⟩ := bstB_node hb
    have hlt : wj0 < w :=
      (bstB_keys_bounded hbl wj0 (nodeIn_value_mem hsub)).2 w rfl
    simp only [FT.succAfter]
    rw [if_neg (show ¬(w ≤ wj0) by omega), ih hbl hne]
    obtain ⟨q, hq⟩ := leftmost_isSome hne
    rw [hq]
    rfl
  | inR i c w l hsub ih =>
    rename_i r0 j0 cj0 wj0 lj0 rj0
    intro lo hi hb hne
    obtain ⟨hbl, hbr, _, _⟩ := bstB_node hb
    have hlt : w < wj0 :=
      (bstB_keys_bounded hbr wj0 (nodeIn_value_mem hsub)).1 w rfl
    simp only [FT.succAfter]
    rw [if_pos (show w ≤ wj0 by omega)]
    exact ih hbr hne

/-- `Successor` computes the functional next-key node. -/
theorem successor_spec {t : RBTree} (h : invB t = true) {j : Nat} {cj : Bool}
    {wj : Int} {lj rj : FT} (hin : NodeIn (treeOf t) j cj wj lj rj) :
    successor t (some j) = .ok ((FT.succAfter wj (treeOf t)).map Prod.fst) := by
  obtain ⟨hwf, hbst, _⟩ := invB_spec h
  obtain ⟨s, τ, hs0, _, _, _, hext, htree, hrep, hnodup, hpar⟩ := wfB_spec hwf
  rw [htree] at hin hbst ⊢
  obtain ⟨nj, hnj, hj0, hcol, hval, hlrep, hrrep⟩ := reprOf_nodeIn hin hrep
  have hdepth := reprOf_depth_lt hrep hnodup
  simp only [successor, mbind_def]
  rw [if_neg (by simp : ¬((some j : Ptr) = none))]
  simp only [RBTree.getE, hnj, ebind_ok]
  cases hrj : rj with
  | leaf =>
    rw [hrj] at hrrep hin
    have hnr : nj.right = nilP := reprOf_leaf hrrep
    rw [if_neg (by simp [hnr])]
    have Hcont : ∀ fuel, 1 ≤ fuel → succAscend t fuel t.root none =
        .ok ((none : Option (Nat × Int)).map Prod.fst) := by
      intro f hf
      match f, hf with
      | g+1, _ => rfl
    have hmain := succAscend_main hin hrep hpar hnodup hbst Hcont rfl nj hnj
      (t.nodes.size + 1) (by omega)
    rw [hmain, oalt_none_right]
  | node ir cr wr lr rr =>
    rw [hrj] at hrrep hin
    have hnr : nj.right ≠ nilP := by
      intro hc
      rw [hc] at hrrep
      cases reprOf_nilP hrrep
    rw [if_pos hnr]
    have hsubd := (nodeIn_depth_le hin).2
    rw [succDescend_spec hrrep (t.nodes.size + 1) (by simp) (by omega)]
    rw [succAfter_at_node hin hbst (by simp)]

/-- All keys at least `v`: no strict predecessor. -/
theorem predBefore_none {τ : FT} {v : Int} (h : ∀ k ∈ τ.keys, v ≤ k) :
    FT.predBefore v τ = none := by
  induction τ with
  | leaf => rfl
  | node i c w l r ihl ihr =>
    have hw : v ≤ w := h w (by simp [FT.keys])
    simp only [FT.predBefore, if_pos hw]
    exact ihl (fun k hk => h k (by simp [FT.keys]; exact Or.inl hk))

/-- All keys below `v`: the predecessor is the rightmost node. -/
theorem predBefore_max {τ : FT} {v : Int} (h : ∀ k ∈ τ.keys, k < v) :
    FT.predBefore v τ = τ.rightmost := by
  induction τ with
  | leaf => rfl
  | node i c w l r ihl ihr =>
    have hw : w < v := h w (by simp [FT.keys])
    simp only [FT.predBefore, FT.rightmost]
    rw [if_neg (show ¬(v ≤ w) by omega)]
    rw [ihr (fun k hk => h k (by simp [FT.keys]; right; right; exact hk))]

/-- A computed predecessor is a key strictly below `v`. -/
theorem predBefore_mem_lt {τ : FT} {v : Int} :
    ∀ {j : Nat} {w : Int}, FT.predBefore v τ = some (j, w) →
    w ∈ τ.keys ∧ w < v := by
  induction τ with
  | leaf => intro j w h; simp [FT.predBefore] at h
  | node i c u l r ihl ihr =>
    intro j w h
    simp only [FT.predBefore] at h
    by_cases hu : v ≤ u
    · rw [if_pos hu] at h
      obtain ⟨hm, hlt⟩ := ihl h
      exact ⟨by simp [FT.keys]; exact Or.inl hm, hlt⟩
    · rw [if_neg hu] at h
      cases hr2 : FT.predBefore v r with
      | some q =>
        rw [hr2] at h
        simp only [oalt_some_left] at h
        injection h with h
        subst h
        obtain ⟨hm, hlt⟩ := ihr hr2
        exact ⟨by simp [FT.keys]; right; right; exact hm, hlt⟩
      | none =>
        rw [hr2] at h
        simp only [oalt_none_left] at h
        injection h with h
        injection h with h1 h2
        subst h1; subst h2
        exact ⟨by simp [FT.keys], by omega⟩

/-- No computed predecessor: every key is at least `v` (needs BST order). -/
theorem predBefore_none_inv {τ : FT} :
    ∀ {lo hi : Option Int}, FT.bstB lo hi τ = true →
    ∀ {v : Int}, FT.predBefore v τ = none → ∀ k ∈ τ.keys, v ≤ k := by
  induction τ with
  | leaf => intro lo hi _ v _ k hk; simp [FT.keys] at hk
  | node i c u l r ihl ihr =>
    intro lo hi hb v h k hk
    obtain ⟨hbl, hbr, _, _⟩ := bstB_node hb
    simp only [FT.predBefore] at h
    by_cases hu : v ≤ u
    · rw [if_pos hu] at h
      simp only [FT.keys, List.mem_append, List.mem_cons] at hk
      rcases hk with hk | hk | hk
      · exact ihl hbl h k hk
      · omega
      · have := (bstB_keys_bounded hbr k hk).1 u rfl
        omega
    · rw [if_neg hu] at h
      cases hr2 : FT.predBefore v r with
      | some q => rw [hr2] at h; simp at h
      | none => rw [hr2] at h; simp at h

/-- The computed predecessor is the greatest key strictly below `v`. -/
theorem predBefore_greatest {τ : FT} :
    ∀ {lo hi : Option Int}, FT.bstB lo hi τ = true →
    ∀ {v : Int} {j : Nat} {w : Int}, FT.predBefore v τ = some (j, w) →
    ∀ k ∈ τ.keys, k < v → k ≤ w := by
  induction τ with
  | leaf => intro lo hi _ v j w h; simp [FT.predBefore] at h
  | node i c u l r ihl ihr =>
    intro lo hi hb v j w h k hk hkv
    obtain ⟨hbl, hbr, _, _⟩ := bstB_node hb
    simp only [FT.predBefore] at h
    simp only [FT.keys, List.mem_append, List.mem_cons] at hk
    by_cases hu : v ≤ u
    · rw [if_pos hu] at h
      rcases hk with hk | hk | hk
      · exact ihl hbl h k hk hkv
      · omega
      · have := (bstB_keys_bounded hbr k hk).1 u rfl
        omega
    · rw [if_neg hu] at h
      cases hr2 : FT.predBefore v r with
      | some q =>
        rw [hr2] at h
        simp only [oalt_some_left] at h
        injection h with h
        subst h
        have hwr : w ∈ r.keys ∧ w < v := predBefore_mem_lt hr2
        have hwu : u < w := (bstB_keys_bounded hbr w hwr.1).1 u rfl
        rcases hk with hk | hk | hk
        · have := (bstB_keys_bounded hbl k hk).2 u rfl
          omega
        · omega
        · exact ihr hbr hr2 k hk hkv
      | none =>
        rw [hr2] at h
        simp only [oalt_none_left] at h
        injection h with h
        injection h with h1 h2
        rcases hk with hk | hk | hk
        · have := (bstB_keys_bounded hbl k hk).2 u rfl
          omega
        · omega
        · have := predBefore_none_inv hbr hr2 k hk
          omega

/-- The ascent part of `Predecessor`, mirror of `succAscend_main`. -/
theorem predAscend_main {t : RBTree} {τ : FT} {j : Nat} {cj : Bool} {wj : Int}
    {lj rj : FT} (hin : NodeIn τ j cj wj lj rj) :
    ∀ {p par : Ptr} {fb : Nat} {bound : Option (Nat × Int)} {lo hi : Option Int},
    ReprOf t p τ → parentsOk t par τ = true → τ.idxs.Nodup →
    FT.bstB lo hi τ = true →
    (∀ fuel, fb ≤ fuel → predAscend t fuel p par = .ok (bound.map Prod.fst)) →
    lj = .leaf →
    ∀ (nj : GNode), t.nodes[j]? = some nj →
    ∀ fuel, fb + τ.depth ≤ fuel →
    predAscend t fuel (some j) nj.parent =
      .ok ((oalt (FT.predBefore wj τ) bound).map Prod.fst) := by
  induction hin with
  | here i c w l r =>
    intro p par fb bound lo hi hrep hpar hnodup hbst Hcont hlj nj hnj fuel hfuel
    subst hlj
    obtain ⟨hp, hi0, n, hn, hc, hv, hl, hr⟩ := reprOf_node_ptr hrep
    obtain ⟨⟨n2, hn2, hn2par⟩, _, _⟩ := parentsOk_node hpar
    rw [hn] at hn2 hnj
    injection hn2 with he
    subst he
    injection hnj with he2
    subst he2
    rw [hp] at Hcont
    rw [hn2par, Hcont fuel (by omega)]
    simp [FT.predBefore]
  | inL i c w r hsub ih =>
    rename_i l0 j0 cj0 wj0 lj0 rj0
    intro p par fb bound lo hi hrep hpar hnodup hbst Hcont hlj nj hnj fuel hfuel
    obtain ⟨hp, hi0, n, hn, hc, hv, hl, hr⟩ := reprOf_node_ptr hrep
    obtain ⟨⟨n2, hn2, hn2par⟩, hpl, hpr⟩ := parentsOk_node hpar
    rw [hn] at hn2
    injection hn2 with he
    subst he
    obtain ⟨hndl, hndr, hil, hir, hdisj⟩ := idxs_node_nodup hnodup
    obtain ⟨hbl, hbr, _, _⟩ := bstB_node hbst
    cases hlshape : l0 with
    | leaf => exact absurd (hlshape ▸ hsub) (fun hc2 => nodeIn_not_leaf hc2)
    | node il cl wl ll rl =>
      rw [hlshape] at hsub hl hpl hndl hbl hdisj ih hfuel
      obtain ⟨hpl2, hil0, nl, hnl, _⟩ := reprOf_node_ptr hl
      rw [hp] at Hcont
      have Hcont2 : ∀ f, fb + 1 ≤ f →
          predAscend t f n.left (some i) = .ok (bound.map Prod.fst) := by
        intro f hf
        match f, hf with
        | g+1, hf2 =>
          rw [hpl2]
          simp only [predAscend, RBTree.getE, hn, mbind_def, ebind_ok]
          rw [if_pos hpl2.symm, hn2par]
          exact Hcont g (by omega)
      have hstep := ih hl hpl hndl hbl Hcont2 hlj nj hnj fuel
        (by simp [FT.depth] at hfuel ⊢; omega)
      rw [hstep]
      have hwjw : wj0 < w :=
        (bstB_keys_bounded hbl wj0 (nodeIn_value_mem hsub)).2 w rfl
      simp only [FT.predBefore]
      rw [if_pos (show wj0 ≤ w by omega)]
  | inR i c w l hsub ih =>
    rename_i r0 j0 cj0 wj0 lj0 rj0
    intro p par fb bound lo hi hrep hpar hnodup hbst Hcont hlj nj hnj fuel hfuel
    obtain ⟨hp, hi0, n, hn, hc, hv, hl, hr⟩ := reprOf_node_ptr hrep
    obtain ⟨⟨n2, hn2, hn2par⟩, hpl, hpr⟩ := parentsOk_node hpar
    rw [hn] at hn2
    injection hn2 with he
    subst he
    obtain ⟨hndl, hndr, hil, hir, hdisj⟩ := idxs_node_nodup hnodup
    obtain ⟨hbl, hbr, _, _⟩ := bstB_node hbst
    cases hrshape : r0 with
    | leaf => exact absurd (hrshape ▸ hsub) (fun hc2 => nodeIn_not_leaf hc2)
    | node ir cr wr lr rr =>
      rw [hrshape] at hsub hr hpr hndr hbr hdisj hfuel ih
      obtain ⟨hpr2, hir0, nr, hnr, _⟩ := reprOf_node_ptr hr
      have Hcont2 : ∀ f, fb + 1 ≤ f →
          predAscend t f n.right (some i) = .ok ((some (i, w)).map Prod.fst) := by
        intro f hf
        match f, hf with
        | g+1, _ =>
          rw [hpr2]
          simp only [predAscend, RBTree.getE, hn, mbind_def, ebind_ok]
          have hner : (some ir : Ptr) ≠ n.left := by
            cases hlshape : l with
            | leaf =>
              have hln : n.left = nilP := by
                rw [hlshape] at hl; exact reprOf_leaf hl
              rw [hln]
              simp [nilP]
              omega
            | node il cl wl ll rl =>
              rw [hlshape] at hl
              obtain ⟨hpl2, hil0, _⟩ := reprOf_node_ptr hl
              rw [hpl2]
              have h1 : il ∈ (FT.node il cl wl ll rl).idxs := by simp [FT.idxs]
              have h2 : ir ∈ (FT.node ir cr wr lr rr).idxs := by simp [FT.idxs]
              intro hcc
              injection hcc with hcc
              exact (hdisj il (hlshape ▸ h1)) (hcc ▸ h2)
          rw [if_neg hner]
          rfl
      have hstep := ih hr hpr hndr hbr Hcont2 hlj nj hnj fuel
        (by simp [FT.depth] at hfuel ⊢; omega)
      rw [hstep]
      have hwwj : w < wj0 :=
        (bstB_keys_bounded hbr wj0 (nodeIn_value_mem hsub)).1 w rfl
      simp only [FT.predBefore]
      rw [if_neg (show ¬(wj0 ≤ w) by omega), oalt_absorb]

/-- At a node with a nonempty left subtree, the functional predecessor of
its value is the rightmost node of that subtree. -/
theorem predBefore_at_node {τ : FT} {j : Nat} {cj : Bool} {wj : Int}
    {lj rj : FT} (hin : NodeIn τ j cj wj lj rj) :
    ∀ {lo hi : Option Int}, FT.bstB lo hi τ = true → lj ≠ .leaf →
    FT.predBefore wj τ = lj.rightmost := by
  induction hin with
  | here i c w l r =>
    intro lo hi hb hne
    obtain ⟨hbl, hbr, _, _⟩ := bstB_node hb
    simp only [FT.predBefore, if_pos (le_refl w)]
    exact predBefore_max (fun k hk => (bstB_keys_bounded hbl k hk).2 w rfl)
  | inL i c w r hsub ih =>
    rename_i l0 j0 cj0 wj0 lj0 rj0
    intro lo hi hb hne
    obtain ⟨hbl, hbr, _, _⟩ := bstB_node hb
    have hlt : wj0 < w :=
      (bstB_keys_bounded hbl wj0 (nodeIn_value_mem hsub)).2 w rfl
    simp only [FT.predBefore]
    rw [if_pos (show wj0 ≤ w by omega)]
    exact ih hbl hne
  | inR i c w l hsub ih =>
    rename_i r0 j0 cj0 wj0 lj0 rj0
    intro lo hi hb hne
    obtain ⟨hbl, hbr, _, _⟩ := bstB_node hb
    have hlt : w < wj0 :=
      (bstB_keys_bounded hbr wj0 (nodeIn_value_mem hsub)).1 w rfl
    simp only [FT.predBefore]
    rw [if_neg (show ¬(wj0 ≤ w) by omega), ih hbr hne]
    obtain ⟨q, hq⟩ := rightmost_isSome hne
    rw [hq]
    rfl

/-- `Predecessor` computes the functional previous-key node. -/
theorem predecessor_spec {t : RBTree} (h : invB t = true) {j : Nat} {cj : Bool}
    {wj : Int} {lj rj : FT} (hin : NodeIn (treeOf t) j cj wj lj rj) :
    predecessor t (some j) = .ok ((FT.predBefore wj (treeOf t)).map Prod.fst) := by
  obtain ⟨hwf, hbst, _⟩ := invB_spec h
  obtain ⟨s, τ, hs0, _, _, _, hext, htree, hrep, hnodup, hpar⟩ := wfB_spec hwf
  rw [htree] at hin hbst ⊢
  obtain ⟨nj, hnj, hj0, hcol, hval, hlrep, hrrep⟩ := reprOf_nodeIn hin hrep
  have hdepth := reprOf_depth_lt hrep hnodup
  simp only [predecessor, mbind_def]
  rw [if_neg (by simp : ¬((some j : Ptr) = none))]
  simp only [RBTree.getE, hnj, ebind_ok]
  cases hlj : lj with
  | leaf =>
    rw [hlj] at hlrep hin
    have hnl : nj.left = nilP := reprOf_leaf hlrep
    rw [if_neg (by simp [hnl])]
    have Hcont : ∀ fuel, 1 ≤ fuel → predAscend t fuel t.root none =
        .ok ((none : Option (Nat × Int)).map Prod.fst) := by
      intro f hf
      match f, hf with
      | g+1, _ => rfl
    have hmain := predAscend_main hin hrep hpar hnodup hbst Hcont rfl nj hnj
      (t.nodes.size + 1) (by omega)
    rw [hmain, oalt_none_right]
  | node il cl wl ll rl =>
    rw [hlj] at hlrep hin
    have hnl : nj.left ≠ nilP := by
      intro hc
      rw [hc] at hlrep
      cases reprOf_nilP hlrep
    rw [if_pos hnl]
    have hsubd := (nodeIn_depth_le hin).1
    rw [predDescend_spec hlrep (t.nodes.size + 1) (by simp) (by omega)]
    rw [predBefore_at_node hin hbst (by simp)]

theorem findP_nodeIn {τ : FT} {v : Int} :
    ∀ {j : Nat} {w : Int}, τ.findP v = some (j, w) →
    ∃ c lj rj, NodeIn τ j c w lj rj := by
  induction τ with
  | leaf => intro j w h; simp [FT.findP] at h
  | node i c u l r ihl ihr =>
    intro j w h
    simp only [FT.findP] at h
    by_cases h1 : v < u
    · rw [if_pos h1] at h
      obtain ⟨c2, lj, rj, hin⟩ := ihl h
      exact ⟨c2, lj, rj, NodeIn.inL _ _ _ _ hin⟩
    · rw [if_neg h1] at h
      by_cases h2 : u < v
      · rw [if_pos h2] at h
        obtain ⟨c2, lj, rj, hin⟩ := ihr h
        exact ⟨c2, lj, rj, NodeIn.inR _ _ _ _ hin⟩
      · rw [if_neg h2] at h
        injection h with h
        injection h with ha hb
        subst ha; subst hb
        exact ⟨c, l, r, NodeIn.here i c u l r⟩

theorem succAfter_nodeIn {τ : FT} {v : Int} :
    ∀ {j : Nat} {w : Int}, FT.succAfter v τ = some (j, w) →
    ∃ c lj rj, NodeIn τ j c w lj rj := by
  induction τ with
  | leaf => intro j w h; simp [FT.succAfter] at h
  | node i c u l r ihl ihr =>
    intro j w h
    simp only [FT.succAfter] at h
    by_cases hu : u ≤ v
    · rw [if_pos hu] at h
      obtain ⟨c2, lj, rj, hin⟩ := ihr h
      exact ⟨c2, lj, rj, NodeIn.inR _ _ _ _ hin⟩
    · rw [if_neg hu] at h
      cases hl2 : FT.succAfter v l with
      | some q =>
        rw [hl2] at h
        simp only [oalt_some_left] at h
        injection h with h
        subst h
        obtain ⟨c2, lj, rj, hin⟩ := ihl hl2
        exact ⟨c2, lj, rj, NodeIn.inL _ _ _ _ hin⟩
      | none =>
        rw [hl2] at h
        simp only [oalt_none_left] at h
        injection h with h
        injection h with ha hb
        subst ha; subst hb
        exact ⟨c, l, r, NodeIn.here i c u l r⟩

theorem predBefore_nodeIn {τ : FT} {v : Int} :
    ∀ {j : Nat} {w : Int}, FT.predBefore v τ = some (j, w) →
    ∃ c lj rj, NodeIn τ j c w lj rj := by
  induction τ with
  | leaf => intro j w h; simp [FT.predBefore] at h
  | node i c u l r ihl ihr =>
    intro j w h
    simp only [FT.predBefore] at h
    by_cases hu : v ≤ u
    · rw [if_pos hu] at h
      obtain ⟨c2, lj, rj, hin⟩ := ihl h
      exact ⟨c2, lj, rj, NodeIn.inL _ _ _ _ hin⟩
    · rw [if_neg hu] at h
      cases hr2 : FT.predBefore v r with
      | some q =>
        rw [hr2] at h
        simp only [oalt_some_left] at h
        injection h with h
        subst h
        obtain ⟨c2, lj, rj, hin⟩ := ihr hr2
        exact ⟨c2, lj, rj, NodeIn.inR _ _ _ _ hin⟩
      | none =>
        rw [hr2] at h
        simp only [oalt_none_left] at h
        injection h with h
        injection h with ha hb
        subst ha; subst hb
        exact ⟨c, l, r, NodeIn.here i c u l r⟩

/-- With distinct keys, a value determines its node. -/
theorem nodeIn_value_unique {τ : FT} (hnd : τ.keys.Nodup) :
    ∀ {j1 : Nat} {c1 : Bool} {l1 r1 : FT} {j2 : Nat} {c2 : Bool} {l2 r2 : FT}
    {w : Int}, NodeIn τ j1 c1 w l1 r1 → NodeIn τ j2 c2 w l2 r2 → j1 = j2 := by
  induction τ with
  | leaf => intro j1 c1 l1 r1 j2 c2 l2 r2 w h1 _; exact (nodeIn_not_leaf h1).elim
  | node i c w0 l r ihl ihr =>
    intro j1 c1 l1 r1 j2 c2 l2 r2 w h1 h2
    obtain ⟨hknl, hknr, hwl, hwr, hdisj⟩ := keys_node_nodup hnd
    cases h1 with
    | here =>
      cases h2 with
      | here => rfl
      | inL _ _ _ _ hs => exact absurd (nodeIn_value_mem hs) hwl
      | inR _ _ _ _ hs => exact absurd (nodeIn_value_mem hs) hwr
    | inL _ _ _ _ hs1 =>
      cases h2 with
      | here => exact absurd (nodeIn_value_mem hs1) hwl
      | inL _ _ _ _ hs2 => exact ihl hknl hs1 hs2
      | inR _ _ _ _ hs2 =>
        exact absurd (nodeIn_value_mem hs2) (hdisj _ (nodeIn_value_mem hs1))
    | inR _ _ _ _ hs1 =>
      cases h2 with
      | here => exact absurd (nodeIn_value_mem hs1) hwr
      | inL _ _ _ _ hs2 =>
        exact absurd (nodeIn_value_mem hs1) (hdisj _ (nodeIn_value_mem hs2))
      | inR _ _ _ _ hs2 => exact ihr hknr hs1 hs2

/-- A successful search pins down a node of the tree holding the value. -/
theorem search_nodeIn {t : RBTree} (h : invB t = true) {v : Int} {j : Nat}
    (hs : search t v = .ok (some j)) :
    ∃ c lj rj, NodeIn (treeOf t) j c v lj rj := by
  obtain ⟨hwf, hbst, _⟩ := invB_spec h
  obtain ⟨s, τ, hs0, _, _, _, hext, htree, hrep, hnodup, hpar⟩ := wfB_spec hwf
  have hloop := searchLoop_spec hrep v (t.nodes.size + 1)
    (reprOf_depth_lt hrep hnodup)
  rw [search, hloop] at hs
  rw [htree]
  cases hq : τ.findP v with
  | none => rw [hq] at hs; simp at hs
  | some q =>
    obtain ⟨j2, w⟩ := q
    rw [hq] at hs
    have hw : w = v := findP_value hq
    subst hw
    simp at hs
    subst hs
    exact findP_nodeIn hq

/-- C7: null input yields the no-result signal; `Successor` of the maximum
node and `Predecessor` of the minimum node yield the no-result signal; and
for adjacent keys a < b, `Successor` of a's node is b's node and
`Predecessor` of b's node is a's node. -/
theorem c7_navigation (t : RBTree) (h : invB t = true) :
    successor t none = .ok none ∧
    predecessor t none = .ok none ∧
    (∀ (a : Int) (j : Nat), search t a = .ok (some j) →
      (∀ k ∈ keysOf t, k ≤ a) → successor t (some j) = .ok none) ∧
    (∀ (a : Int) (j : Nat), search t a = .ok (some j) →
      (∀ k ∈ keysOf t, a ≤ k) → predecessor t (some j) = .ok none) ∧
    (∀ (a b : Int) (ja jb : Nat),
      search t a = .ok (some ja) → search t b = .ok (some jb) →
      a < b → (∀ k ∈ keysOf t, k ≤ a ∨ b ≤ k) →
      successor t (some ja) = .ok (some jb) ∧
      predecessor t (some jb) = .ok (some ja)) := by
  have hnodupK : (keysOf t).Nodup := (invB_spec h).2.2.2.2.2.2
  have hbst : FT.bstB none none (treeOf t) = true := (invB_spec h).2.1
  refine ⟨by simp [successor], by simp [predecessor], ?_, ?_, ?_⟩
  · intro a j hs hmax
    obtain ⟨c, lj, rj, hin⟩ := search_nodeIn h hs
    rw [successor_spec h hin, succAfter_none hmax]
    rfl
  · intro a j hs hmin
    obtain ⟨c, lj, rj, hin⟩ := search_nodeIn h hs
    rw [predecessor_spec h hin, predBefore_none hmin]
    rfl
  · intro a b ja jb hsa hsb hab hadj
    obtain ⟨ca, la, ra, hina⟩ := search_nodeIn h hsa
    obtain ⟨cb, lb, rb, hinb⟩ := search_nodeIn h hsb
    have hbk : b ∈ keysOf t := nodeIn_value_mem hinb
    have hak : a ∈ keysOf t := nodeIn_value_mem hina
    constructor
    · rw [successor_spec h hina]
      cases hq : FT.succAfter a (treeOf t) with
      | none =>
        have := succAfter_none_inv hbst hq b hbk
        omega
      | some q =>
        obtain ⟨j2, w⟩ := q
        have hmem := succAfter_mem_gt hq
        have hleast := succAfter_least hbst hq b hbk hab
        have hwb : w = b := by
          rcases hadj w hmem.1 with hcase | hcase
          · omega
          · omega
        subst hwb
        obtain ⟨c2, l2, r2, hin2⟩ := succAfter_nodeIn hq
        have := nodeIn_value_unique hnodupK hin2 hinb
        simp [this]
    · rw [predecessor_spec h hinb]
      cases hq : FT.predBefore b (treeOf t) with
      | none =>
        have := predBefore_none_inv hbst hq a hak
        omega
      | some q =>
        obtain ⟨j2, w⟩ := q
        have hmem := predBefore_mem_lt hq
        have hgreatest := predBefore_greatest hbst hq a hak hab
        have hwa : w = a := by
          rcases hadj w hmem.1 with hcase | hcase
          · omega
          · omega
        subst hwa
        obtain ⟨c2, l2, r2, hin2⟩ := predBefore_nodeIn hq
        have := nodeIn_value_unique hnodupK hin2 hina
        simp [this]

/-- C7 witness: in the 1..10 tree, `Successor` of the node holding 10 and
`Predecessor` of the node holding 1 report none, while `Successor` of 5's
node is 6's node and `Predecessor` of 6's node is 5's node. -/
theorem c7_navigation_witness :
    successor treeTen (some 10) = .ok none ∧
    predecessor treeTen (some 1) = .ok none ∧
    successor treeTen (some 5) = .ok (some 6) ∧
    predecessor treeTen (some 6) = .ok (some 5) := by
  have h := c7_navigation treeTen (by decide)
  exact ⟨h.2.2.1 10 10 (by decide) (by decide),
    h.2.2.2.1 1 1 (by decide) (by decide),
    (h.2.2.2.2 5 6 5 6 (by decide) (by decide) (by decide) (by decide)).1,
    (h.2.2.2.2 5 6 5 6 (by decide) (by decide) (by decide) (by decide)).2⟩

/-! Context (zipper) decomposition lemmas. -/

theorem perm_rotate {α : Type} (xs ys : List α) (a : α) :
    (xs ++ a :: ys).Perm (ys ++ a :: xs) := by
  exact List.perm_middle.trans
    ((List.Perm.cons a List.perm_append_comm).trans List.perm_middle.symm)

theorem plug_keys_perm (σ : FT) (ctx : Ctx) :
    (plug σ ctx).keys.Perm (σ.keys ++ ctxKeys ctx) := by
  induction ctx generalizing σ with
  | nil => simp [plug, ctxKeys]
  | cons f ctx ih =>
    cases f with
    | lf i c v r =>
      simp only [plug]
      refine (ih _).trans ?_
      simp only [FT.keys, ctxKeys, List.append_assoc, List.cons_append]
      exact List.Perm.refl _
    | rf i c v l =>
      simp only [plug]
      refine (ih _).trans ?_
      simp only [FT.keys, ctxKeys]
      refine ((perm_rotate _ _ _).append_right _).trans ?_
      simp only [List.append_assoc, List.cons_append]
      exact List.Perm.refl _

theorem plug_idxs_perm (σ : FT) (ctx : Ctx) :
    (plug σ ctx).idxs.Perm (σ.idxs ++ ctxIdxs ctx) := by
  induction ctx generalizing σ with
  | nil => simp [plug, ctxIdxs]
  | cons f ctx ih =>
    cases f with
    | lf i c v r =>
      simp only [plug]
      refine (ih _).trans ?_
      simp only [FT.idxs, ctxIdxs, List.append_assoc, List.cons_append]
      exact List.Perm.refl _
    | rf i c v l =>
      simp only [plug]
      refine (ih _).trans ?_
      simp only [FT.idxs, ctxIdxs]
      refine ((perm_rotate _ _ _).append_right _).trans ?_
      simp only [List.append_assoc, List.cons_append]
      exact List.Perm.refl _

/-- BST order of a plugged tree restricts to the hole, with the context
bounds. -/
theorem bst_plug_hole {σ : FT} {ctx : Ctx} {lo0 hi0 : Option Int}
    (h : FT.bstB lo0 hi0 (plug σ ctx) = true) :
    FT.bstB (ctxLo lo0 ctx) (ctxHi hi0 ctx) σ = true := by
  induction ctx generalizing σ with
  | nil => exact h
  | cons f ctx ih =>
    cases f with
    | lf i c v r =>
      simp only [plug] at h
      have := (bstB_node (ih h)).1
      simpa [ctxLo, ctxHi] using this
    | rf i c v l =>
      simp only [plug] at h
      have := (bstB_node (ih h)).2.1
      simpa [ctxLo, ctxHi] using this

/-- Replacing the hole by another tree within the same bounds preserves the
BST order of the plugged tree. -/
theorem bst_plug_replace {σ σ' : FT} {ctx : Ctx} {lo0 hi0 : Option Int}
    (h : FT.bstB lo0 hi0 (plug σ ctx) = true)
    (h' : FT.bstB (ctxLo lo0 ctx) (ctxHi hi0 ctx) σ' = true) :
    FT.bstB lo0 hi0 (plug σ' ctx) = true := by
  induction ctx generalizing σ σ' with
  | nil => exact h'
  | cons f ctx ih =>
    cases f with
    | lf i c v r =>
      simp only [plug] at h ⊢
      refine ih h ?_
      have hn := ih h (bst_plug_hole h)
      have hb := bstB_node (bst_plug_hole hn)
      simp only [FT.bstB, Bool.and_eq_true]
      refine ⟨⟨⟨?_, ?_⟩, ?_⟩, hb.2.1⟩
      · cases hlo : ctxLo lo0 ctx with
        | none => simp
        | some a => simpa using hb.2.2.1 a hlo
      · cases hhi : ctxHi hi0 ctx with
        | none => simp
        | some b => simpa using hb.2.2.2 b hhi
      · simpa [ctxLo, ctxHi] using h'
    | rf i c v l =>
      simp only [plug] at h ⊢
      refine ih h ?_
      have hn := ih h (bst_plug_hole h)
      have hb := bstB_node (bst_plug_hole hn)
      simp only [FT.bstB, Bool.and_eq_true]
      refine ⟨⟨⟨?_, ?_⟩, hb.1⟩, ?_⟩
      · cases hlo : ctxLo lo0 ctx with
        | none => simp
        | some a => simpa using hb.2.2.1 a hlo
      · cases hhi : ctxHi hi0 ctx with
        | none => simp
        | some b => simpa using hb.2.2.2 b hhi
      · simpa [ctxLo, ctxHi] using h'

/-- A context chain plus a represented, parent-coherent hole yields the
represented, parent-coherent plugged tree at the root. -/
theorem ctxAt_plug {t : RBTree} {p : Ptr} {ctx : Ctx} (hctx : CtxAt t p ctx) :
    ∀ {σ : FT}, ReprOf t p σ → parentsOk t (ctxParent ctx) σ = true →
    ReprOf t t.root (plug σ ctx) ∧ parentsOk t none (plug σ ctx) = true := by
  induction hctx with
  | root => intro σ h hp; exact ⟨h, hp⟩
  | left hchain hi hn hpar hleft hsib hsibok ih =>
    intro σ h hp
    rename_i p2 ctx2 i2 n2 r2
    rw [← hleft] at h
    have hrep : ReprOf t (some i2) (.node i2 n2.color n2.value σ r2) :=
      ReprOf.node i2 n2 σ r2 hi hn h hsib
    have hpok : parentsOk t (ctxParent ctx2)
        (.node i2 n2.color n2.value σ r2) = true := by
      simp only [parentsOk, Bool.and_eq_true, hn]
      exact ⟨⟨by simp [hpar], by simpa [ctxParent] using hp⟩, hsibok⟩
    exact ih hrep hpok
  | right hchain hi hn hpar hright hsib hsibok ih =>
    intro σ h hp
    rename_i p2 ctx2 i2 n2 l2
    rw [← hright] at h
    have hrep : ReprOf t (some i2) (.node i2 n2.color n2.value l2 σ) :=
      ReprOf.node i2 n2 l2 σ hi hn hsib h
    have hpok : parentsOk t (ctxParent ctx2)
        (.node i2 n2.color n2.value l2 σ) = true := by
      simp only [parentsOk, Bool.and_eq_true, hn]
      exact ⟨⟨by simp [hpar], hsibok⟩, by simpa [ctxParent] using hp⟩
    exact ih hrep hpok

/-- Representation depends only on the slots of the represented tree. -/
theorem reprOf_agree {t t' : RBTree} {p : Ptr} {σ : FT} (h : ReprOf t p σ)
    (hagree : ∀ k ∈ σ.idxs, t'.nodes[k]? = t.nodes[k]?) : ReprOf t' p σ := by
  induction h with
  | leaf => exact ReprOf.leaf
  | node i n l r hi hn hl hr ihl ihr =>
    refine ReprOf.node i n l r hi ?_ ?_ ?_
    · rw [hagree i (by simp [FT.idxs])]; exact hn
    · exact ihl (fun k hk => hagree k (by simp [FT.idxs]; exact Or.inl hk))
    · exact ihr (fun k hk => hagree k (by simp [FT.idxs]; right; right; exact hk))

/-- Parent coherence depends only on the slots of the tree. -/
theorem parentsOk_agree {t t' : RBTree} {par : Ptr} {σ : FT}
    (h : parentsOk t par σ = true)
    (hagree : ∀ k ∈ σ.idxs, t'.nodes[k]? = t.nodes[k]?) :
    parentsOk t' par σ = true := by
  induction σ generalizing par with
  | leaf => rfl
  | node i c v l r ihl ihr =>
    simp only [parentsOk, Bool.and_eq_true] at h ⊢
    refine ⟨⟨?_, ihl h.1.2 (fun k hk => hagree k (by simp [FT.idxs]; exact Or.inl hk))⟩,
      ihr h.2 (fun k hk => hagree k (by simp [FT.idxs]; right; right; exact hk))⟩
    rw [hagree i (by simp [FT.idxs])]
    exact h.1.1

/-- A context chain survives any heap change that does not touch its slots
and keeps the root pointer. -/
theorem ctxAt_agree {t t' : RBTree} {p : Ptr} {ctx : Ctx} (h : CtxAt t p ctx)
    (hroot : t'.root = t.root)
    (hagree : ∀ k ∈ ctxIdxs ctx, t'.nodes[k]? = t.nodes[k]?) :
    CtxAt t' p ctx := by
  induction h with
  | root => rw [← hroot]; exact CtxAt.root
  | left hchain hi hn hpar hleft hsib hsibok ih =>
    rename_i p2 ctx2 i2 n2 r2
    refine CtxAt.left (ih ?_) hi ?_ hpar hleft ?_ ?_
    · intro k hk
      exact hagree k (by simp [ctxIdxs]; right; right; exact hk)
    · rw [hagree i2 (by simp [ctxIdxs])]; exact hn
    · exact reprOf_agree hsib
        (fun k hk => hagree k (by simp [ctxIdxs]; right; exact Or.inl hk))
    · exact parentsOk_agree hsibok
        (fun k hk => hagree k (by simp [ctxIdxs]; right; exact Or.inl hk))
  | right hchain hi hn hpar hright hsib hsibok ih =>
    rename_i p2 ctx2 i2 n2 l2
    refine CtxAt.right (ih ?_) hi ?_ hpar hright ?_ ?_
    · intro k hk
      exact hagree k (by simp [ctxIdxs]; right; right; exact hk)
    · rw [hagree i2 (by simp [ctxIdxs])]; exact hn
    · exact reprOf_agree hsib
        (fun k hk => hagree k (by simp [ctxIdxs]; right; exact Or.inl hk))
    · exact parentsOk_agree hsibok
        (fun k hk => hagree k (by simp [ctxIdxs]; right; exact Or.inl hk))

/-- BST order with strict bounds forces distinct keys. -/
theorem bstB_keys_nodup {σ : FT} :
    ∀ {lo hi : Option Int}, FT.bstB lo hi σ = true → σ.keys.Nodup := by
  induction σ with
  | leaf => intro lo hi _; simp [FT.keys]
  | node i c v l r ihl ihr =>
    intro lo hi h
    obtain ⟨hbl, hbr, _, _⟩ := bstB_node h
    simp only [FT.keys]
    rw [List.nodup_append]
    refine ⟨ihl hbl, ?_, ?_⟩
    · rw [List.nodup_cons]
      refine ⟨?_, ihr hbr⟩
      intro hc
      have := (bstB_keys_bounded hbr v hc).1 v rfl
      omega
    · intro x hx hc
      have hxv := (bstB_keys_bounded hbl x hx).2 v rfl
      simp only [List.mem_cons] at hc
      rcases hc with hc | hc
      · omega
      · have := (bstB_keys_bounded hbr x hc).1 v rfl
        omega

/-! Heap update lemmas. -/

theorem upd_get_self {t : RBTree} {k : Nat} {x : GNode}
    (hk : k < t.nodes.size) : (upd t k x).nodes[k]? = some x := by
  show (t.nodes.setD k x)[k]? = some x
  exact Array.getElem?_setD_eq _ hk _

theorem upd_get_ne {t : RBTree} {k : Nat} {x : GNode} {j : Nat}
    (hne : j ≠ k) : (upd t k x).nodes[j]? = t.nodes[j]? :=
  getElem?_setD_ne _ _ _ _ hne

theorem upd_root {t : RBTree} {k : Nat} {x : GNode} :
    (upd t k x).root = t.root := rfl

theorem upd_size {t : RBTree} {k : Nat} {x : GNode} :
    (upd t k x).nodes.size = t.nodes.size :=
  Array.size_setD _ _ _

theorem setF_okU {t : RBTree} {i : Nat} {f : GNode → GNode} {n : GNode}
    (hn : t.nodes[i]? = some n) :
    t.setF (some i) f = .ok (upd t i (f n)) :=
  setF_ok hn

theorem getE_ok {t : RBTree} {i : Nat} {n : GNode}
    (hn : t.nodes[i]? = some n) : t.getE (some i) = .ok n := by
  simp [RBTree.getE, hn]

/-- Retarget the innermost frame (left form): if the heap changes only
redirect the frame node's left child to `p2` (all other context slots and
the sibling untouched, root preserved), the context chain survives with the
new hole pointer. -/
theorem ctxAt_retarget_lf {t t' : RBTree} {p p2 : Ptr} {i : Nat} {c : Bool}
    {v : Int} {r : FT} {ctx : Ctx}
    (h : CtxAt t p (.lf i c v r :: ctx)) (hroot : t'.root = t.root)
    (hagree : ∀ k ∈ ctxIdxs ctx, t'.nodes[k]? = t.nodes[k]?)
    (hsag : ∀ k ∈ r.idxs, t'.nodes[k]? = t.nodes[k]?)
    (hnode : ∀ n, t.nodes[i]? = some n →
      t'.nodes[i]? = some { n with left := p2 }) :
    CtxAt t' p2 (.lf i c v r :: ctx) := by
  cases h with
  | left hchain hi hn hpar hleft hsib hsibok =>
    rename_i n
    have hn' := hnode n hn
    exact @CtxAt.left t' p2 ctx i { n with left := p2 } r
      (ctxAt_agree hchain hroot hagree) hi hn' (by simpa using hpar) rfl
      (reprOf_agree hsib (fun k hk => hsag k hk))
      (parentsOk_agree hsibok (fun k hk => hsag k hk))

/-- Retarget the innermost frame (right form). -/
theorem ctxAt_retarget_rf {t t' : RBTree} {p p2 : Ptr} {i : Nat} {c : Bool}
    {v : Int} {l : FT} {ctx : Ctx}
    (h : CtxAt t p (.rf i c v l :: ctx)) (hroot : t'.root = t.root)
    (hagree : ∀ k ∈ ctxIdxs ctx, t'.nodes[k]? = t.nodes[k]?)
    (hsag : ∀ k ∈ l.idxs, t'.nodes[k]? = t.nodes[k]?)
    (hnode : ∀ n, t.nodes[i]? = some n →
      t'.nodes[i]? = some { n with right := p2 }) :
    CtxAt t' p2 (.rf i c v l :: ctx) := by
  cases h with
  | right hchain hi hn hpar hright hsib hsibok =>
    rename_i n
    have hn' := hnode n hn
    exact @CtxAt.right t' p2 ctx i { n with right := p2 } l
      (ctxAt_agree hchain hroot hagree) hi hn' (by simpa using hpar) rfl
      (reprOf_agree hsib (fun k hk => hsag k hk))
      (parentsOk_agree hsibok (fun k hk => hsag k hk))

theorem shapeEq_refl (x : Option GNode) : shapeEq x x := by
  cases x <;> simp [shapeEq]

/-- Representation only reads color, links and value: it survives changes
to parent fields. -/
theorem reprOf_agreeS {t t' : RBTree} {p : Ptr} {σ : FT} (h : ReprOf t p σ)
    (hagree : ∀ k ∈ σ.idxs, shapeEq (t'.nodes[k]?) (t.nodes[k]?)) :
    ReprOf t' p σ := by
  induction h with
  | leaf => exact ReprOf.leaf
  | node i n l r hi hn hl hr ihl ihr =>
    have hsh := hagree i (by simp [FT.idxs])
    rw [hn] at hsh
    match hn' : t'.nodes[i]? with
    | none => rw [hn'] at hsh; simp [shapeEq] at hsh
    | some n2 =>
      rw [hn'] at hsh
      obtain ⟨hc, hl2, hr2, hv⟩ := hsh
      have hrl : ReprOf t' n2.left l := by
        rw [hl2]
        exact ihl (fun k hk => hagree k (by simp [FT.idxs]; exact Or.inl hk))
      have hrr : ReprOf t' n2.right r := by
        rw [hr2]
        exact ihr (fun k hk => hagree k (by simp [FT.idxs]; right; right; exact hk))
      have := ReprOf.node i n2 l r hi hn' hrl hrr
      rw [hc, hv] at this
      exact this

/-! Rotation lemmas at the zipper level. -/

theorem nodup_plug_split {σ : FT} {ctx : Ctx}
    (h : (plug σ ctx).idxs.Nodup) :
    σ.idxs.Nodup ∧ (ctxIdxs ctx).Nodup ∧
    ∀ x ∈ σ.idxs, x ∉ ctxIdxs ctx := by
  have hperm := plug_idxs_perm σ ctx
  have hnd := hperm.nodup_iff.mp h
  rw [List.nodup_append] at hnd
  exact ⟨hnd.1, hnd.2.1, fun x hx hc => hnd.2.2 hx hc⟩

theorem reprOf_mem_idxs {t : RBTree} {s : Nat} {σ : FT}
    (h : ReprOf t (some s) σ) (hs : s ≠ 0) : s ∈ σ.idxs := by
  cases σ with
  | leaf =>
    have := reprOf_leaf h
    simp only [nilP, Option.some.injEq] at this
    exact absurd this hs
  | node i c w l r =>
    obtain ⟨hp, _, _⟩ := reprOf_node_ptr h
    injection hp with hp
    simp [FT.idxs, hp]

theorem ctxAt_nil {t : RBTree} {p : Ptr} (h : CtxAt t p []) : p = t.root := by
  cases h
  rfl

theorem ctxAt_cons_lf {t : RBTree} {p : Ptr} {fi : Nat} {fc : Bool} {fv : Int}
    {sib : FT} {ctx : Ctx} (h : CtxAt t p (.lf fi fc fv sib :: ctx)) :
    ∃ fn, CtxAt t (some fi) ctx ∧ fi ≠ 0 ∧ t.nodes[fi]? = some fn ∧
      fn.parent = ctxParent ctx ∧ fn.left = p ∧
      ReprOf t fn.right sib ∧ parentsOk t (some fi) sib = true := by
  cases h with
  | left hchain hi hn hpar hleft hsib hsibok =>
    rename_i n
    exact ⟨n, hchain, hi, hn, hpar, hleft, hsib, hsibok⟩

theorem ctxAt_cons_rf {t : RBTree} {p : Ptr} {fi : Nat} {fc : Bool} {fv : Int}
    {sib : FT} {ctx : Ctx} (h : CtxAt t p (.rf fi fc fv sib :: ctx)) :
    ∃ fn, CtxAt t (some fi) ctx ∧ fi ≠ 0 ∧ t.nodes[fi]? = some fn ∧
      fn.parent = ctxParent ctx ∧ fn.right = p ∧
      ReprOf t fn.left sib ∧ parentsOk t (some fi) sib = true := by
  cases h with
  | right hchain hi hn hpar hright hsib hsibok =>
    rename_i n
    exact ⟨n, hchain, hi, hn, hpar, hright, hsib, hsibok⟩

/-- The two final parent writes of a left rotation, from the heap state just
before them: the rotated subtree is represented at `j` with coherent parent
links and the context chain survives. -/
theorem rotateLeft_assemble {t4 : RBTree} {ctx : Ctx}
    {i : Nat} {ci : Bool} {vi : Int} {li : FT}
    {j : Nat} {cj : Bool} {vj : Int} {rl rr : FT}
    {n4 m4 : GNode}
    (hi0 : i ≠ 0) (hj0 : j ≠ 0) (hij : i ≠ j)
    (hi4 : t4.nodes[i]? = some n4) (hj4 : t4.nodes[j]? = some m4)
    (hn4c : n4.color = ci) (hn4v : n4.value = vi)
    (hn4p : n4.parent = ctxParent ctx)
    (hm4c : m4.color = cj) (hm4v : m4.value = vj) (hm4l : m4.left = some i)
    (hli4 : ReprOf t4 n4.left li) (hrl4 : ReprOf t4 n4.right rl)
    (hrr4 : ReprOf t4 m4.right rr)
    (hpli4 : parentsOk t4 (some i) li = true)
    (hprl4 : parentsOk t4 (some i) rl = true)
    (hprr4 : parentsOk t4 (some j) rr = true)
    (hctx4 : CtxAt t4 (some j) ctx)
    (hiLi : i ∉ li.idxs) (hiRl : i ∉ rl.idxs) (hiRr : i ∉ rr.idxs)
    (hjLi : j ∉ li.idxs) (hjRl : j ∉ rl.idxs) (hjRr : j ∉ rr.idxs)
    (hiC : i ∉ ctxIdxs ctx) (hjC : j ∉ ctxIdxs ctx) :
    ∀ tF, tF = upd (upd t4 j { m4 with parent := n4.parent }) i
        { n4 with parent := some j } →
      CtxAt tF (some j) ctx ∧
      ReprOf tF (some j) (.node j cj vj (.node i ci vi li rl) rr) ∧
      parentsOk tF (ctxParent ctx) (.node j cj vj (.node i ci vi li rl) rr)
        = true ∧
      tF.nodes.size = t4.nodes.size ∧ tF.nodes[0]? = t4.nodes[0]? ∧
      tF.root = t4.root := by
  intro tF htF
  have hilt : i < t4.nodes.size := getElem?_some_lt hi4
  have hjlt : j < t4.nodes.size := getElem?_some_lt hj4
  have hFo : ∀ s, s ≠ i → s ≠ j → tF.nodes[s]? = t4.nodes[s]? := by
    intro s hsi hsj
    rw [htF, upd_get_ne hsi, upd_get_ne hsj]
  have hFi : tF.nodes[i]? = some { n4 with parent := some j } := by
    rw [htF]
    exact upd_get_self (by rw [upd_size]; exact hilt)
  have hFj : tF.nodes[j]? = some { m4 with parent := n4.parent } := by
    rw [htF, upd_get_ne (fun h => hij h.symm)]
    exact upd_get_self hjlt
  have hli2 : ReprOf tF n4.left li :=
    reprOf_agree hli4 (fun s hs =>
      hFo s (fun he => hiLi (he ▸ hs)) (fun he => hjLi (he ▸ hs)))
  have hrl2 : ReprOf tF n4.right rl :=
    reprOf_agree hrl4 (fun s hs =>
      hFo s (fun he => hiRl (he ▸ hs)) (fun he => hjRl (he ▸ hs)))
  have hrr2 : ReprOf tF m4.right rr :=
    reprOf_agree hrr4 (fun s hs =>
      hFo s (fun he => hiRr (he ▸ hs)) (fun he => hjRr (he ▸ hs)))
  have hinner : ReprOf tF (some i) (.node i ci vi li rl) := by
    have h1 := ReprOf.node i { n4 with parent := some j } li rl hi0 hFi
      (by exact hli2) (by exact hrl2)
    rw [show ({ n4 with parent := some j } : GNode).color = ci from hn4c,
      show ({ n4 with parent := some j } : GNode).value = vi from hn4v] at h1
    exact h1
  have houter : ReprOf tF (some j)
      (.node j cj vj (.node i ci vi li rl) rr) := by
    have h1 := ReprOf.node j { m4 with parent := n4.parent }
      (.node i ci vi li rl) rr hj0 hFj
      (by rw [show ({ m4 with parent := n4.parent } : GNode).left = some i
            from hm4l]
          exact hinner)
      (by exact hrr2)
    rw [show ({ m4 with parent := n4.parent } : GNode).color = cj from hm4c,
      show ({ m4 with parent := n4.parent } : GNode).value = vj from hm4v] at h1
    exact h1
  refine ⟨?_, houter, ?_, ?_, ?_, ?_⟩
  · exact ctxAt_agree hctx4 (by rw [htF]; rfl)
      (fun s hs => hFo s (fun he => hiC (he ▸ hs)) (fun he => hjC (he ▸ hs)))
  · simp only [parentsOk, Bool.and_eq_true]
    refine ⟨⟨?_, ⟨⟨?_, ?_⟩, ?_⟩⟩, ?_⟩
    · rw [hFj]; simp [hn4p]
    · rw [hFi]; simp
    · exact parentsOk_agree hpli4 (fun s hs =>
        hFo s (fun he => hiLi (he ▸ hs)) (fun he => hjLi (he ▸ hs)))
    · exact parentsOk_agree hprl4 (fun s hs =>
        hFo s (fun he => hiRl (he ▸ hs)) (fun he => hjRl (he ▸ hs)))
    · exact parentsOk_agree hprr4 (fun s hs =>
        hFo s (fun he => hiRr (he ▸ hs)) (fun he => hjRr (he ▸ hs)))
  · rw [htF, upd_size, upd_size]
  · exact hFo 0 (fun h => hi0 h.symm) (fun h => hj0 h.symm)
  · rw [htF]; rfl

set_option maxHeartbeats 1600000 in
/-- Left rotation at a represented node whose right child is a real node:
the heap run succeeds and the zipper is rebuilt with the rotated subtree. -/
theorem rotateLeft_zip {t : RBTree} {q : Ptr} {ctx : Ctx}
    {i : Nat} {ci : Bool} {vi : Int} {li : FT}
    {j : Nat} {cj : Bool} {vj : Int} {rl rr : FT}
    (hctx : CtxAt t q ctx)
    (hrep : ReprOf t q (.node i ci vi li (.node j cj vj rl rr)))
    (hpok : parentsOk t (ctxParent ctx)
      (.node i ci vi li (.node j cj vj rl rr)) = true)
    (hnodup : (plug (.node i ci vi li (.node j cj vj rl rr)) ctx).idxs.Nodup) :
    ∃ t', rotateLeft t q = .ok t' ∧
      CtxAt t' (some j) ctx ∧
      ReprOf t' (some j) (.node j cj vj (.node i ci vi li rl) rr) ∧
      parentsOk t' (ctxParent ctx)
        (.node j cj vj (.node i ci vi li rl) rr) = true ∧
      t'.nodes.size = t.nodes.size ∧
      t'.nodes[0]? = t.nodes[0]? := by
  obtain ⟨hq, hi0, n, hn, hnc, hnv, hli, hnr⟩ := reprOf_node_ptr hrep
  obtain ⟨hrj, hj0, m, hm, hmc, hmv, hrl, hrr⟩ := reprOf_node_ptr hnr
  obtain ⟨⟨n2, hn2, hn2p⟩, hpli, hpnr⟩ := parentsOk_node hpok
  rw [hn] at hn2
  injection hn2 with he
  subst he
  obtain ⟨⟨m2, hm2, hm2p⟩, hprl, hprr⟩ := parentsOk_node hpnr
  rw [hm] at hm2
  injection hm2 with he2
  subst he2
  obtain ⟨hndσ, hndctx, hdisjctx⟩ := nodup_plug_split hnodup
  obtain ⟨hndli, hndjt, hi_li, hi_jt, hdisj_li⟩ := idxs_node_nodup hndσ
  obtain ⟨hndrl, hndrr, hj_rl, hj_rr, hdisj_rlrr⟩ := idxs_node_nodup hndjt
  have hjmem : ∀ x, x = j ∨ x ∈ rl.idxs ∨ x ∈ rr.idxs →
      x ∈ (FT.node j cj vj rl rr).idxs := by
    intro x hx
    simp only [FT.idxs, List.mem_append, List.mem_cons]
    rcases hx with h | h | h
    · exact Or.inr (Or.inl h)
    · exact Or.inl h
    · exact Or.inr (Or.inr h)
  have hsmem : ∀ x, x = i ∨ x ∈ li.idxs ∨ x ∈ (FT.node j cj vj rl rr).idxs →
      x ∈ (FT.node i ci vi li (FT.node j cj vj rl rr)).idxs := by
    intro x hx
    simp only [FT.idxs, List.mem_append, List.mem_cons] at hx ⊢
    rcases hx with h | h | h | h | h
    · exact Or.inr (Or.inl h)
    · exact Or.inl h
    · exact Or.inr (Or.inr (Or.inl h))
    · exact Or.inr (Or.inr (Or.inr (Or.inl h)))
    · exact Or.inr (Or.inr (Or.inr (Or.inr h)))
  have hij : i ≠ j := fun he => hi_jt (hjmem i (Or.inl he))
  have hi_rl : i ∉ rl.idxs := fun hc => hi_jt (hjmem i (Or.inr (Or.inl hc)))
  have hi_rr : i ∉ rr.idxs := fun hc => hi_jt (hjmem i (Or.inr (Or.inr hc)))
  have hjLi : j ∉ li.idxs := fun hc => hdisj_li j hc (hjmem j (Or.inl rfl))
  have hiC : i ∉ ctxIdxs ctx := hdisjctx i (hsmem i (Or.inl rfl))
  have hjC : j ∉ ctxIdxs ctx :=
    hdisjctx j (hsmem j (Or.inr (Or.inr (hjmem j (Or.inl rfl)))))
  have hCne : ∀ s ∈ ctxIdxs ctx,
      s ≠ i ∧ s ≠ j ∧ s ∉ rl.idxs ∧ s ∉ li.idxs ∧ s ∉ rr.idxs := by
    intro s hs
    refine ⟨fun he => hiC (he ▸ hs), fun he => hjC (he ▸ hs),
      fun hc => hdisjctx s
        (hsmem s (Or.inr (Or.inr (hjmem s (Or.inr (Or.inl hc)))))) hs,
      fun hc => hdisjctx s (hsmem s (Or.inr (Or.inl hc))) hs,
      fun hc => hdisjctx s
        (hsmem s (Or.inr (Or.inr (hjmem s (Or.inr (Or.inr hc)))))) hs⟩
  have hilt : i < t.nodes.size := getElem?_some_lt hn
  have hjlt : j < t.nodes.size := getElem?_some_lt hm
  subst hq
  have sP : ∀ (tt : RBTree) (g : Nat) (q2 : Ptr) (x : GNode),
      tt.nodes[g]? = some x →
      RBTree.setParent tt (some g) q2 =
        .ok (upd tt g { x with parent := q2 }) := by
    intro tt g q2 x hx
    unfold RBTree.setParent
    exact setF_okU hx
  have sL : ∀ (tt : RBTree) (g : Nat) (q2 : Ptr) (x : GNode),
      tt.nodes[g]? = some x →
      RBTree.setLeft tt (some g) q2 =
        .ok (upd tt g { x with left := q2 }) := by
    intro tt g q2 x hx
    unfold RBTree.setLeft
    exact setF_okU hx
  have sR : ∀ (tt : RBTree) (g : Nat) (q2 : Ptr) (x : GNode),
      tt.nodes[g]? = some x →
      RBTree.setRight tt (some g) q2 =
        .ok (upd tt g { x with right := q2 }) := by
    intro tt g q2 x hx
    unfold RBTree.setRight
    exact setF_okU hx
  obtain ⟨nc, np, nl, nrt, nv⟩ := n
  obtain ⟨mc, mp, ml, mrt, mv⟩ := m
  simp only at hnc hnv hrj hn2p hli hmc hmv hrl hrr
  subst hrj
  cases ctx with
  | nil =>
    simp only [ctxParent] at hn2p
    subst hn2p
    cases rl with
    | leaf =>
      have hml : ml = nilP := reprOf_leaf hrl
      subst hml
      simp only [rotateLeft, mbind_def]
      rw [getE_ok hn]
      simp only [ebind_ok]
      rw [if_neg (show ¬((some j : Ptr) = nilP) by simp [nilP]; exact hj0)]
      rw [getE_ok hm]
      simp only [ebind_ok]
      rw [sR t i nilP _ hn]
      simp only [ebind_ok]
      set t1 := upd t i { color := nc, parent := none, left := nl, right := nilP, value := nv } with ht1def
      have hm_t1 : t1.nodes[j]? = some
          { color := mc, parent := mp, left := nilP, right := mrt, value := mv } := by
        rw [ht1def, upd_get_ne (fun h => hij h.symm)]
        exact hm
      rw [sL _ j (some i) _ hm_t1]
      simp only [ebind_ok]
      set t2 := upd t1 j { color := mc, parent := mp, left := some i, right := mrt, value := mv } with ht2def
      have hn_t2 : t2.nodes[i]? = some
          { color := nc, parent := none, left := nl, right := nilP, value := nv } := by
        rw [ht2def, upd_get_ne hij, ht1def]
        exact upd_get_self hilt
      rw [getE_ok hn_t2]
      simp only [ebind_ok]
      rw [if_neg (show ¬((nilP : Ptr) ≠ nilP) by simp)]
      simp only [mpure_def, ebind_ok]
      have ht3j : t2.nodes[j]? = some
          { color := mc, parent := mp, left := some i, right := mrt, value := mv } := by
        rw [ht2def]
        exact upd_get_self (by rw [ht1def, upd_size]; exact hjlt)
      have ht3out : ∀ s, s ≠ i → s ≠ j → t2.nodes[s]? = t.nodes[s]? := by
        intro s h1 h2
        rw [ht2def, upd_get_ne h2, ht1def, upd_get_ne h1]
      have ht3size : t2.nodes.size = t.nodes.size := by
        rw [ht2def, upd_size, ht1def, upd_size]
      have ht3root : t2.root = t.root := by
        rw [ht2def, upd_root, ht1def, upd_root]
      have hliagree : ∀ s ∈ li.idxs, t2.nodes[s]? = t.nodes[s]? := fun s hs =>
        ht3out s (fun he => hi_li (he ▸ hs)) (fun he => hjLi (he ▸ hs))
      have hrragree : ∀ s ∈ rr.idxs, t2.nodes[s]? = t.nodes[s]? := fun s hs =>
        ht3out s (fun he => hi_rr (he ▸ hs)) (fun he => hj_rr (he ▸ hs))
      have hli3 := reprOf_agree hli hliagree
      have hrr3 := reprOf_agree hrr hrragree
      have hpli3 := parentsOk_agree hpli hliagree
      have hprr3 := parentsOk_agree hprr hrragree
      rw [getE_ok hn_t2]
      simp only [ebind_ok, mpure_def]
      set t4 := { t2 with root := some j } with ht4def
      have ht4i : t4.nodes[i]? = some
          { color := nc, parent := none, left := nl, right := nilP, value := nv } := hn_t2
      rw [getE_ok ht4i]
      simp only [ebind_ok]
      have ht4j : t4.nodes[j]? = some
          { color := mc, parent := mp, left := some i, right := mrt, value := mv } := ht3j
      rw [sP _ j none _ ht4j]
      simp only [ebind_ok]
      set t5 := upd t4 j { color := mc, parent := none, left := some i, right := mrt, value := mv } with ht5def
      have ht5i : t5.nodes[i]? = some
          { color := nc, parent := none, left := nl, right := nilP, value := nv } := by
        rw [ht5def, upd_get_ne hij]
        exact ht4i
      rw [sP _ i (some j) _ ht5i]
      have hctx4 : CtxAt t4 (some j) [] := CtxAt.root
      have ht4size : t4.nodes.size = t.nodes.size := ht3size
      have ht40 : t4.nodes[0]? = t.nodes[0]? :=
        ht3out 0 (fun h => hi0 h.symm) (fun h => hj0 h.symm)
      obtain ⟨hA, hB, hC, hD, hE, hF⟩ :=
        rotateLeft_assemble hi0 hj0 hij ht4i ht4j hnc hnv
          (show _ = ctxParent ([] : Ctx) from rfl) hmc hmv rfl
          (reprOf_agree hli3 (fun s hs => rfl)) ReprOf.leaf
          (reprOf_agree hrr3 (fun s hs => rfl))
          (parentsOk_agree hpli3 (fun s hs => rfl)) rfl
          (parentsOk_agree hprr3 (fun s hs => rfl))
          hctx4 hi_li hi_rl hi_rr hjLi hj_rl hj_rr hiC hjC
          (upd (upd t4 j
          { color := mc, parent := none, left := some i, right := mrt, value := mv }) i
          { color := nc, parent := some j, left := nl, right := nilP, value := nv }) rfl
      exact ⟨upd (upd t4 j
          { color := mc, parent := none, left := some i, right := mrt, value := mv }) i
          { color := nc, parent := some j, left := nl, right := nilP, value := nv }, rfl,
        hA, hB, hC, hD.trans ht4size, hE.trans ht40⟩
    | node k ck wk a b =>
      obtain ⟨hml, hk0, tk, htk, htkc, htkv, hta, htb⟩ := reprOf_node_ptr hrl
      subst hml
      obtain ⟨hnda, hndb, hka, hkb, hdisj_ab⟩ := idxs_node_nodup hndrl
      have hkmem : k ∈ (FT.node k ck wk a b).idxs := by
        simp [FT.idxs]
      have hki : k ≠ i := fun h => hi_rl (h ▸ hkmem)
      have hkj : k ≠ j := fun h => hj_rl (h ▸ hkmem)
      have hklt : k < t.nodes.size := getElem?_some_lt htk
      simp only [rotateLeft, mbind_def]
      rw [getE_ok hn]
      simp only [ebind_ok]
      rw [if_neg (show ¬((some j : Ptr) = nilP) by simp [nilP]; exact hj0)]
      rw [getE_ok hm]
      simp only [ebind_ok]
      rw [sR t i (some k) _ hn]
      simp only [ebind_ok]
      set t1 := upd t i { color := nc, parent := none, left := nl, right := some k, value := nv } with ht1def
      have hm_t1 : t1.nodes[j]? = some
          { color := mc, parent := mp, left := some k, right := mrt, value := mv } := by
        rw [ht1def, upd_get_ne (fun h => hij h.symm)]
        exact hm
      rw [sL _ j (some i) _ hm_t1]
      simp only [ebind_ok]
      set t2 := upd t1 j { color := mc, parent := mp, left := some i, right := mrt, value := mv } with ht2def
      have hn_t2 : t2.nodes[i]? = some
          { color := nc, parent := none, left := nl, right := some k, value := nv } := by
        rw [ht2def, upd_get_ne hij, ht1def]
        exact upd_get_self hilt
      rw [getE_ok hn_t2]
      simp only [ebind_ok]
      rw [if_pos (show ((some k : Ptr) ≠ nilP) by simp [nilP]; exact hk0)]
      have htk_t2 : t2.nodes[k]? = some tk := by
        rw [ht2def, upd_get_ne hkj, ht1def, upd_get_ne hki]
        exact htk
      rw [sP _ k (some i) tk htk_t2]
      simp only [ebind_ok]
      set t3 := upd t2 k { tk with parent := some i } with ht3def
      have ht3i : t3.nodes[i]? = some
          { color := nc, parent := none, left := nl, right := some k, value := nv } := by
        rw [ht3def, upd_get_ne (fun h => hki h.symm)]
        exact hn_t2
      have ht3j : t3.nodes[j]? = some
          { color := mc, parent := mp, left := some i, right := mrt, value := mv } := by
        rw [ht3def, upd_get_ne (fun h => hkj h.symm), ht2def]
        exact upd_get_self (by rw [ht1def, upd_size]; exact hjlt)
      have ht3out : ∀ s, s ≠ i → s ≠ j → s ≠ k → t3.nodes[s]? = t.nodes[s]? := by
        intro s h1 h2 h3
        rw [ht3def, upd_get_ne h3, ht2def, upd_get_ne h2, ht1def, upd_get_ne h1]
      have ht3size : t3.nodes.size = t.nodes.size := by
        rw [ht3def, upd_size, ht2def, upd_size, ht1def, upd_size]
      have ht3root : t3.root = t.root := by
        rw [ht3def, upd_root, ht2def, upd_root, ht1def, upd_root]
      have hkself : t3.nodes[k]? = some { tk with parent := some i } := by
        rw [ht3def]
        exact upd_get_self (by rw [ht2def, upd_size, ht1def, upd_size]; exact hklt)
      have hrlagree : ∀ s, s ∈ a.idxs ∨ s ∈ b.idxs →
          t3.nodes[s]? = t.nodes[s]? := by
        intro s hs
        have hsk : s ≠ k := by
          rcases hs with h | h
          · exact fun he => hka (he ▸ h)
          · exact fun he => hkb (he ▸ h)
        have hsrl : s ∈ (FT.node k ck wk a b).idxs := by
          simp only [FT.idxs, List.mem_append, List.mem_cons]
          rcases hs with h | h
          · exact Or.inl h
          · exact Or.inr (Or.inr h)
        exact ht3out s (fun he => hi_rl (he ▸ hsrl)) (fun he => hj_rl (he ▸ hsrl)) hsk
      have ht3rep : ReprOf t3 (some k) (.node k ck wk a b) := by
        have hta2 : ReprOf t3 tk.left a :=
          reprOf_agree hta (fun s hs => hrlagree s (Or.inl hs))
        have htb2 : ReprOf t3 tk.right b :=
          reprOf_agree htb (fun s hs => hrlagree s (Or.inr hs))
        have h1 := ReprOf.node k { tk with parent := some i } a b hk0 hkself
          (by exact hta2) (by exact htb2)
        rw [show ({ tk with parent := some i } : GNode).color = ck from htkc,
          show ({ tk with parent := some i } : GNode).value = wk from htkv] at h1
        exact h1
      have ht3pok : parentsOk t3 (some i) (.node k ck wk a b) = true := by
        obtain ⟨⟨tk2, htk2, htk2p⟩, hpa, hpb⟩ := parentsOk_node hprl
        simp only [parentsOk, Bool.and_eq_true]
        refine ⟨⟨?_, ?_⟩, ?_⟩
        · rw [hkself]
          simp
        · exact parentsOk_agree hpa (fun s hs => hrlagree s (Or.inl hs))
        · exact parentsOk_agree hpb (fun s hs => hrlagree s (Or.inr hs))
      have hliagree : ∀ s ∈ li.idxs, t3.nodes[s]? = t.nodes[s]? := fun s hs =>
        ht3out s (fun he => hi_li (he ▸ hs)) (fun he => hjLi (he ▸ hs))
          (fun he => hdisj_li s hs (hjmem s (Or.inr (Or.inl (he ▸ hkmem)))))
      have hrragree : ∀ s ∈ rr.idxs, t3.nodes[s]? = t.nodes[s]? := fun s hs =>
        ht3out s (fun he => hi_rr (he ▸ hs)) (fun he => hj_rr (he ▸ hs))
          (fun he => hdisj_rlrr k hkmem (he ▸ hs))
      have hli3 := reprOf_agree hli hliagree
      have hrr3 := reprOf_agree hrr hrragree
      have hpli3 := parentsOk_agree hpli hliagree
      have hprr3 := parentsOk_agree hprr hrragree
      rw [getE_ok ht3i]
      simp only [ebind_ok, mpure_def]
      set t4 := { t3 with root := some j } with ht4def
      have ht4i : t4.nodes[i]? = some
          { color := nc, parent := none, left := nl, right := some k, value := nv } := ht3i
      rw [getE_ok ht4i]
      simp only [ebind_ok]
      have ht4j : t4.nodes[j]? = some
          { color := mc, parent := mp, left := some i, right := mrt, value := mv } := ht3j
      rw [sP _ j none _ ht4j]
      simp only [ebind_ok]
      set t5 := upd t4 j { color := mc, parent := none, left := some i, right := mrt, value := mv } with ht5def
      have ht5i : t5.nodes[i]? = some
          { color := nc, parent := none, left := nl, right := some k, value := nv } := by
        rw [ht5def, upd_get_ne hij]
        exact ht4i
      rw [sP _ i (some j) _ ht5i]
      have hctx4 : CtxAt t4 (some j) [] := CtxAt.root
      have ht4size : t4.nodes.size = t.nodes.size := ht3size
      have ht40 : t4.nodes[0]? = t.nodes[0]? :=
        ht3out 0 (fun h => hi0 h.symm) (fun h => hj0 h.symm) (fun h => hk0 h.symm)
      obtain ⟨hA, hB, hC, hD, hE, hF⟩ :=
        rotateLeft_assemble hi0 hj0 hij ht4i ht4j hnc hnv
          (show _ = ctxParent ([] : Ctx) from rfl) hmc hmv rfl
          (reprOf_agree hli3 (fun s hs => rfl)) (reprOf_agree ht3rep (fun s hs => rfl))
          (reprOf_agree hrr3 (fun s hs => rfl))
          (parentsOk_agree hpli3 (fun s hs => rfl)) (parentsOk_agree ht3pok (fun s hs => rfl))
          (parentsOk_agree hprr3 (fun s hs => rfl))
          hctx4 hi_li hi_rl hi_rr hjLi hj_rl hj_rr hiC hjC
          (upd (upd t4 j
          { color := mc, parent := none, left := some i, right := mrt, value := mv }) i
          { color := nc, parent := some j, left := nl, right := some k, value := nv }) rfl
      exact ⟨upd (upd t4 j
          { color := mc, parent := none, left := some i, right := mrt, value := mv }) i
          { color := nc, parent := some j, left := nl, right := some k, value := nv }, rfl,
        hA, hB, hC, hD.trans ht4size, hE.trans ht40⟩
  | cons f ctx2 =>
    cases f with
    | lf fi fc fv sib =>
      obtain ⟨fn, hchain, hfi0, hfn, hfpar, hfchild, hfsib, hfsibok⟩ :=
        ctxAt_cons_lf hctx
      have hfiC : fi ∈ ctxIdxs (Frame.lf fi fc fv sib :: ctx2) := by
        simp [ctxIdxs]
      have hmemC : ∀ s, s ∈ sib.idxs ∨ s ∈ ctxIdxs ctx2 →
          s ∈ ctxIdxs (Frame.lf fi fc fv sib :: ctx2) := by
        intro s hs
        simp only [ctxIdxs, List.cons_append, List.mem_cons, List.mem_append]
        rcases hs with h | h
        · exact Or.inr (Or.inl h)
        · exact Or.inr (Or.inr h)
      have hifi : i ≠ fi := fun he => hiC (he ▸ hfiC)
      have hjfi : j ≠ fi := fun he => hjC (he ▸ hfiC)
      have hfi_nodup : fi ∉ sib.idxs ∧ fi ∉ ctxIdxs ctx2 := by
        simp only [ctxIdxs] at hndctx
        rw [List.cons_append, List.nodup_cons] at hndctx
        exact ⟨fun hc => hndctx.1 (List.mem_append.mpr (Or.inl hc)),
          fun hc => hndctx.1 (List.mem_append.mpr (Or.inr hc))⟩
      simp only [ctxParent, Frame.idx] at hn2p
      subst hn2p
      cases rl with
      | leaf =>
        have hml : ml = nilP := reprOf_leaf hrl
        subst hml
        simp only [rotateLeft, mbind_def]
        rw [getE_ok hn]
        simp only [ebind_ok]
        rw [if_neg (show ¬((some j : Ptr) = nilP) by simp [nilP]; exact hj0)]
        rw [getE_ok hm]
        simp only [ebind_ok]
        rw [sR t i nilP _ hn]
        simp only [ebind_ok]
        set t1 := upd t i { color := nc, parent := some fi, left := nl, right := nilP, value := nv } with ht1def
        have hm_t1 : t1.nodes[j]? = some
            { color := mc, parent := mp, left := nilP, right := mrt, value := mv } := by
          rw [ht1def, upd_get_ne (fun h => hij h.symm)]
          exact hm
        rw [sL _ j (some i) _ hm_t1]
        simp only [ebind_ok]
        set t2 := upd t1 j { color := mc, parent := mp, left := some i, right := mrt, value := mv } with ht2def
        have hn_t2 : t2.nodes[i]? = some
            { color := nc, parent := some fi, left := nl, right := nilP, value := nv } := by
          rw [ht2def, upd_get_ne hij, ht1def]
          exact upd_get_self hilt
        rw [getE_ok hn_t2]
        simp only [ebind_ok]
        rw [if_neg (show ¬((nilP : Ptr) ≠ nilP) by simp)]
        simp only [mpure_def, ebind_ok]
        have ht3j : t2.nodes[j]? = some
            { color := mc, parent := mp, left := some i, right := mrt, value := mv } := by
          rw [ht2def]
          exact upd_get_self (by rw [ht1def, upd_size]; exact hjlt)
        have ht3out : ∀ s, s ≠ i → s ≠ j → t2.nodes[s]? = t.nodes[s]? := by
          intro s h1 h2
          rw [ht2def, upd_get_ne h2, ht1def, upd_get_ne h1]
        have ht3size : t2.nodes.size = t.nodes.size := by
          rw [ht2def, upd_size, ht1def, upd_size]
        have ht3root : t2.root = t.root := by
          rw [ht2def, upd_root, ht1def, upd_root]
        have hliagree : ∀ s ∈ li.idxs, t2.nodes[s]? = t.nodes[s]? := fun s hs =>
          ht3out s (fun he => hi_li (he ▸ hs)) (fun he => hjLi (he ▸ hs))
        have hrragree : ∀ s ∈ rr.idxs, t2.nodes[s]? = t.nodes[s]? := fun s hs =>
          ht3out s (fun he => hi_rr (he ▸ hs)) (fun he => hj_rr (he ▸ hs))
        have hli3 := reprOf_agree hli hliagree
        have hrr3 := reprOf_agree hrr hrragree
        have hpli3 := parentsOk_agree hpli hliagree
        have hprr3 := parentsOk_agree hprr hrragree
        have hfn_t3 : t2.nodes[fi]? = some fn := by
          rw [ht3out fi (fun h => hifi h.symm) (fun h => hjfi h.symm)]
          exact hfn
        rw [getE_ok hn_t2]
        simp only [ebind_ok]
        rw [getE_ok hfn_t3]
        simp only [ebind_ok]
        rw [if_pos hfchild]
        rw [sL _ fi (some j) fn hfn_t3]
        simp only [ebind_ok]
        set t4 := upd t2 fi { fn with left := some j } with ht4def
        have ht4i : t4.nodes[i]? = some
            { color := nc, parent := some fi, left := nl, right := nilP, value := nv } := by
          rw [ht4def, upd_get_ne hifi]
          exact hn_t2
        rw [getE_ok ht4i]
        simp only [ebind_ok]
        have ht4j : t4.nodes[j]? = some
            { color := mc, parent := mp, left := some i, right := mrt, value := mv } := by
          rw [ht4def, upd_get_ne hjfi]
          exact ht3j
        rw [sP _ j (some fi) _ ht4j]
        simp only [ebind_ok]
        set t5 := upd t4 j { color := mc, parent := some fi, left := some i, right := mrt, value := mv } with ht5def
        have ht5i : t5.nodes[i]? = some
            { color := nc, parent := some fi, left := nl, right := nilP, value := nv } := by
          rw [ht5def, upd_get_ne hij]
          exact ht4i
        rw [sP _ i (some j) _ ht5i]
        have hagree4 : ∀ s, s ∈ sib.idxs ∨ s ∈ ctxIdxs ctx2 →
            t4.nodes[s]? = t.nodes[s]? := by
          intro s hs
          have hsC := hmemC s hs
          have hsfi : s ≠ fi := by
            rcases hs with h | h
            · exact fun he => hfi_nodup.1 (he ▸ h)
            · exact fun he => hfi_nodup.2 (he ▸ h)
          rw [ht4def, upd_get_ne hsfi]
          exact ht3out s (hCne s hsC).1 (hCne s hsC).2.1
        have hctx4 : CtxAt t4 (some j) (Frame.lf fi fc fv sib :: ctx2) := by
          refine ctxAt_retarget_lf hctx ?_ ?_ ?_ ?_
          · rw [ht4def, upd_root]
            exact ht3root
          · intro s hs
            exact hagree4 s (Or.inr hs)
          · intro s hs
            exact hagree4 s (Or.inl hs)
          · intro nn hnn
            rw [hfn, Option.some.injEq] at hnn
            rw [← hnn, ht4def]
            exact upd_get_self (getElem?_some_lt hfn_t3)
        have hfiLi : fi ∉ li.idxs := fun hc =>
          hdisjctx fi (hsmem fi (Or.inr (Or.inl hc))) hfiC
        have hfiRr : fi ∉ rr.idxs := fun hc =>
          hdisjctx fi (hsmem fi (Or.inr (Or.inr (hjmem fi (Or.inr (Or.inr hc)))))) hfiC
        have h34li : ∀ s ∈ li.idxs, t4.nodes[s]? = t2.nodes[s]? := fun s hs => by
          rw [ht4def]
          exact upd_get_ne (fun he => hfiLi (he ▸ hs))
        have h34rr : ∀ s ∈ rr.idxs, t4.nodes[s]? = t2.nodes[s]? := fun s hs => by
          rw [ht4def]
          exact upd_get_ne (fun he => hfiRr (he ▸ hs))
        have ht4size : t4.nodes.size = t.nodes.size := by
          rw [ht4def, upd_size]
          exact ht3size
        have ht40 : t4.nodes[0]? = t.nodes[0]? := by
          rw [ht4def, upd_get_ne (fun h => hfi0 h.symm)]
          exact ht3out 0 (fun h => hi0 h.symm) (fun h => hj0 h.symm)
        obtain ⟨hA, hB, hC, hD, hE, hF⟩ :=
          rotateLeft_assemble hi0 hj0 hij ht4i ht4j hnc hnv
            (show _ = ctxParent (Frame.lf fi fc fv sib :: ctx2) from rfl) hmc hmv rfl
            (reprOf_agree hli3 h34li) ReprOf.leaf
            (reprOf_agree hrr3 h34rr)
            (parentsOk_agree hpli3 h34li) rfl
            (parentsOk_agree hprr3 h34rr)
            hctx4 hi_li hi_rl hi_rr hjLi hj_rl hj_rr hiC hjC
            (upd (upd t4 j
            { color := mc, parent := some fi, left := some i, right := mrt, value := mv }) i
            { color := nc, parent := some j, left := nl, right := nilP, value := nv }) rfl
        exact ⟨upd (upd t4 j
            { color := mc, parent := some fi, left := some i, right := mrt, value := mv }) i
            { color := nc, parent := some j, left := nl, right := nilP, value := nv }, rfl,
          hA, hB, hC, hD.trans ht4size, hE.trans ht40⟩
      | node k ck wk a b =>
        obtain ⟨hml, hk0, tk, htk, htkc, htkv, hta, htb⟩ := reprOf_node_ptr hrl
        subst hml
        obtain ⟨hnda, hndb, hka, hkb, hdisj_ab⟩ := idxs_node_nodup hndrl
        have hkmem : k ∈ (FT.node k ck wk a b).idxs := by
          simp [FT.idxs]
        have hki : k ≠ i := fun h => hi_rl (h ▸ hkmem)
        have hkj : k ≠ j := fun h => hj_rl (h ▸ hkmem)
        have hklt : k < t.nodes.size := getElem?_some_lt htk
        have hkC : k ∉ ctxIdxs (Frame.lf fi fc fv sib :: ctx2) :=
          hdisjctx k (hsmem k (Or.inr (Or.inr (hjmem k (Or.inr (Or.inl hkmem))))))
        have hkfi : k ≠ fi := fun he => hkC (he ▸ hfiC)
        simp only [rotateLeft, mbind_def]
        rw [getE_ok hn]
        simp only [ebind_ok]
        rw [if_neg (show ¬((some j : Ptr) = nilP) by simp [nilP]; exact hj0)]
        rw [getE_ok hm]
        simp only [ebind_ok]
        rw [sR t i (some k) _ hn]
        simp only [ebind_ok]
        set t1 := upd t i { color := nc, parent := some fi, left := nl, right := some k, value := nv } with ht1def
        have hm_t1 : t1.nodes[j]? = some
            { color := mc, parent := mp, left := some k, right := mrt, value := mv } := by
          rw [ht1def, upd_get_ne (fun h => hij h.symm)]
          exact hm
        rw [sL _ j (some i) _ hm_t1]
        simp only [ebind_ok]
        set t2 := upd t1 j { color := mc, parent := mp, left := some i, right := mrt, value := mv } with ht2def
        have hn_t2 : t2.nodes[i]? = some
            { color := nc, parent := some fi, left := nl, right := some k, value := nv } := by
          rw [ht2def, upd_get_ne hij, ht1def]
          exact upd_get_self hilt
        rw [getE_ok hn_t2]
        simp only [ebind_ok]
        rw [if_pos (show ((some k : Ptr) ≠ nilP) by simp [nilP]; exact hk0)]
        have htk_t2 : t2.nodes[k]? = some tk := by
          rw [ht2def, upd_get_ne hkj, ht1def, upd_get_ne hki]
          exact htk
        rw [sP _ k (some i) tk htk_t2]
        simp only [ebind_ok]
        set t3 := upd t2 k { tk with parent := some i } with ht3def
        have ht3i : t3.nodes[i]? = some
            { color := nc, parent := some fi, left := nl, right := some k, value := nv } := by
          rw [ht3def, upd_get_ne (fun h => hki h.symm)]
          exact hn_t2
        have ht3j : t3.nodes[j]? = some
            { color := mc, parent := mp, left := some i, right := mrt, value := mv } := by
          rw [ht3def, upd_get_ne (fun h => hkj h.symm), ht2def]
          exact upd_get_self (by rw [ht1def, upd_size]; exact hjlt)
        have ht3out : ∀ s, s ≠ i → s ≠ j → s ≠ k → t3.nodes[s]? = t.nodes[s]? := by
          intro s h1 h2 h3
          rw [ht3def, upd_get_ne h3, ht2def, upd_get_ne h2, ht1def, upd_get_ne h1]
        have ht3size : t3.nodes.size = t.nodes.size := by
          rw [ht3def, upd_size, ht2def, upd_size, ht1def, upd_size]
        have ht3root : t3.root = t.root := by
          rw [ht3def, upd_root, ht2def, upd_root, ht1def, upd_root]
        have hkself : t3.nodes[k]? = some { tk with parent := some i } := by
          rw [ht3def]
          exact upd_get_self (by rw [ht2def, upd_size, ht1def, upd_size]; exact hklt)
        have hrlagree : ∀ s, s ∈ a.idxs ∨ s ∈ b.idxs →
            t3.nodes[s]? = t.nodes[s]? := by
          intro s hs
          have hsk : s ≠ k := by
            rcases hs with h | h
            · exact fun he => hka (he ▸ h)
            · exact fun he => hkb (he ▸ h)
          have hsrl : s ∈ (FT.node k ck wk a b).idxs := by
            simp only [FT.idxs, List.mem_append, List.mem_cons]
            rcases hs with h | h
            · exact Or.inl h
            · exact Or.inr (Or.inr h)
          exact ht3out s (fun he => hi_rl (he ▸ hsrl)) (fun he => hj_rl (he ▸ hsrl)) hsk
        have ht3rep : ReprOf t3 (some k) (.node k ck wk a b) := by
          have hta2 : ReprOf t3 tk.left a :=
            reprOf_agree hta (fun s hs => hrlagree s (Or.inl hs))
          have htb2 : ReprOf t3 tk.right b :=
            reprOf_agree htb (fun s hs => hrlagree s (Or.inr hs))
          have h1 := ReprOf.node k { tk with parent := some i } a b hk0 hkself
            (by exact hta2) (by exact htb2)
          rw [show ({ tk with parent := some i } : GNode).color = ck from htkc,
            show ({ tk with parent := some i } : GNode).value = wk from htkv] at h1
          exact h1
        have ht3pok : parentsOk t3 (some i) (.node k ck wk a b) = true := by
          obtain ⟨⟨tk2, htk2, htk2p⟩, hpa, hpb⟩ := parentsOk_node hprl
          simp only [parentsOk, Bool.and_eq_true]
          refine ⟨⟨?_, ?_⟩, ?_⟩
          · rw [hkself]
            simp
          · exact parentsOk_agree hpa (fun s hs => hrlagree s (Or.inl hs))
          · exact parentsOk_agree hpb (fun s hs => hrlagree s (Or.inr hs))
        have hliagree : ∀ s ∈ li.idxs, t3.nodes[s]? = t.nodes[s]? := fun s hs =>
          ht3out s (fun he => hi_li (he ▸ hs)) (fun he => hjLi (he ▸ hs))
            (fun he => hdisj_li s hs (hjmem s (Or.inr (Or.inl (he ▸ hkmem)))))
        have hrragree : ∀ s ∈ rr.idxs, t3.nodes[s]? = t.nodes[s]? := fun s hs =>
          ht3out s (fun he => hi_rr (he ▸ hs)) (fun he => hj_rr (he ▸ hs))
            (fun he => hdisj_rlrr k hkmem (he ▸ hs))
        have hli3 := reprOf_agree hli hliagree
        have hrr3 := reprOf_agree hrr hrragree
        have hpli3 := parentsOk_agree hpli hliagree
        have hprr3 := parentsOk_agree hprr hrragree
        have hfn_t3 : t3.nodes[fi]? = some fn := by
          rw [ht3out fi (fun h => hifi h.symm) (fun h => hjfi h.symm)
            (fun h => hkfi h.symm)]
          exact hfn
        rw [getE_ok ht3i]
        simp only [ebind_ok]
        rw [getE_ok hfn_t3]
        simp only [ebind_ok]
        rw [if_pos hfchild]
        rw [sL _ fi (some j) fn hfn_t3]
        simp only [ebind_ok]
        set t4 := upd t3 fi { fn with left := some j } with ht4def
        have ht4i : t4.nodes[i]? = some
            { color := nc, parent := some fi, left := nl, right := some k, value := nv } := by
          rw [ht4def, upd_get_ne hifi]
          exact ht3i
        rw [getE_ok ht4i]
        simp only [ebind_ok]
        have ht4j : t4.nodes[j]? = some
            { color := mc, parent := mp, left := some i, right := mrt, value := mv } := by
          rw [ht4def, upd_get_ne hjfi]
          exact ht3j
        rw [sP _ j (some fi) _ ht4j]
        simp only [ebind_ok]
        set t5 := upd t4 j { color := mc, parent := some fi, left := some i, right := mrt, value := mv } with ht5def
        have ht5i : t5.nodes[i]? = some
            { color := nc, parent := some fi, left := nl, right := some k, value := nv } := by
          rw [ht5def, upd_get_ne hij]
          exact ht4i
        rw [sP _ i (some j) _ ht5i]
        have hagree4 : ∀ s, s ∈ sib.idxs ∨ s ∈ ctxIdxs ctx2 →
            t4.nodes[s]? = t.nodes[s]? := by
          intro s hs
          have hsC := hmemC s hs
          have hsfi : s ≠ fi := by
            rcases hs with h | h
            · exact fun he => hfi_nodup.1 (he ▸ h)
            · exact fun he => hfi_nodup.2 (he ▸ h)
          rw [ht4def, upd_get_ne hsfi]
          exact ht3out s (hCne s hsC).1 (hCne s hsC).2.1
            (fun he => (hCne s hsC).2.2.1 (he ▸ hkmem))
        have hctx4 : CtxAt t4 (some j) (Frame.lf fi fc fv sib :: ctx2) := by
          refine ctxAt_retarget_lf hctx ?_ ?_ ?_ ?_
          · rw [ht4def, upd_root]
            exact ht3root
          · intro s hs
            exact hagree4 s (Or.inr hs)
          · intro s hs
            exact hagree4 s (Or.inl hs)
          · intro nn hnn
            rw [hfn, Option.some.injEq] at hnn
            rw [← hnn, ht4def]
            exact upd_get_self (getElem?_some_lt hfn_t3)
        have hfiLi : fi ∉ li.idxs := fun hc =>
          hdisjctx fi (hsmem fi (Or.inr (Or.inl hc))) hfiC
        have hfiRr : fi ∉ rr.idxs := fun hc =>
          hdisjctx fi (hsmem fi (Or.inr (Or.inr (hjmem fi (Or.inr (Or.inr hc)))))) hfiC
        have h34li : ∀ s ∈ li.idxs, t4.nodes[s]? = t3.nodes[s]? := fun s hs => by
          rw [ht4def]
          exact upd_get_ne (fun he => hfiLi (he ▸ hs))
        have h34rr : ∀ s ∈ rr.idxs, t4.nodes[s]? = t3.nodes[s]? := fun s hs => by
          rw [ht4def]
          exact upd_get_ne (fun he => hfiRr (he ▸ hs))
        have hfiRl : fi ∉ (FT.node k ck wk a b).idxs := fun hc =>
          hdisjctx fi (hsmem fi (Or.inr (Or.inr (hjmem fi (Or.inr (Or.inl hc)))))) hfiC
        have h34rl : ∀ s ∈ (FT.node k ck wk a b).idxs,
            t4.nodes[s]? = t3.nodes[s]? := fun s hs => by
          rw [ht4def]
          exact upd_get_ne (fun he => hfiRl (he ▸ hs))
        have ht4size : t4.nodes.size = t.nodes.size := by
          rw [ht4def, upd_size]
          exact ht3size
        have ht40 : t4.nodes[0]? = t.nodes[0]? := by
          rw [ht4def, upd_get_ne (fun h => hfi0 h.symm)]
          exact ht3out 0 (fun h => hi0 h.symm) (fun h => hj0 h.symm) (fun h => hk0 h.symm)
        obtain ⟨hA, hB, hC, hD, hE, hF⟩ :=
          rotateLeft_assemble hi0 hj0 hij ht4i ht4j hnc hnv
            (show _ = ctxParent (Frame.lf fi fc fv sib :: ctx2) from rfl) hmc hmv rfl
            (reprOf_agree hli3 h34li) (reprOf_agree ht3rep h34rl)
            (reprOf_agree hrr3 h34rr)
            (parentsOk_agree hpli3 h34li) (parentsOk_agree ht3pok h34rl)
            (parentsOk_agree hprr3 h34rr)
            hctx4 hi_li hi_rl hi_rr hjLi hj_rl hj_rr hiC hjC
            (upd (upd t4 j
            { color := mc, parent := some fi, left := some i, right := mrt, value := mv }) i
            { color := nc, parent := some j, left := nl, right := some k, value := nv }) rfl
        exact ⟨upd (upd t4 j
            { color := mc, parent := some fi, left := some i, right := mrt, value := mv }) i
            { color := nc, parent := some j, left := nl, right := some k, value := nv }, rfl,
          hA, hB, hC, hD.trans ht4size, hE.trans ht40⟩
    | rf fi fc fv sib =>
      obtain ⟨fn, hchain, hfi0, hfn, hfpar, hfchild, hfsib, hfsibok⟩ :=
        ctxAt_cons_rf hctx
      have hfiC : fi ∈ ctxIdxs (Frame.rf fi fc fv sib :: ctx2) := by
        simp [ctxIdxs]
      have hmemC : ∀ s, s ∈ sib.idxs ∨ s ∈ ctxIdxs ctx2 →
          s ∈ ctxIdxs (Frame.rf fi fc fv sib :: ctx2) := by
        intro s hs
        simp only [ctxIdxs, List.cons_append, List.mem_cons, List.mem_append]
        rcases hs with h | h
        · exact Or.inr (Or.inl h)
        · exact Or.inr (Or.inr h)
      have hifi : i ≠ fi := fun he => hiC (he ▸ hfiC)
      have hjfi : j ≠ fi := fun he => hjC (he ▸ hfiC)
      have hfi_nodup : fi ∉ sib.idxs ∧ fi ∉ ctxIdxs ctx2 := by
        simp only [ctxIdxs] at hndctx
        rw [List.cons_append, List.nodup_cons] at hndctx
        exact ⟨fun hc => hndctx.1 (List.mem_append.mpr (Or.inl hc)),
          fun hc => hndctx.1 (List.mem_append.mpr (Or.inr hc))⟩
      have hflne : fn.left ≠ some i := fun hc =>
        hiC (hmemC i (Or.inl (reprOf_mem_idxs (hc ▸ hfsib) hi0)))
      simp only [ctxParent, Frame.idx] at hn2p
      subst hn2p
      cases rl with
      | leaf =>
        have hml : ml = nilP := reprOf_leaf hrl
        subst hml
        simp only [rotateLeft, mbind_def]
        rw [getE_ok hn]
        simp only [ebind_ok]
        rw [if_neg (show ¬((some j : Ptr) = nilP) by simp [nilP]; exact hj0)]
        rw [getE_ok hm]
        simp only [ebind_ok]
        rw [sR t i nilP _ hn]
        simp only [ebind_ok]
        set t1 := upd t i { color := nc, parent := some fi, left := nl, right := nilP, value := nv } with ht1def
        have hm_t1 : t1.nodes[j]? = some
            { color := mc, parent := mp, left := nilP, right := mrt, value := mv } := by
          rw [ht1def, upd_get_ne (fun h => hij h.symm)]
          exact hm
        rw [sL _ j (some i) _ hm_t1]
        simp only [ebind_ok]
        set t2 := upd t1 j { color := mc, parent := mp, left := some i, right := mrt, value := mv } with ht2def
        have hn_t2 : t2.nodes[i]? = some
            { color := nc, parent := some fi, left := nl, right := nilP, value := nv } := by
          rw [ht2def, upd_get_ne hij, ht1def]
          exact upd_get_self hilt
        rw [getE_ok hn_t2]
        simp only [ebind_ok]
        rw [if_neg (show ¬((nilP : Ptr) ≠ nilP) by simp)]
        simp only [mpure_def, ebind_ok]
        have ht3j : t2.nodes[j]? = some
            { color := mc, parent := mp, left := some i, right := mrt, value := mv } := by
          rw [ht2def]
          exact upd_get_self (by rw [ht1def, upd_size]; exact hjlt)
        have ht3out : ∀ s, s ≠ i → s ≠ j → t2.nodes[s]? = t.nodes[s]? := by
          intro s h1 h2
          rw [ht2def, upd_get_ne h2, ht1def, upd_get_ne h1]
        have ht3size : t2.nodes.size = t.nodes.size := by
          rw [ht2def, upd_size, ht1def, upd_size]
        have ht3root : t2.root = t.root := by
          rw [ht2def, upd_root, ht1def, upd_root]
        have hliagree : ∀ s ∈ li.idxs, t2.nodes[s]? = t.nodes[s]? := fun s hs =>
          ht3out s (fun he => hi_li (he ▸ hs)) (fun he => hjLi (he ▸ hs))
        have hrragree : ∀ s ∈ rr.idxs, t2.nodes[s]? = t.nodes[s]? := fun s hs =>
          ht3out s (fun he => hi_rr (he ▸ hs)) (fun he => hj_rr (he ▸ hs))
        have hli3 := reprOf_agree hli hliagree
        have hrr3 := reprOf_agree hrr hrragree
        have hpli3 := parentsOk_agree hpli hliagree
        have hprr3 := parentsOk_agree hprr hrragree
        have hfn_t3 : t2.nodes[fi]? = some fn := by
          rw [ht3out fi (fun h => hifi h.symm) (fun h => hjfi h.symm)]
          exact hfn
        rw [getE_ok hn_t2]
        simp only [ebind_ok]
        rw [getE_ok hfn_t3]
        simp only [ebind_ok]
        rw [if_neg hflne]
        rw [sR _ fi (some j) fn hfn_t3]
        simp only [ebind_ok]
        set t4 := upd t2 fi { fn with right := some j } with ht4def
        have ht4i : t4.nodes[i]? = some
            { color := nc, parent := some fi, left := nl, right := nilP, value := nv } := by
          rw [ht4def, upd_get_ne hifi]
          exact hn_t2
        rw [getE_ok ht4i]
        simp only [ebind_ok]
        have ht4j : t4.nodes[j]? = some
            { color := mc, parent := mp, left := some i, right := mrt, value := mv } := by
          rw [ht4def, upd_get_ne hjfi]
          exact ht3j
        rw [sP _ j (some fi) _ ht4j]
        simp only [ebind_ok]
        set t5 := upd t4 j { color := mc, parent := some fi, left := some i, right := mrt, value := mv } with ht5def
        have ht5i : t5.nodes[i]? = some
            { color := nc, parent := some fi, left := nl, right := nilP, value := nv } := by
          rw [ht5def, upd_get_ne hij]
          exact ht4i
        rw [sP _ i (some j) _ ht5i]
        have hagree4 : ∀ s, s ∈ sib.idxs ∨ s ∈ ctxIdxs ctx2 →
            t4.nodes[s]? = t.nodes[s]? := by
          intro s hs
          have hsC := hmemC s hs
          have hsfi : s ≠ fi := by
            rcases hs with h | h
            · exact fun he => hfi_nodup.1 (he ▸ h)
            · exact fun he => hfi_nodup.2 (he ▸ h)
          rw [ht4def, upd_get_ne hsfi]
          exact ht3out s (hCne s hsC).1 (hCne s hsC).2.1
        have hctx4 : CtxAt t4 (some j) (Frame.rf fi fc fv sib :: ctx2) := by
          refine ctxAt_retarget_rf hctx ?_ ?_ ?_ ?_
          · rw [ht4def, upd_root]
            exact ht3root
          · intro s hs
            exact hagree4 s (Or.inr hs)
          · intro s hs
            exact hagree4 s (Or.inl hs)
          · intro nn hnn
            rw [hfn, Option.some.injEq] at hnn
            rw [← hnn, ht4def]
            exact upd_get_self (getElem?_some_lt hfn_t3)
        have hfiLi : fi ∉ li.idxs := fun hc =>
          hdisjctx fi (hsmem fi (Or.inr (Or.inl hc))) hfiC
        have hfiRr : fi ∉ rr.idxs := fun hc =>
          hdisjctx fi (hsmem fi (Or.inr (Or.inr (hjmem fi (Or.inr (Or.inr hc)))))) hfiC
        have h34li : ∀ s ∈ li.idxs, t4.nodes[s]? = t2.nodes[s]? := fun s hs => by
          rw [ht4def]
          exact upd_get_ne (fun he => hfiLi (he ▸ hs))
        have h34rr : ∀ s ∈ rr.idxs, t4.nodes[s]? = t2.nodes[s]? := fun s hs => by
          rw [ht4def]
          exact upd_get_ne (fun he => hfiRr (he ▸ hs))
        have ht4size : t4.nodes.size = t.nodes.size := by
          rw [ht4def, upd_size]
          exact ht3size
        have ht40 : t4.nodes[0]? = t.nodes[0]? := by
          rw [ht4def, upd_get_ne (fun h => hfi0 h.symm)]
          exact ht3out 0 (fun h => hi0 h.symm) (fun h => hj0 h.symm)
        obtain ⟨hA, hB, hC, hD, hE, hF⟩ :=
          rotateLeft_assemble hi0 hj0 hij ht4i ht4j hnc hnv
            (show _ = ctxParent (Frame.rf fi fc fv sib :: ctx2) from rfl) hmc hmv rfl
            (reprOf_agree hli3 h34li) ReprOf.leaf
            (reprOf_agree hrr3 h34rr)
            (parentsOk_agree hpli3 h34li) rfl
            (parentsOk_agree hprr3 h34rr)
            hctx4 hi_li hi_rl hi_rr hjLi hj_rl hj_rr hiC hjC
            (upd (upd t4 j
            { color := mc, parent := some fi, left := some i, right := mrt, value := mv }) i
            { color := nc, parent := some j, left := nl, right := nilP, value := nv }) rfl
        exact ⟨upd (upd t4 j
            { color := mc, parent := some fi, left := some i, right := mrt, value := mv }) i
            { color := nc, parent := some j, left := nl, right := nilP, value := nv }, rfl,
          hA, hB, hC, hD.trans ht4size, hE.trans ht40⟩
      | node k ck wk a b =>
        obtain ⟨hml, hk0, tk, htk, htkc, htkv, hta, htb⟩ := reprOf_node_ptr hrl
        subst hml
        obtain ⟨hnda, hndb, hka, hkb, hdisj_ab⟩ := idxs_node_nodup hndrl
        have hkmem : k ∈ (FT.node k ck wk a b).idxs := by
          simp [FT.idxs]
        have hki : k ≠ i := fun h => hi_rl (h ▸ hkmem)
        have hkj : k ≠ j := fun h => hj_rl (h ▸ hkmem)
        have hklt : k < t.nodes.size := getElem?_some_lt htk
        have hkC : k ∉ ctxIdxs (Frame.rf fi fc fv sib :: ctx2) :=
          hdisjctx k (hsmem k (Or.inr (Or.inr (hjmem k (Or.inr (Or.inl hkmem))))))
        have hkfi : k ≠ fi := fun he => hkC (he ▸ hfiC)
        simp only [rotateLeft, mbind_def]
        rw [getE_ok hn]
        simp only [ebind_ok]
        rw [if_neg (show ¬((some j : Ptr) = nilP) by simp [nilP]; exact hj0)]
        rw [getE_ok hm]
        simp only [ebind_ok]
        rw [sR t i (some k) _ hn]
        simp only [ebind_ok]
        set t1 := upd t i { color := nc, parent := some fi, left := nl, right := some k, value := nv } with ht1def
        have hm_t1 : t1.nodes[j]? = some
            { color := mc, parent := mp, left := some k, right := mrt, value := mv } := by
          rw [ht1def, upd_get_ne (fun h => hij h.symm)]
          exact hm
        rw [sL _ j (some i) _ hm_t1]
        simp only [ebind_ok]
        set t2 := upd t1 j { color := mc, parent := mp, left := some i, right := mrt, value := mv } with ht2def
        have hn_t2 : t2.nodes[i]? = some
            { color := nc, parent := some fi, left := nl, right := some k, value := nv } := by
          rw [ht2def, upd_get_ne hij, ht1def]
          exact upd_get_self hilt
        rw [getE_ok hn_t2]
        simp only [ebind_ok]
        rw [if_pos (show ((some k : Ptr) ≠ nilP) by simp [nilP]; exact hk0)]
        have htk_t2 : t2.nodes[k]? = some tk := by
          rw [ht2def, upd_get_ne hkj, ht1def, upd_get_ne hki]
          exact htk
        rw [sP _ k (some i) tk htk_t2]
        simp only [ebind_ok]
        set t3 := upd t2 k { tk with parent := some i } with ht3def
        have ht3i : t3.nodes[i]? = some
            { color := nc, parent := some fi, left := nl, right := some k, value := nv } := by
          rw [ht3def, upd_get_ne (fun h => hki h.symm)]
          exact hn_t2
        have ht3j : t3.nodes[j]? = some
            { color := mc, parent := mp, left := some i, right := mrt, value := mv } := by
          rw [ht3def, upd_get_ne (fun h => hkj h.symm), ht2def]
          exact upd_get_self (by rw [ht1def, upd_size]; exact hjlt)
        have ht3out : ∀ s, s ≠ i → s ≠ j → s ≠ k → t3.nodes[s]? = t.nodes[s]? := by
          intro s h1 h2 h3
          rw [ht3def, upd_get_ne h3, ht2def, upd_get_ne h2, ht1def, upd_get_ne h1]
        have ht3size : t3.nodes.size = t.nodes.size := by
          rw [ht3def, upd_size, ht2def, upd_size, ht1def, upd_size]
        have ht3root : t3.root = t.root := by
          rw [ht3def, upd_root, ht2def, upd_root, ht1def, upd_root]
        have hkself : t3.nodes[k]? = some { tk with parent := some i } := by
          rw [ht3def]
          exact upd_get_self (by rw [ht2def, upd_size, ht1def, upd_size]; exact hklt)
        have hrlagree : ∀ s, s ∈ a.idxs ∨ s ∈ b.idxs →
            t3.nodes[s]? = t.nodes[s]? := by
          intro s hs
          have hsk : s ≠ k := by
            rcases hs with h | h
            · exact fun he => hka (he ▸ h)
            · exact fun he => hkb (he ▸ h)
          have hsrl : s ∈ (FT.node k ck wk a b).idxs := by
            simp only [FT.idxs, List.mem_append, List.mem_cons]
            rcases hs with h | h
            · exact Or.inl h
            · exact Or.inr (Or.inr h)
          exact ht3out s (fun he => hi_rl (he ▸ hsrl)) (fun he => hj_rl (he ▸ hsrl)) hsk
        have ht3rep : ReprOf t3 (some k) (.node k ck wk a b) := by
          have hta2 : ReprOf t3 tk.left a :=
            reprOf_agree hta (fun s hs => hrlagree s (Or.inl hs))
          have htb2 : ReprOf t3 tk.right b :=
            reprOf_agree htb (fun s hs => hrlagree s (Or.inr hs))
          have h1 := ReprOf.node k { tk with parent := some i } a b hk0 hkself
            (by exact hta2) (by exact htb2)
          rw [show ({ tk with parent := some i } : GNode).color = ck from htkc,
            show ({ tk with parent := some i } : GNode).value = wk from htkv] at h1
          exact h1
        have ht3pok : parentsOk t3 (some i) (.node k ck wk a b) = true := by
          obtain ⟨⟨tk2, htk2, htk2p⟩, hpa, hpb⟩ := parentsOk_node hprl
          simp only [parentsOk, Bool.and_eq_true]
          refine ⟨⟨?_, ?_⟩, ?_⟩
          · rw [hkself]
            simp
          · exact parentsOk_agree hpa (fun s hs => hrlagree s (Or.inl hs))
          · exact parentsOk_agree hpb (fun s hs => hrlagree s (Or.inr hs))
        have hliagree : ∀ s ∈ li.idxs, t3.nodes[s]? = t.nodes[s]? := fun s hs =>
          ht3out s (fun he => hi_li (he ▸ hs)) (fun he => hjLi (he ▸ hs))
            (fun he => hdisj_li s hs (hjmem s (Or.inr (Or.inl (he ▸ hkmem)))))
        have hrragree : ∀ s ∈ rr.idxs, t3.nodes[s]? = t.nodes[s]? := fun s hs =>
          ht3out s (fun he => hi_rr (he ▸ hs)) (fun he => hj_rr (he ▸ hs))
            (fun he => hdisj_rlrr k hkmem (he ▸ hs))
        have hli3 := reprOf_agree hli hliagree
        have hrr3 := reprOf_agree hrr hrragree
        have hpli3 := parentsOk_agree hpli hliagree
        have hprr3 := parentsOk_agree hprr hrragree
        have hfn_t3 : t3.nodes[fi]? = some fn := by
          rw [ht3out fi (fun h => hifi h.symm) (fun h => hjfi h.symm)
            (fun h => hkfi h.symm)]
          exact hfn
        rw [getE_ok ht3i]
        simp only [ebind_ok]
        rw [getE_ok hfn_t3]
        simp only [ebind_ok]
        rw [if_neg hflne]
        rw [sR _ fi (some j) fn hfn_t3]
        simp only [ebind_ok]
        set t4 := upd t3 fi { fn with right := some j } with ht4def
        have ht4i : t4.nodes[i]? = some
            { color := nc, parent := some fi, left := nl, right := some k, value := nv } := by
          rw [ht4def, upd_get_ne hifi]
          exact ht3i
        rw [getE_ok ht4i]
        simp only [ebind_ok]
        have ht4j : t4.nodes[j]? = some
            { color := mc, parent := mp, left := some i, right := mrt, value := mv } := by
          rw [ht4def, upd_get_ne hjfi]
          exact ht3j
        rw [sP _ j (some fi) _ ht4j]
        simp only [ebind_ok]
        set t5 := upd t4 j { color := mc, parent := some fi, left := some i, right := mrt, value := mv } with ht5def
        have ht5i : t5.nodes[i]? = some
            { color := nc, parent := some fi, left := nl, right := some k, value := nv } := by
          rw [ht5def, upd_get_ne hij]
          exact ht4i
        rw [sP _ i (some j) _ ht5i]
        have hagree4 : ∀ s, s ∈ sib.idxs ∨ s ∈ ctxIdxs ctx2 →
            t4.nodes[s]? = t.nodes[s]? := by
          intro s hs
          have hsC := hmemC s hs
          have hsfi : s ≠ fi := by
            rcases hs with h | h
            · exact fun he => hfi_nodup.1 (he ▸ h)
            · exact fun he => hfi_nodup.2 (he ▸ h)
          rw [ht4def, upd_get_ne hsfi]
          exact ht3out s (hCne s hsC).1 (hCne s hsC).2.1
            (fun he => (hCne s hsC).2.2.1 (he ▸ hkmem))
        have hctx4 : CtxAt t4 (some j) (Frame.rf fi fc fv sib :: ctx2) := by
          refine ctxAt_retarget_rf hctx ?_ ?_ ?_ ?_
          · rw [ht4def, upd_root]
            exact ht3root
          · intro s hs
            exact hagree4 s (Or.inr hs)
          · intro s hs
            exact hagree4 s (Or.inl hs)
          · intro nn hnn
            rw [hfn, Option.some.injEq] at hnn
            rw [← hnn, ht4def]
            exact upd_get_self (getElem?_some_lt hfn_t3)
        have hfiLi : fi ∉ li.idxs := fun hc =>
          hdisjctx fi (hsmem fi (Or.inr (Or.inl hc))) hfiC
        have hfiRr : fi ∉ rr.idxs := fun hc =>
          hdisjctx fi (hsmem fi (Or.inr (Or.inr (hjmem fi (Or.inr (Or.inr hc)))))) hfiC
        have h34li : ∀ s ∈ li.idxs, t4.nodes[s]? = t3.nodes[s]? := fun s hs => by
          rw [ht4def]
          exact upd_get_ne (fun he => hfiLi (he ▸ hs))
        have h34rr : ∀ s ∈ rr.idxs, t4.nodes[s]? = t3.nodes[s]? := fun s hs => by
          rw [ht4def]
          exact upd_get_ne (fun he => hfiRr (he ▸ hs))
        have hfiRl : fi ∉ (FT.node k ck wk a b).idxs := fun hc =>
          hdisjctx fi (hsmem fi (Or.inr (Or.inr (hjmem fi (Or.inr (Or.inl hc)))))) hfiC
        have h34rl : ∀ s ∈ (FT.node k ck wk a b).idxs,
            t4.nodes[s]? = t3.nodes[s]? := fun s hs => by
          rw [ht4def]
          exact upd_get_ne (fun he => hfiRl (he ▸ hs))
        have ht4size : t4.nodes.size = t.nodes.size := by
          rw [ht4def, upd_size]
          exact ht3size
        have ht40 : t4.nodes[0]? = t.nodes[0]? := by
          rw [ht4def, upd_get_ne (fun h => hfi0 h.symm)]
          exact ht3out 0 (fun h => hi0 h.symm) (fun h => hj0 h.symm) (fun h => hk0 h.symm)
        obtain ⟨hA, hB, hC, hD, hE, hF⟩ :=
          rotateLeft_assemble hi0 hj0 hij ht4i ht4j hnc hnv
            (show _ = ctxParent (Frame.rf fi fc fv sib :: ctx2) from rfl) hmc hmv rfl
            (reprOf_agree hli3 h34li) (reprOf_agree ht3rep h34rl)
            (reprOf_agree hrr3 h34rr)
            (parentsOk_agree hpli3 h34li) (parentsOk_agree ht3pok h34rl)
            (parentsOk_agree hprr3 h34rr)
            hctx4 hi_li hi_rl hi_rr hjLi hj_rl hj_rr hiC hjC
            (upd (upd t4 j
            { color := mc, parent := some fi, left := some i, right := mrt, value := mv }) i
            { color := nc, parent := some j, left := nl, right := some k, value := nv }) rfl
        exact ⟨upd (upd t4 j
            { color := mc, parent := some fi, left := some i, right := mrt, value := mv }) i
            { color := nc, parent := some j, left := nl, right := some k, value := nv }, rfl,
          hA, hB, hC, hD.trans ht4size, hE.trans ht40⟩


/-- The two final parent writes of a right rotation, mirror image of
`rotateLeft_assemble`. -/
theorem rotateRight_assemble {t4 : RBTree} {ctx : Ctx}
    {i : Nat} {ci : Bool} {vi : Int} {ri : FT}
    {j : Nat} {cj : Bool} {vj : Int} {jl jr : FT}
    {n4 m4 : GNode}
    (hi0 : i ≠ 0) (hj0 : j ≠ 0) (hij : i ≠ j)
    (hi4 : t4.nodes[i]? = some n4) (hj4 : t4.nodes[j]? = some m4)
    (hn4c : n4.color = ci) (hn4v : n4.value = vi)
    (hn4p : n4.parent = ctxParent ctx)
    (hm4c : m4.color = cj) (hm4v : m4.value = vj) (hm4r : m4.right = some i)
    (hjl4 : ReprOf t4 m4.left jl) (hjr4 : ReprOf t4 n4.left jr)
    (hri4 : ReprOf t4 n4.right ri)
    (hpjl4 : parentsOk t4 (some j) jl = true)
    (hpjr4 : parentsOk t4 (some i) jr = true)
    (hpri4 : parentsOk t4 (some i) ri = true)
    (hctx4 : CtxAt t4 (some j) ctx)
    (hiJl : i ∉ jl.idxs) (hiJr : i ∉ jr.idxs) (hiRi : i ∉ ri.idxs)
    (hjJl : j ∉ jl.idxs) (hjJr : j ∉ jr.idxs) (hjRi : j ∉ ri.idxs)
    (hiC : i ∉ ctxIdxs ctx) (hjC : j ∉ ctxIdxs ctx) :
    ∀ tF, tF = upd (upd t4 j { m4 with parent := n4.parent }) i
        { n4 with parent := some j } →
      CtxAt tF (some j) ctx ∧
      ReprOf tF (some j) (.node j cj vj jl (.node i ci vi jr ri)) ∧
      parentsOk tF (ctxParent ctx) (.node j cj vj jl (.node i ci vi jr ri))
        = true ∧
      tF.nodes.size = t4.nodes.size ∧ tF.nodes[0]? = t4.nodes[0]? ∧
      tF.root = t4.root := by
  intro tF htF
  have hilt : i < t4.nodes.size := getElem?_some_lt hi4
  have hjlt : j < t4.nodes.size := getElem?_some_lt hj4
  have hFo : ∀ s, s ≠ i → s ≠ j → tF.nodes[s]? = t4.nodes[s]? := by
    intro s hsi hsj
    rw [htF, upd_get_ne hsi, upd_get_ne hsj]
  have hFi : tF.nodes[i]? = some { n4 with parent := some j } := by
    rw [htF]
    exact upd_get_self (by rw [upd_size]; exact hilt)
  have hFj : tF.nodes[j]? = some { m4 with parent := n4.parent } := by
    rw [htF, upd_get_ne (fun h => hij h.symm)]
    exact upd_get_self hjlt
  have hjl2 : ReprOf tF m4.left jl :=
    reprOf_agree hjl4 (fun s hs =>
      hFo s (fun he => hiJl (he ▸ hs)) (fun he => hjJl (he ▸ hs)))
  have hjr2 : ReprOf tF n4.left jr :=
    reprOf_agree hjr4 (fun s hs =>
      hFo s (fun he => hiJr (he ▸ hs)) (fun he => hjJr (he ▸ hs)))
  have hri2 : ReprOf tF n4.right ri :=
    reprOf_agree hri4 (fun s hs =>
      hFo s (fun he => hiRi (he ▸ hs)) (fun he => hjRi (he ▸ hs)))
  have hinner : ReprOf tF (some i) (.node i ci vi jr ri) := by
    have h1 := ReprOf.node i { n4 with parent := some j } jr ri hi0 hFi
      (by exact hjr2) (by exact hri2)
    rw [show ({ n4 with parent := some j } : GNode).color = ci from hn4c,
      show ({ n4 with parent := some j } : GNode).value = vi from hn4v] at h1
    exact h1
  have houter : ReprOf tF (some j)
      (.node j cj vj jl (.node i ci vi jr ri)) := by
    have h1 := ReprOf.node j { m4 with parent := n4.parent }
      jl (.node i ci vi jr ri) hj0 hFj
      (by exact hjl2)
      (by rw [show ({ m4 with parent := n4.parent } : GNode).right = some i
            from hm4r]
          exact hinner)
    rw [show ({ m4 with parent := n4.parent } : GNode).color = cj from hm4c,
      show ({ m4 with parent := n4.parent } : GNode).value = vj from hm4v] at h1
    exact h1
  refine ⟨?_, houter, ?_, ?_, ?_, ?_⟩
  · exact ctxAt_agree hctx4 (by rw [htF]; rfl)
      (fun s hs => hFo s (fun he => hiC (he ▸ hs)) (fun he => hjC (he ▸ hs)))
  · simp only [parentsOk, Bool.and_eq_true]
    refine ⟨⟨?_, ?_⟩, ⟨⟨?_, ?_⟩, ?_⟩⟩
    · rw [hFj]; simp [hn4p]
    · exact parentsOk_agree hpjl4 (fun s hs =>
        hFo s (fun he => hiJl (he ▸ hs)) (fun he => hjJl (he ▸ hs)))
    · rw [hFi]; simp
    · exact parentsOk_agree hpjr4 (fun s hs =>
        hFo s (fun he => hiJr (he ▸ hs)) (fun he => hjJr (he ▸ hs)))
    · exact parentsOk_agree hpri4 (fun s hs =>
        hFo s (fun he => hiRi (he ▸ hs)) (fun he => hjRi (he ▸ hs)))
  · rw [htF, upd_size, upd_size]
  · exact hFo 0 (fun h => hi0 h.symm) (fun h => hj0 h.symm)
  · rw [htF]; rfl

set_option maxHeartbeats 1600000 in
/-- Right rotation at a represented node whose left child is a real node:
mirror image of `rotateLeft_zip`. -/
theorem rotateRight_zip {t : RBTree} {q : Ptr} {ctx : Ctx}
    {i : Nat} {ci : Bool} {vi : Int} {ri : FT}
    {j : Nat} {cj : Bool} {vj : Int} {jl jr : FT}
    (hctx : CtxAt t q ctx)
    (hrep : ReprOf t q (.node i ci vi (.node j cj vj jl jr) ri))
    (hpok : parentsOk t (ctxParent ctx)
      (.node i ci vi (.node j cj vj jl jr) ri) = true)
    (hnodup : (plug (.node i ci vi (.node j cj vj jl jr) ri) ctx).idxs.Nodup) :
    ∃ t', rotateRight t q = .ok t' ∧
      CtxAt t' (some j) ctx ∧
      ReprOf t' (some j) (.node j cj vj jl (.node i ci vi jr ri)) ∧
      parentsOk t' (ctxParent ctx)
        (.node j cj vj jl (.node i ci vi jr ri)) = true ∧
      t'.nodes.size = t.nodes.size ∧
      t'.nodes[0]? = t.nodes[0]? := by
  obtain ⟨hq, hi0, n, hn, hnc, hnv, hjt, hri⟩ := reprOf_node_ptr hrep
  obtain ⟨hlj, hj0, m, hm, hmc, hmv, hjl, hjr⟩ := reprOf_node_ptr hjt
  obtain ⟨⟨n2, hn2, hn2p⟩, hpjt, hpri⟩ := parentsOk_node hpok
  rw [hn] at hn2
  injection hn2 with he
  subst he
  obtain ⟨⟨m2, hm2, hm2p⟩, hpjl, hpjr⟩ := parentsOk_node hpjt
  rw [hm] at hm2
  injection hm2 with he2
  subst he2
  obtain ⟨hndσ, hndctx, hdisjctx⟩ := nodup_plug_split hnodup
  obtain ⟨hndjt, hndri, hjt_i, hi_ri, hdisj_jt_ri⟩ := idxs_node_nodup hndσ
  obtain ⟨hndjl, hndjr, hj_jl, hj_jr, hdisj_jljr⟩ := idxs_node_nodup hndjt
  have hjmem : ∀ x, x = j ∨ x ∈ jl.idxs ∨ x ∈ jr.idxs →
      x ∈ (FT.node j cj vj jl jr).idxs := by
    intro x hx
    simp only [FT.idxs, List.mem_append, List.mem_cons]
    rcases hx with h | h | h
    · exact Or.inr (Or.inl h)
    · exact Or.inl h
    · exact Or.inr (Or.inr h)
  have hsmem : ∀ x, x = i ∨ x ∈ (FT.node j cj vj jl jr).idxs ∨ x ∈ ri.idxs →
      x ∈ (FT.node i ci vi (FT.node j cj vj jl jr) ri).idxs := by
    intro x hx
    simp only [FT.idxs, List.mem_append, List.mem_cons] at hx ⊢
    rcases hx with h | (h | h | h) | h
    · exact Or.inr (Or.inl h)
    · exact Or.inl (Or.inl h)
    · exact Or.inl (Or.inr (Or.inl h))
    · exact Or.inl (Or.inr (Or.inr h))
    · exact Or.inr (Or.inr h)
  have hij : i ≠ j := fun he => hjt_i (hjmem i (Or.inl he))
  have hi_jl : i ∉ jl.idxs := fun hc => hjt_i (hjmem i (Or.inr (Or.inl hc)))
  have hi_jr : i ∉ jr.idxs := fun hc => hjt_i (hjmem i (Or.inr (Or.inr hc)))
  have hjRi : j ∉ ri.idxs := fun hc =>
    hdisj_jt_ri j (hjmem j (Or.inl rfl)) hc
  have hiC : i ∉ ctxIdxs ctx := hdisjctx i (hsmem i (Or.inl rfl))
  have hjC : j ∉ ctxIdxs ctx :=
    hdisjctx j (hsmem j (Or.inr (Or.inl (hjmem j (Or.inl rfl)))))
  have hCne : ∀ s ∈ ctxIdxs ctx,
      s ≠ i ∧ s ≠ j ∧ s ∉ jr.idxs ∧ s ∉ jl.idxs ∧ s ∉ ri.idxs := by
    intro s hs
    refine ⟨fun he => hiC (he ▸ hs), fun he => hjC (he ▸ hs),
      fun hc => hdisjctx s
        (hsmem s (Or.inr (Or.inl (hjmem s (Or.inr (Or.inr hc)))))) hs,
      fun hc => hdisjctx s
        (hsmem s (Or.inr (Or.inl (hjmem s (Or.inr (Or.inl hc)))))) hs,
      fun hc => hdisjctx s (hsmem s (Or.inr (Or.inr hc))) hs⟩
  have hilt : i < t.nodes.size := getElem?_some_lt hn
  have hjlt : j < t.nodes.size := getElem?_some_lt hm
  subst hq
  have sP : ∀ (tt : RBTree) (g : Nat) (q2 : Ptr) (x : GNode),
      tt.nodes[g]? = some x →
      RBTree.setParent tt (some g) q2 =
        .ok (upd tt g { x with parent := q2 }) := by
    intro tt g q2 x hx
    unfold RBTree.setParent
    exact setF_okU hx
  have sL : ∀ (tt : RBTree) (g : Nat) (q2 : Ptr) (x : GNode),
      tt.nodes[g]? = some x →
      RBTree.setLeft tt (some g) q2 =
        .ok (upd tt g { x with left := q2 }) := by
    intro tt g q2 x hx
    unfold RBTree.setLeft
    exact setF_okU hx
  have sR : ∀ (tt : RBTree) (g : Nat) (q2 : Ptr) (x : GNode),
      tt.nodes[g]? = some x →
      RBTree.setRight tt (some g) q2 =
        .ok (upd tt g { x with right := q2 }) := by
    intro tt g q2 x hx
    unfold RBTree.setRight
    exact setF_okU hx
  obtain ⟨nc, np, nl, nrt, nv⟩ := n
  obtain ⟨mc, mp, ml, mrt, mv⟩ := m
  simp only at hnc hnv hlj hn2p hri hmc hmv hjl hjr
  subst hlj
  cases ctx with
  | nil =>
    simp only [ctxParent] at hn2p
    subst hn2p
    cases jr with
    | leaf =>
      have hmr : mrt = nilP := reprOf_leaf hjr
      subst hmr
      simp only [rotateRight, mbind_def]
      rw [getE_ok hn]
      simp only [ebind_ok]
      rw [if_neg (show ¬((some j : Ptr) = none) by simp)]
      rw [getE_ok hm]
      simp only [ebind_ok]
      rw [sL t i nilP _ hn]
      simp only [ebind_ok]
      set t1 := upd t i { color := nc, parent := none, left := nilP, right := nrt, value := nv } with ht1def
      have hm_t1 : t1.nodes[j]? = some
          { color := mc, parent := mp, left := ml, right := nilP, value := mv } := by
        rw [ht1def, upd_get_ne (fun h => hij h.symm)]
        exact hm
      rw [sR _ j (some i) _ hm_t1]
      simp only [ebind_ok]
      set t2 := upd t1 j { color := mc, parent := mp, left := ml, right := some i, value := mv } with ht2def
      have hn_t2 : t2.nodes[i]? = some
          { color := nc, parent := none, left := nilP, right := nrt, value := nv } := by
        rw [ht2def, upd_get_ne hij, ht1def]
        exact upd_get_self hilt
      rw [getE_ok hn_t2]
      simp only [ebind_ok]
      rw [if_neg (show ¬((nilP : Ptr) ≠ nilP) by simp)]
      simp only [mpure_def, ebind_ok]
      have ht3j : t2.nodes[j]? = some
          { color := mc, parent := mp, left := ml, right := some i, value := mv } := by
        rw [ht2def]
        exact upd_get_self (by rw [ht1def, upd_size]; exact hjlt)
      have ht3out : ∀ s, s ≠ i → s ≠ j → t2.nodes[s]? = t.nodes[s]? := by
        intro s h1 h2
        rw [ht2def, upd_get_ne h2, ht1def, upd_get_ne h1]
      have ht3size : t2.nodes.size = t.nodes.size := by
        rw [ht2def, upd_size, ht1def, upd_size]
      have ht3root : t2.root = t.root := by
        rw [ht2def, upd_root, ht1def, upd_root]
      have hriagree : ∀ s ∈ ri.idxs, t2.nodes[s]? = t.nodes[s]? := fun s hs =>
        ht3out s (fun he => hi_ri (he ▸ hs)) (fun he => hjRi (he ▸ hs))
      have hjlagree : ∀ s ∈ jl.idxs, t2.nodes[s]? = t.nodes[s]? := fun s hs =>
        ht3out s (fun he => hi_jl (he ▸ hs)) (fun he => hj_jl (he ▸ hs))
      have hri3 := reprOf_agree hri hriagree
      have hjl3 := reprOf_agree hjl hjlagree
      have hpri3 := parentsOk_agree hpri hriagree
      have hpjl3 := parentsOk_agree hpjl hjlagree
      rw [getE_ok hn_t2]
      simp only [ebind_ok, mpure_def]
      set t4 := { t2 with root := some j } with ht4def
      have ht4i : t4.nodes[i]? = some
          { color := nc, parent := none, left := nilP, right := nrt, value := nv } := hn_t2
      rw [getE_ok ht4i]
      simp only [ebind_ok]
      have ht4j : t4.nodes[j]? = some
          { color := mc, parent := mp, left := ml, right := some i, value := mv } := ht3j
      rw [sP _ j none _ ht4j]
      simp only [ebind_ok]
      set t5 := upd t4 j { color := mc, parent := none, left := ml, right := some i, value := mv } with ht5def
      have ht5i : t5.nodes[i]? = some
          { color := nc, parent := none, left := nilP, right := nrt, value := nv } := by
        rw [ht5def, upd_get_ne hij]
        exact ht4i
      rw [sP _ i (some j) _ ht5i]
      have hctx4 : CtxAt t4 (some j) [] := CtxAt.root
      have ht4size : t4.nodes.size = t.nodes.size := ht3size
      have ht40 : t4.nodes[0]? = t.nodes[0]? :=
        ht3out 0 (fun h => hi0 h.symm) (fun h => hj0 h.symm)
      obtain ⟨hA, hB, hC, hD, hE, hF⟩ :=
        rotateRight_assemble hi0 hj0 hij ht4i ht4j hnc hnv
          (show _ = ctxParent ([] : Ctx) from rfl) hmc hmv rfl
          (reprOf_agree hjl3 (fun s hs => rfl)) ReprOf.leaf
          (reprOf_agree hri3 (fun s hs => rfl))
          (parentsOk_agree hpjl3 (fun s hs => rfl)) rfl
          (parentsOk_agree hpri3 (fun s hs => rfl))
          hctx4 hi_jl hi_jr hi_ri hj_jl hj_jr hjRi hiC hjC
          (upd (upd t4 j
          { color := mc, parent := none, left := ml, right := some i, value := mv }) i
          { color := nc, parent := some j, left := nilP, right := nrt, value := nv }) rfl
      exact ⟨upd (upd t4 j
          { color := mc, parent := none, left := ml, right := some i, value := mv }) i
          { color := nc, parent := some j, left := nilP, right := nrt, value := nv }, rfl,
        hA, hB, hC, hD.trans ht4size, hE.trans ht40⟩
    | node k ck wk a b =>
      obtain ⟨hmr, hk0, tk, htk, htkc, htkv, hta, htb⟩ := reprOf_node_ptr hjr
      subst hmr
      obtain ⟨hnda, hndb, hka, hkb, hdisj_ab⟩ := idxs_node_nodup hndjr
      have hkmem : k ∈ (FT.node k ck wk a b).idxs := by
        simp [FT.idxs]
      have hki : k ≠ i := fun h => hi_jr (h ▸ hkmem)
      have hkj : k ≠ j := fun h => hj_jr (h ▸ hkmem)
      have hklt : k < t.nodes.size := getElem?_some_lt htk
      simp only [rotateRight, mbind_def]
      rw [getE_ok hn]
      simp only [ebind_ok]
      rw [if_neg (show ¬((some j : Ptr) = none) by simp)]
      rw [getE_ok hm]
      simp only [ebind_ok]
      rw [sL t i (some k) _ hn]
      simp only [ebind_ok]
      set t1 := upd t i { color := nc, parent := none, left := some k, right := nrt, value := nv } with ht1def
      have hm_t1 : t1.nodes[j]? = some
          { color := mc, parent := mp, left := ml, right := some k, value := mv } := by
        rw [ht1def, upd_get_ne (fun h => hij h.symm)]
        exact hm
      rw [sR _ j (some i) _ hm_t1]
      simp only [ebind_ok]
      set t2 := upd t1 j { color := mc, parent := mp, left := ml, right := some i, value := mv } with ht2def
      have hn_t2 : t2.nodes[i]? = some
          { color := nc, parent := none, left := some k, right := nrt, value := nv } := by
        rw [ht2def, upd_get_ne hij, ht1def]
        exact upd_get_self hilt
      rw [getE_ok hn_t2]
      simp only [ebind_ok]
      rw [if_pos (show ((some k : Ptr) ≠ nilP) by simp [nilP]; exact hk0)]
      have htk_t2 : t2.nodes[k]? = some tk := by
        rw [ht2def, upd_get_ne hkj, ht1def, upd_get_ne hki]
        exact htk
      rw [sP _ k (some i) tk htk_t2]
      simp only [ebind_ok]
      set t3 := upd t2 k { tk with parent := some i } with ht3def
      have ht3i : t3.nodes[i]? = some
          { color := nc, parent := none, left := some k, right := nrt, value := nv } := by
        rw [ht3def, upd_get_ne (fun h => hki h.symm)]
        exact hn_t2
      have ht3j : t3.nodes[j]? = some
          { color := mc, parent := mp, left := ml, right := some i, value := mv } := by
        rw [ht3def, upd_get_ne (fun h => hkj h.symm), ht2def]
        exact upd_get_self (by rw [ht1def, upd_size]; exact hjlt)
      have ht3out : ∀ s, s ≠ i → s ≠ j → s ≠ k → t3.nodes[s]? = t.nodes[s]? := by
        intro s h1 h2 h3
        rw [ht3def, upd_get_ne h3, ht2def, upd_get_ne h2, ht1def, upd_get_ne h1]
      have ht3size : t3.nodes.size = t.nodes.size := by
        rw [ht3def, upd_size, ht2def, upd_size, ht1def, upd_size]
      have ht3root : t3.root = t.root := by
        rw [ht3def, upd_root, ht2def, upd_root, ht1def, upd_root]
      have hkself : t3.nodes[k]? = some { tk with parent := some i } := by
        rw [ht3def]
        exact upd_get_self (by rw [ht2def, upd_size, ht1def, upd_size]; exact hklt)
      have hjragree : ∀ s, s ∈ a.idxs ∨ s ∈ b.idxs →
          t3.nodes[s]? = t.nodes[s]? := by
        intro s hs
        have hsk : s ≠ k := by
          rcases hs with h | h
          · exact fun he => hka (he ▸ h)
          · exact fun he => hkb (he ▸ h)
        have hsjr : s ∈ (FT.node k ck wk a b).idxs := by
          simp only [FT.idxs, List.mem_append, List.mem_cons]
          rcases hs with h | h
          · exact Or.inl h
          · exact Or.inr (Or.inr h)
        exact ht3out s (fun he => hi_jr (he ▸ hsjr)) (fun he => hj_jr (he ▸ hsjr)) hsk
      have ht3rep : ReprOf t3 (some k) (.node k ck wk a b) := by
        have hta2 : ReprOf t3 tk.left a :=
          reprOf_agree hta (fun s hs => hjragree s (Or.inl hs))
        have htb2 : ReprOf t3 tk.right b :=
          reprOf_agree htb (fun s hs => hjragree s (Or.inr hs))
        have h1 := ReprOf.node k { tk with parent := some i } a b hk0 hkself
          (by exact hta2) (by exact htb2)
        rw [show ({ tk with parent := some i } : GNode).color = ck from htkc,
          show ({ tk with parent := some i } : GNode).value = wk from htkv] at h1
        exact h1
      have ht3pok : parentsOk t3 (some i) (.node k ck wk a b) = true := by
        obtain ⟨⟨tk2, htk2, htk2p⟩, hpa, hpb⟩ := parentsOk_node hpjr
        simp only [parentsOk, Bool.and_eq_true]
        refine ⟨⟨?_, ?_⟩, ?_⟩
        · rw [hkself]
          simp
        · exact parentsOk_agree hpa (fun s hs => hjragree s (Or.inl hs))
        · exact parentsOk_agree hpb (fun s hs => hjragree s (Or.inr hs))
      have hriagree : ∀ s ∈ ri.idxs, t3.nodes[s]? = t.nodes[s]? := fun s hs =>
        ht3out s (fun he => hi_ri (he ▸ hs)) (fun he => hjRi (he ▸ hs))
          (fun he => hdisj_jt_ri k (hjmem k (Or.inr (Or.inr hkmem))) (he ▸ hs))
      have hjlagree : ∀ s ∈ jl.idxs, t3.nodes[s]? = t.nodes[s]? := fun s hs =>
        ht3out s (fun he => hi_jl (he ▸ hs)) (fun he => hj_jl (he ▸ hs))
          (fun he => hdisj_jljr s hs (he ▸ hkmem))
      have hri3 := reprOf_agree hri hriagree
      have hjl3 := reprOf_agree hjl hjlagree
      have hpri3 := parentsOk_agree hpri hriagree
      have hpjl3 := parentsOk_agree hpjl hjlagree
      rw [getE_ok ht3i]
      simp only [ebind_ok, mpure_def]
      set t4 := { t3 with root := some j } with ht4def
      have ht4i : t4.nodes[i]? = some
          { color := nc, parent := none, left := some k, right := nrt, value := nv } := ht3i
      rw [getE_ok ht4i]
      simp only [ebind_ok]
      have ht4j : t4.nodes[j]? = some
          { color := mc, parent := mp, left := ml, right := some i, value := mv } := ht3j
      rw [sP _ j none _ ht4j]
      simp only [ebind_ok]
      set t5 := upd t4 j { color := mc, parent := none, left := ml, right := some i, value := mv } with ht5def
      have ht5i : t5.nodes[i]? = some
          { color := nc, parent := none, left := some k, right := nrt, value := nv } := by
        rw [ht5def, upd_get_ne hij]
        exact ht4i
      rw [sP _ i (some j) _ ht5i]
      have hctx4 : CtxAt t4 (some j) [] := CtxAt.root
      have ht4size : t4.nodes.size = t.nodes.size := ht3size
      have ht40 : t4.nodes[0]? = t.nodes[0]? :=
        ht3out 0 (fun h => hi0 h.symm) (fun h => hj0 h.symm) (fun h => hk0 h.symm)
      obtain ⟨hA, hB, hC, hD, hE, hF⟩ :=
        rotateRight_assemble hi0 hj0 hij ht4i ht4j hnc hnv
          (show _ = ctxParent ([] : Ctx) from rfl) hmc hmv rfl
          (reprOf_agree hjl3 (fun s hs => rfl)) (reprOf_agree ht3rep (fun s hs => rfl))
          (reprOf_agree hri3 (fun s hs => rfl))
          (parentsOk_agree hpjl3 (fun s hs => rfl)) (parentsOk_agree ht3pok (fun s hs => rfl))
          (parentsOk_agree hpri3 (fun s hs => rfl))
          hctx4 hi_jl hi_jr hi_ri hj_jl hj_jr hjRi hiC hjC
          (upd (upd t4 j
          { color := mc, parent := none, left := ml, right := some i, value := mv }) i
          { color := nc, parent := some j, left := some k, right := nrt, value := nv }) rfl
      exact ⟨upd (upd t4 j
          { color := mc, parent := none, left := ml, right := some i, value := mv }) i
          { color := nc, parent := some j, left := some k, right := nrt, value := nv }, rfl,
        hA, hB, hC, hD.trans ht4size, hE.trans ht40⟩
  | cons f ctx2 =>
    cases f with
    | lf fi fc fv sib =>
      obtain ⟨fn, hchain, hfi0, hfn, hfpar, hfchild, hfsib, hfsibok⟩ :=
        ctxAt_cons_lf hctx
      have hfiC : fi ∈ ctxIdxs (Frame.lf fi fc fv sib :: ctx2) := by
        simp [ctxIdxs]
      have hmemC : ∀ s, s ∈ sib.idxs ∨ s ∈ ctxIdxs ctx2 →
          s ∈ ctxIdxs (Frame.lf fi fc fv sib :: ctx2) := by
        intro s hs
        simp only [ctxIdxs, List.cons_append, List.mem_cons, List.mem_append]
        rcases hs with h | h
        · exact Or.inr (Or.inl h)
        · exact Or.inr (Or.inr h)
      have hifi : i ≠ fi := fun he => hiC (he ▸ hfiC)
      have hjfi : j ≠ fi := fun he => hjC (he ▸ hfiC)
      have hfi_nodup : fi ∉ sib.idxs ∧ fi ∉ ctxIdxs ctx2 := by
        simp only [ctxIdxs] at hndctx
        rw [List.cons_append, List.nodup_cons] at hndctx
        exact ⟨fun hc => hndctx.1 (List.mem_append.mpr (Or.inl hc)),
          fun hc => hndctx.1 (List.mem_append.mpr (Or.inr hc))⟩
      have hfrne : fn.right ≠ some i := fun hc =>
        hiC (hmemC i (Or.inl (reprOf_mem_idxs (hc ▸ hfsib) hi0)))
      simp only [ctxParent, Frame.idx] at hn2p
      subst hn2p
      cases jr with
      | leaf =>
        have hmr : mrt = nilP := reprOf_leaf hjr
        subst hmr
        simp only [rotateRight, mbind_def]
        rw [getE_ok hn]
        simp only [ebind_ok]
        rw [if_neg (show ¬((some j : Ptr) = none) by simp)]
        rw [getE_ok hm]
        simp only [ebind_ok]
        rw [sL t i nilP _ hn]
        simp only [ebind_ok]
        set t1 := upd t i { color := nc, parent := some fi, left := nilP, right := nrt, value := nv } with ht1def
        have hm_t1 : t1.nodes[j]? = some
            { color := mc, parent := mp, left := ml, right := nilP, value := mv } := by
          rw [ht1def, upd_get_ne (fun h => hij h.symm)]
          exact hm
        rw [sR _ j (some i) _ hm_t1]
        simp only [ebind_ok]
        set t2 := upd t1 j { color := mc, parent := mp, left := ml, right := some i, value := mv } with ht2def
        have hn_t2 : t2.nodes[i]? = some
            { color := nc, parent := some fi, left := nilP, right := nrt, value := nv } := by
          rw [ht2def, upd_get_ne hij, ht1def]
          exact upd_get_self hilt
        rw [getE_ok hn_t2]
        simp only [ebind_ok]
        rw [if_neg (show ¬((nilP : Ptr) ≠ nilP) by simp)]
        simp only [mpure_def, ebind_ok]
        have ht3j : t2.nodes[j]? = some
            { color := mc, parent := mp, left := ml, right := some i, value := mv } := by
          rw [ht2def]
          exact upd_get_self (by rw [ht1def, upd_size]; exact hjlt)
        have ht3out : ∀ s, s ≠ i → s ≠ j → t2.nodes[s]? = t.nodes[s]? := by
          intro s h1 h2
          rw [ht2def, upd_get_ne h2, ht1def, upd_get_ne h1]
        have ht3size : t2.nodes.size = t.nodes.size := by
          rw [ht2def, upd_size, ht1def, upd_size]
        have ht3root : t2.root = t.root := by
          rw [ht2def, upd_root, ht1def, upd_root]
        have hriagree : ∀ s ∈ ri.idxs, t2.nodes[s]? = t.nodes[s]? := fun s hs =>
          ht3out s (fun he => hi_ri (he ▸ hs)) (fun he => hjRi (he ▸ hs))
        have hjlagree : ∀ s ∈ jl.idxs, t2.nodes[s]? = t.nodes[s]? := fun s hs =>
          ht3out s (fun he => hi_jl (he ▸ hs)) (fun he => hj_jl (he ▸ hs))
        have hri3 := reprOf_agree hri hriagree
        have hjl3 := reprOf_agree hjl hjlagree
        have hpri3 := parentsOk_agree hpri hriagree
        have hpjl3 := parentsOk_agree hpjl hjlagree
        have hfn_t3 : t2.nodes[fi]? = some fn := by
          rw [ht3out fi (fun h => hifi h.symm) (fun h => hjfi h.symm)]
          exact hfn
        rw [getE_ok hn_t2]
        simp only [ebind_ok]
        rw [getE_ok hfn_t3]
        simp only [ebind_ok]
        rw [if_neg hfrne]
        rw [sL _ fi (some j) fn hfn_t3]
        simp only [ebind_ok]
        set t4 := upd t2 fi { fn with left := some j } with ht4def
        have ht4i : t4.nodes[i]? = some
            { color := nc, parent := some fi, left := nilP, right := nrt, value := nv } := by
          rw [ht4def, upd_get_ne hifi]
          exact hn_t2
        rw [getE_ok ht4i]
        simp only [ebind_ok]
        have ht4j : t4.nodes[j]? = some
            { color := mc, parent := mp, left := ml, right := some i, value := mv } := by
          rw [ht4def, upd_get_ne hjfi]
          exact ht3j
        rw [sP _ j (some fi) _ ht4j]
        simp only [ebind_ok]
        set t5 := upd t4 j { color := mc, parent := some fi, left := ml, right := some i, value := mv } with ht5def
        have ht5i : t5.nodes[i]? = some
            { color := nc, parent := some fi, left := nilP, right := nrt, value := nv } := by
          rw [ht5def, upd_get_ne hij]
          exact ht4i
        rw [sP _ i (some j) _ ht5i]
        have hagree4 : ∀ s, s ∈ sib.idxs ∨ s ∈ ctxIdxs ctx2 →
            t4.nodes[s]? = t.nodes[s]? := by
          intro s hs
          have hsC := hmemC s hs
          have hsfi : s ≠ fi := by
            rcases hs with h | h
            · exact fun he => hfi_nodup.1 (he ▸ h)
            · exact fun he => hfi_nodup.2 (he ▸ h)
          rw [ht4def, upd_get_ne hsfi]
          exact ht3out s (hCne s hsC).1 (hCne s hsC).2.1
        have hctx4 : CtxAt t4 (some j) (Frame.lf fi fc fv sib :: ctx2) := by
          refine ctxAt_retarget_lf hctx ?_ ?_ ?_ ?_
          · rw [ht4def, upd_root]
            exact ht3root
          · intro s hs
            exact hagree4 s (Or.inr hs)
          · intro s hs
            exact hagree4 s (Or.inl hs)
          · intro nn hnn
            rw [hfn, Option.some.injEq] at hnn
            rw [← hnn, ht4def]
            exact upd_get_self (getElem?_some_lt hfn_t3)
        have hfiRi : fi ∉ ri.idxs := fun hc =>
          hdisjctx fi (hsmem fi (Or.inr (Or.inr hc))) hfiC
        have hfiJl : fi ∉ jl.idxs := fun hc =>
          hdisjctx fi (hsmem fi (Or.inr (Or.inl (hjmem fi (Or.inr (Or.inl hc)))))) hfiC
        have h34ri : ∀ s ∈ ri.idxs, t4.nodes[s]? = t2.nodes[s]? := fun s hs => by
          rw [ht4def]
          exact upd_get_ne (fun he => hfiRi (he ▸ hs))
        have h34jl : ∀ s ∈ jl.idxs, t4.nodes[s]? = t2.nodes[s]? := fun s hs => by
          rw [ht4def]
          exact upd_get_ne (fun he => hfiJl (he ▸ hs))
        have ht4size : t4.nodes.size = t.nodes.size := by
          rw [ht4def, upd_size]
          exact ht3size
        have ht40 : t4.nodes[0]? = t.nodes[0]? := by
          rw [ht4def, upd_get_ne (fun h => hfi0 h.symm)]
          exact ht3out 0 (fun h => hi0 h.symm) (fun h => hj0 h.symm)
        obtain ⟨hA, hB, hC, hD, hE, hF⟩ :=
          rotateRight_assemble hi0 hj0 hij ht4i ht4j hnc hnv
            (show _ = ctxParent (Frame.lf fi fc fv sib :: ctx2) from rfl) hmc hmv rfl
            (reprOf_agree hjl3 h34jl) ReprOf.leaf
            (reprOf_agree hri3 h34ri)
            (parentsOk_agree hpjl3 h34jl) rfl
            (parentsOk_agree hpri3 h34ri)
            hctx4 hi_jl hi_jr hi_ri hj_jl hj_jr hjRi hiC hjC
            (upd (upd t4 j
            { color := mc, parent := some fi, left := ml, right := some i, value := mv }) i
            { color := nc, parent := some j, left := nilP, right := nrt, value := nv }) rfl
        exact ⟨upd (upd t4 j
            { color := mc, parent := some fi, left := ml, right := some i, value := mv }) i
            { color := nc, parent := some j, left := nilP, right := nrt, value := nv }, rfl,
          hA, hB, hC, hD.trans ht4size, hE.trans ht40⟩
      | node k ck wk a b =>
        obtain ⟨hmr, hk0, tk, htk, htkc, htkv, hta, htb⟩ := reprOf_node_ptr hjr
        subst hmr
        obtain ⟨hnda, hndb, hka, hkb, hdisj_ab⟩ := idxs_node_nodup hndjr
        have hkmem : k ∈ (FT.node k ck wk a b).idxs := by
          simp [FT.idxs]
        have hki : k ≠ i := fun h => hi_jr (h ▸ hkmem)
        have hkj : k ≠ j := fun h => hj_jr (h ▸ hkmem)
        have hklt : k < t.nodes.size := getElem?_some_lt htk
        have hkC : k ∉ ctxIdxs (Frame.lf fi fc fv sib :: ctx2) :=
          hdisjctx k (hsmem k (Or.inr (Or.inl (hjmem k (Or.inr (Or.inr hkmem))))))
        have hkfi : k ≠ fi := fun he => hkC (he ▸ hfiC)
        simp only [rotateRight, mbind_def]
        rw [getE_ok hn]
        simp only [ebind_ok]
        rw [if_neg (show ¬((some j : Ptr) = none) by simp)]
        rw [getE_ok hm]
        simp only [ebind_ok]
        rw [sL t i (some k) _ hn]
        simp only [ebind_ok]
        set t1 := upd t i { color := nc, parent := some fi, left := some k, right := nrt, value := nv } with ht1def
        have hm_t1 : t1.nodes[j]? = some
            { color := mc, parent := mp, left := ml, right := some k, value := mv } := by
          rw [ht1def, upd_get_ne (fun h => hij h.symm)]
          exact hm
        rw [sR _ j (some i) _ hm_t1]
        simp only [ebind_ok]
        set t2 := upd t1 j { color := mc, parent := mp, left := ml, right := some i, value := mv } with ht2def
        have hn_t2 : t2.nodes[i]? = some
            { color := nc, parent := some fi, left := some k, right := nrt, value := nv } := by
          rw [ht2def, upd_get_ne hij, ht1def]
          exact upd_get_self hilt
        rw [getE_ok hn_t2]
        simp only [ebind_ok]
        rw [if_pos (show ((some k : Ptr) ≠ nilP) by simp [nilP]; exact hk0)]
        have htk_t2 : t2.nodes[k]? = some tk := by
          rw [ht2def, upd_get_ne hkj, ht1def, upd_get_ne hki]
          exact htk
        rw [sP _ k (some i) tk htk_t2]
        simp only [ebind_ok]
        set t3 := upd t2 k { tk with parent := some i } with ht3def
        have ht3i : t3.nodes[i]? = some
            { color := nc, parent := some fi, left := some k, right := nrt, value := nv } := by
          rw [ht3def, upd_get_ne (fun h => hki h.symm)]
          exact hn_t2
        have ht3j : t3.nodes[j]? = some
            { color := mc, parent := mp, left := ml, right := some i, value := mv } := by
          rw [ht3def, upd_get_ne (fun h => hkj h.symm), ht2def]
          exact upd_get_self (by rw [ht1def, upd_size]; exact hjlt)
        have ht3out : ∀ s, s ≠ i → s ≠ j → s ≠ k → t3.nodes[s]? = t.nodes[s]? := by
          intro s h1 h2 h3
          rw [ht3def, upd_get_ne h3, ht2def, upd_get_ne h2, ht1def, upd_get_ne h1]
        have ht3size : t3.nodes.size = t.nodes.size := by
          rw [ht3def, upd_size, ht2def, upd_size, ht1def, upd_size]
        have ht3root : t3.root = t.root := by
          rw [ht3def, upd_root, ht2def, upd_root, ht1def, upd_root]
        have hkself : t3.nodes[k]? = some { tk with parent := some i } := by
          rw [ht3def]
          exact upd_get_self (by rw [ht2def, upd_size, ht1def, upd_size]; exact hklt)
        have hjragree : ∀ s, s ∈ a.idxs ∨ s ∈ b.idxs →
            t3.nodes[s]? = t.nodes[s]? := by
          intro s hs
          have hsk : s ≠ k := by
            rcases hs with h | h
            · exact fun he => hka (he ▸ h)
            · exact fun he => hkb (he ▸ h)
          have hsjr : s ∈ (FT.node k ck wk a b).idxs := by
            simp only [FT.idxs, List.mem_append, List.mem_cons]
            rcases hs with h | h
            · exact Or.inl h
            · exact Or.inr (Or.inr h)
          exact ht3out s (fun he => hi_jr (he ▸ hsjr)) (fun he => hj_jr (he ▸ hsjr)) hsk
        have ht3rep : ReprOf t3 (some k) (.node k ck wk a b) := by
          have hta2 : ReprOf t3 tk.left a :=
            reprOf_agree hta (fun s hs => hjragree s (Or.inl hs))
          have htb2 : ReprOf t3 tk.right b :=
            reprOf_agree htb (fun s hs => hjragree s (Or.inr hs))
          have h1 := ReprOf.node k { tk with parent := some i } a b hk0 hkself
            (by exact hta2) (by exact htb2)
          rw [show ({ tk with parent := some i } : GNode).color = ck from htkc,
            show ({ tk with parent := some i } : GNode).value = wk from htkv] at h1
          exact h1
        have ht3pok : parentsOk t3 (some i) (.node k ck wk a b) = true := by
          obtain ⟨⟨tk2, htk2, htk2p⟩, hpa, hpb⟩ := parentsOk_node hpjr
          simp only [parentsOk, Bool.and_eq_true]
          refine ⟨⟨?_, ?_⟩, ?_⟩
          · rw [hkself]
            simp
          · exact parentsOk_agree hpa (fun s hs => hjragree s (Or.inl hs))
          · exact parentsOk_agree hpb (fun s hs => hjragree s (Or.inr hs))
        have hriagree : ∀ s ∈ ri.idxs, t3.nodes[s]? = t.nodes[s]? := fun s hs =>
          ht3out s (fun he => hi_ri (he ▸ hs)) (fun he => hjRi (he ▸ hs))
            (fun he => hdisj_jt_ri k (hjmem k (Or.inr (Or.inr hkmem))) (he ▸ hs))
        have hjlagree : ∀ s ∈ jl.idxs, t3.nodes[s]? = t.nodes[s]? := fun s hs =>
          ht3out s (fun he => hi_jl (he ▸ hs)) (fun he => hj_jl (he ▸ hs))
            (fun he => hdisj_jljr s hs (he ▸ hkmem))
        have hri3 := reprOf_agree hri hriagree
        have hjl3 := reprOf_agree hjl hjlagree
        have hpri3 := parentsOk_agree hpri hriagree
        have hpjl3 := parentsOk_agree hpjl hjlagree
        have hfn_t3 : t3.nodes[fi]? = some fn := by
          rw [ht3out fi (fun h => hifi h.symm) (fun h => hjfi h.symm)
            (fun h => hkfi h.symm)]
          exact hfn
        rw [getE_ok ht3i]
        simp only [ebind_ok]
        rw [getE_ok hfn_t3]
        simp only [ebind_ok]
        rw [if_neg hfrne]
        rw [sL _ fi (some j) fn hfn_t3]
        simp only [ebind_ok]
        set t4 := upd t3 fi { fn with left := some j } with ht4def
        have ht4i : t4.nodes[i]? = some
            { color := nc, parent := some fi, left := some k, right := nrt, value := nv } := by
          rw [ht4def, upd_get_ne hifi]
          exact ht3i
        rw [getE_ok ht4i]
        simp only [ebind_ok]
        have ht4j : t4.nodes[j]? = some
            { color := mc, parent := mp, left := ml, right := some i, value := mv } := by
          rw [ht4def, upd_get_ne hjfi]
          exact ht3j
        rw [sP _ j (some fi) _ ht4j]
        simp only [ebind_ok]
        set t5 := upd t4 j { color := mc, parent := some fi, left := ml, right := some i, value := mv } with ht5def
        have ht5i : t5.nodes[i]? = some
            { color := nc, parent := some fi, left := some k, right := nrt, value := nv } := by
          rw [ht5def, upd_get_ne hij]
          exact ht4i
        rw [sP _ i (some j) _ ht5i]
        have hagree4 : ∀ s, s ∈ sib.idxs ∨ s ∈ ctxIdxs ctx2 →
            t4.nodes[s]? = t.nodes[s]? := by
          intro s hs
          have hsC := hmemC s hs
          have hsfi : s ≠ fi := by
            rcases hs with h | h
            · exact fun he => hfi_nodup.1 (he ▸ h)
            · exact fun he => hfi_nodup.2 (he ▸ h)
          rw [ht4def, upd_get_ne hsfi]
          exact ht3out s (hCne s hsC).1 (hCne s hsC).2.1
            (fun he => (hCne s hsC).2.2.1 (he ▸ hkmem))
        have hctx4 : CtxAt t4 (some j) (Frame.lf fi fc fv sib :: ctx2) := by
          refine ctxAt_retarget_lf hctx ?_ ?_ ?_ ?_
          · rw [ht4def, upd_root]
            exact ht3root
          · intro s hs
            exact hagree4 s (Or.inr hs)
          · intro s hs
            exact hagree4 s (Or.inl hs)
          · intro nn hnn
            rw [hfn, Option.some.injEq] at hnn
            rw [← hnn, ht4def]
            exact upd_get_self (getElem?_some_lt hfn_t3)
        have hfiRi : fi ∉ ri.idxs := fun hc =>
          hdisjctx fi (hsmem fi (Or.inr (Or.inr hc))) hfiC
        have hfiJl : fi ∉ jl.idxs := fun hc =>
          hdisjctx fi (hsmem fi (Or.inr (Or.inl (hjmem fi (Or.inr (Or.inl hc)))))) hfiC
        have h34ri : ∀ s ∈ ri.idxs, t4.nodes[s]? = t3.nodes[s]? := fun s hs => by
          rw [ht4def]
          exact upd_get_ne (fun he => hfiRi (he ▸ hs))
        have h34jl : ∀ s ∈ jl.idxs, t4.nodes[s]? = t3.nodes[s]? := fun s hs => by
          rw [ht4def]
          exact upd_get_ne (fun he => hfiJl (he ▸ hs))
        have hfiJr : fi ∉ (FT.node k ck wk a b).idxs := fun hc =>
          hdisjctx fi (hsmem fi (Or.inr (Or.inl (hjmem fi (Or.inr (Or.inr hc)))))) hfiC
        have h34jr : ∀ s ∈ (FT.node k ck wk a b).idxs,
            t4.nodes[s]? = t3.nodes[s]? := fun s hs => by
          rw [ht4def]
          exact upd_get_ne (fun he => hfiJr (he ▸ hs))
        have ht4size : t4.nodes.size = t.nodes.size := by
          rw [ht4def, upd_size]
          exact ht3size
        have ht40 : t4.nodes[0]? = t.nodes[0]? := by
          rw [ht4def, upd_get_ne (fun h => hfi0 h.symm)]
          exact ht3out 0 (fun h => hi0 h.symm) (fun h => hj0 h.symm) (fun h => hk0 h.symm)
        obtain ⟨hA, hB, hC, hD, hE, hF⟩ :=
          rotateRight_assemble hi0 hj0 hij ht4i ht4j hnc hnv
            (show _ = ctxParent (Frame.lf fi fc fv sib :: ctx2) from rfl) hmc hmv rfl
            (reprOf_agree hjl3 h34jl) (reprOf_agree ht3rep h34jr)
            (reprOf_agree hri3 h34ri)
            (parentsOk_agree hpjl3 h34jl) (parentsOk_agree ht3pok h34jr)
            (parentsOk_agree hpri3 h34ri)
            hctx4 hi_jl hi_jr hi_ri hj_jl hj_jr hjRi hiC hjC
            (upd (upd t4 j
            { color := mc, parent := some fi, left := ml, right := some i, value := mv }) i
            { color := nc, parent := some j, left := some k, right := nrt, value := nv }) rfl
        exact ⟨upd (upd t4 j
            { color := mc, parent := some fi, left := ml, right := some i, value := mv }) i
            { color := nc, parent := some j, left := some k, right := nrt, value := nv }, rfl,
          hA, hB, hC, hD.trans ht4size, hE.trans ht40⟩
    | rf fi fc fv sib =>
      obtain ⟨fn, hchain, hfi0, hfn, hfpar, hfchild, hfsib, hfsibok⟩ :=
        ctxAt_cons_rf hctx
      have hfiC : fi ∈ ctxIdxs (Frame.rf fi fc fv sib :: ctx2) := by
        simp [ctxIdxs]
      have hmemC : ∀ s, s ∈ sib.idxs ∨ s ∈ ctxIdxs ctx2 →
          s ∈ ctxIdxs (Frame.rf fi fc fv sib :: ctx2) := by
        intro s hs
        simp only [ctxIdxs, List.cons_append, List.mem_cons, List.mem_append]
        rcases hs with h | h
        · exact Or.inr (Or.inl h)
        · exact Or.inr (Or.inr h)
      have hifi : i ≠ fi := fun he => hiC (he ▸ hfiC)
      have hjfi : j ≠ fi := fun he => hjC (he ▸ hfiC)
      have hfi_nodup : fi ∉ sib.idxs ∧ fi ∉ ctxIdxs ctx2 := by
        simp only [ctxIdxs] at hndctx
        rw [List.cons_append, List.nodup_cons] at hndctx
        exact ⟨fun hc => hndctx.1 (List.mem_append.mpr (Or.inl hc)),
          fun hc => hndctx.1 (List.mem_append.mpr (Or.inr hc))⟩
      simp only [ctxParent, Frame.idx] at hn2p
      subst hn2p
      cases jr with
      | leaf =>
        have hmr : mrt = nilP := reprOf_leaf hjr
        subst hmr
        simp only [rotateRight, mbind_def]
        rw [getE_ok hn]
        simp only [ebind_ok]
        rw [if_neg (show ¬((some j : Ptr) = none) by simp)]
        rw [getE_ok hm]
        simp only [ebind_ok]
        rw [sL t i nilP _ hn]
        simp only [ebind_ok]
        set t1 := upd t i { color := nc, parent := some fi, left := nilP, right := nrt, value := nv } with ht1def
        have hm_t1 : t1.nodes[j]? = some
            { color := mc, parent := mp, left := ml, right := nilP, value := mv } := by
          rw [ht1def, upd_get_ne (fun h => hij h.symm)]
          exact hm
        rw [sR _ j (some i) _ hm_t1]
        simp only [ebind_ok]
        set t2 := upd t1 j { color := mc, parent := mp, left := ml, right := some i, value := mv } with ht2def
        have hn_t2 : t2.nodes[i]? = some
            { color := nc, parent := some fi, left := nilP, right := nrt, value := nv } := by
          rw [ht2def, upd_get_ne hij, ht1def]
          exact upd_get_self hilt
        rw [getE_ok hn_t2]
        simp only [ebind_ok]
        rw [if_neg (show ¬((nilP : Ptr) ≠ nilP) by simp)]
        simp only [mpure_def, ebind_ok]
        have ht3j : t2.nodes[j]? = some
            { color := mc, parent := mp, left := ml, right := some i, value := mv } := by
          rw [ht2def]
          exact upd_get_self (by rw [ht1def, upd_size]; exact hjlt)
        have ht3out : ∀ s, s ≠ i → s ≠ j → t2.nodes[s]? = t.nodes[s]? := by
          intro s h1 h2
          rw [ht2def, upd_get_ne h2, ht1def, upd_get_ne h1]
        have ht3size : t2.nodes.size = t.nodes.size := by
          rw [ht2def, upd_size, ht1def, upd_size]
        have ht3root : t2.root = t.root := by
          rw [ht2def, upd_root, ht1def, upd_root]
        have hriagree : ∀ s ∈ ri.idxs, t2.nodes[s]? = t.nodes[s]? := fun s hs =>
          ht3out s (fun he => hi_ri (he ▸ hs)) (fun he => hjRi (he ▸ hs))
        have hjlagree : ∀ s ∈ jl.idxs, t2.nodes[s]? = t.nodes[s]? := fun s hs =>
          ht3out s (fun he => hi_jl (he ▸ hs)) (fun he => hj_jl (he ▸ hs))
        have hri3 := reprOf_agree hri hriagree
        have hjl3 := reprOf_agree hjl hjlagree
        have hpri3 := parentsOk_agree hpri hriagree
        have hpjl3 := parentsOk_agree hpjl hjlagree
        have hfn_t3 : t2.nodes[fi]? = some fn := by
          rw [ht3out fi (fun h => hifi h.symm) (fun h => hjfi h.symm)]
          exact hfn
        rw [getE_ok hn_t2]
        simp only [ebind_ok]
        rw [getE_ok hfn_t3]
        simp only [ebind_ok]
        rw [if_pos hfchild]
        rw [sR _ fi (some j) fn hfn_t3]
        simp only [ebind_ok]
        set t4 := upd t2 fi { fn with right := some j } with ht4def
        have ht4i : t4.nodes[i]? = some
            { color := nc, parent := some fi, left := nilP, right := nrt, value := nv } := by
          rw [ht4def, upd_get_ne hifi]
          exact hn_t2
        rw [getE_ok ht4i]
        simp only [ebind_ok]
        have ht4j : t4.nodes[j]? = some
            { color := mc, parent := mp, left := ml, right := some i, value := mv } := by
          rw [ht4def, upd_get_ne hjfi]
          exact ht3j
        rw [sP _ j (some fi) _ ht4j]
        simp only [ebind_ok]
        set t5 := upd t4 j { color := mc, parent := some fi, left := ml, right := some i, value := mv } with ht5def
        have ht5i : t5.nodes[i]? = some
            { color := nc, parent := some fi, left := nilP, right := nrt, value := nv } := by
          rw [ht5def, upd_get_ne hij]
          exact ht4i
        rw [sP _ i (some j) _ ht5i]
        have hagree4 : ∀ s, s ∈ sib.idxs ∨ s ∈ ctxIdxs ctx2 →
            t4.nodes[s]? = t.nodes[s]? := by
          intro s hs
          have hsC := hmemC s hs
          have hsfi : s ≠ fi := by
            rcases hs with h | h
            · exact fun he => hfi_nodup.1 (he ▸ h)
            · exact fun he => hfi_nodup.2 (he ▸ h)
          rw [ht4def, upd_get_ne hsfi]
          exact ht3out s (hCne s hsC).1 (hCne s hsC).2.1
        have hctx4 : CtxAt t4 (some j) (Frame.rf fi fc fv sib :: ctx2) := by
          refine ctxAt_retarget_rf hctx ?_ ?_ ?_ ?_
          · rw [ht4def, upd_root]
            exact ht3root
          · intro s hs
            exact hagree4 s (Or.inr hs)
          · intro s hs
            exact hagree4 s (Or.inl hs)
          · intro nn hnn
            rw [hfn, Option.some.injEq] at hnn
            rw [← hnn, ht4def]
            exact upd_get_self (getElem?_some_lt hfn_t3)
        have hfiRi : fi ∉ ri.idxs := fun hc =>
          hdisjctx fi (hsmem fi (Or.inr (Or.inr hc))) hfiC
        have hfiJl : fi ∉ jl.idxs := fun hc =>
          hdisjctx fi (hsmem fi (Or.inr (Or.inl (hjmem fi (Or.inr (Or.inl hc)))))) hfiC
        have h34ri : ∀ s ∈ ri.idxs, t4.nodes[s]? = t2.nodes[s]? := fun s hs => by
          rw [ht4def]
          exact upd_get_ne (fun he => hfiRi (he ▸ hs))
        have h34jl : ∀ s ∈ jl.idxs, t4.nodes[s]? = t2.nodes[s]? := fun s hs => by
          rw [ht4def]
          exact upd_get_ne (fun he => hfiJl (he ▸ hs))
        have ht4size : t4.nodes.size = t.nodes.size := by
          rw [ht4def, upd_size]
          exact ht3size
        have ht40 : t4.nodes[0]? = t.nodes[0]? := by
          rw [ht4def, upd_get_ne (fun h => hfi0 h.symm)]
          exact ht3out 0 (fun h => hi0 h.symm) (fun h => hj0 h.symm)
        obtain ⟨hA, hB, hC, hD, hE, hF⟩ :=
          rotateRight_assemble hi0 hj0 hij ht4i ht4j hnc hnv
            (show _ = ctxParent (Frame.rf fi fc fv sib :: ctx2) from rfl) hmc hmv rfl
            (reprOf_agree hjl3 h34jl) ReprOf.leaf
            (reprOf_agree hri3 h34ri)
            (parentsOk_agree hpjl3 h34jl) rfl
            (parentsOk_agree hpri3 h34ri)
            hctx4 hi_jl hi_jr hi_ri hj_jl hj_jr hjRi hiC hjC
            (upd (upd t4 j
            { color := mc, parent := some fi, left := ml, right := some i, value := mv }) i
            { color := nc, parent := some j, left := nilP, right := nrt, value := nv }) rfl
        exact ⟨upd (upd t4 j
            { color := mc, parent := some fi, left := ml, right := some i, value := mv }) i
            { color := nc, parent := some j, left := nilP, right := nrt, value := nv }, rfl,
          hA, hB, hC, hD.trans ht4size, hE.trans ht40⟩
      | node k ck wk a b =>
        obtain ⟨hmr, hk0, tk, htk, htkc, htkv, hta, htb⟩ := reprOf_node_ptr hjr
        subst hmr
        obtain ⟨hnda, hndb, hka, hkb, hdisj_ab⟩ := idxs_node_nodup hndjr
        have hkmem : k ∈ (FT.node k ck wk a b).idxs := by
          simp [FT.idxs]
        have hki : k ≠ i := fun h => hi_jr (h ▸ hkmem)
        have hkj : k ≠ j := fun h => hj_jr (h ▸ hkmem)
        have hklt : k < t.nodes.size := getElem?_some_lt htk
        have hkC : k ∉ ctxIdxs (Frame.rf fi fc fv sib :: ctx2) :=
          hdisjctx k (hsmem k (Or.inr (Or.inl (hjmem k (Or.inr (Or.inr hkmem))))))
        have hkfi : k ≠ fi := fun he => hkC (he ▸ hfiC)
        simp only [rotateRight, mbind_def]
        rw [getE_ok hn]
        simp only [ebind_ok]
        rw [if_neg (show ¬((some j : Ptr) = none) by simp)]
        rw [getE_ok hm]
        simp only [ebind_ok]
        rw [sL t i (some k) _ hn]
        simp only [ebind_ok]
        set t1 := upd t i { color := nc, parent := some fi, left := some k, right := nrt, value := nv } with ht1def
        have hm_t1 : t1.nodes[j]? = some
            { color := mc, parent := mp, left := ml, right := some k, value := mv } := by
          rw [ht1def, upd_get_ne (fun h => hij h.symm)]
          exact hm
        rw [sR _ j (some i) _ hm_t1]
        simp only [ebind_ok]
        set t2 := upd t1 j { color := mc, parent := mp, left := ml, right := some i, value := mv } with ht2def
        have hn_t2 : t2.nodes[i]? = some
            { color := nc, parent := some fi, left := some k, right := nrt, value := nv } := by
          rw [ht2def, upd_get_ne hij, ht1def]
          exact upd_get_self hilt
        rw [getE_ok hn_t2]
        simp only [ebind_ok]
        rw [if_pos (show ((some k : Ptr) ≠ nilP) by simp [nilP]; exact hk0)]
        have htk_t2 : t2.nodes[k]? = some tk := by
          rw [ht2def, upd_get_ne hkj, ht1def, upd_get_ne hki]
          exact htk
        rw [sP _ k (some i) tk htk_t2]
        simp only [ebind_ok]
        set t3 := upd t2 k { tk with parent := some i } with ht3def
        have ht3i : t3.nodes[i]? = some
            { color := nc, parent := some fi, left := some k, right := nrt, value := nv } := by
          rw [ht3def, upd_get_ne (fun h => hki h.symm)]
          exact hn_t2
        have ht3j : t3.nodes[j]? = some
            { color := mc, parent := mp, left := ml, right := some i, value := mv } := by
          rw [ht3def, upd_get_ne (fun h => hkj h.symm), ht2def]
          exact upd_get_self (by rw [ht1def, upd_size]; exact hjlt)
        have ht3out : ∀ s, s ≠ i → s ≠ j → s ≠ k → t3.nodes[s]? = t.nodes[s]? := by
          intro s h1 h2 h3
          rw [ht3def, upd_get_ne h3, ht2def, upd_get_ne h2, ht1def, upd_get_ne h1]
        have ht3size : t3.nodes.size = t.nodes.size := by
          rw [ht3def, upd_size, ht2def, upd_size, ht1def, upd_size]
        have ht3root : t3.root = t.root := by
          rw [ht3def, upd_root, ht2def, upd_root, ht1def, upd_root]
        have hkself : t3.nodes[k]? = some { tk with parent := some i } := by
          rw [ht3def]
          exact upd_get_self (by rw [ht2def, upd_size, ht1def, upd_size]; exact hklt)
        have hjragree : ∀ s, s ∈ a.idxs ∨ s ∈ b.idxs →
            t3.nodes[s]? = t.nodes[s]? := by
          intro s hs
          have hsk : s ≠ k := by
            rcases hs with h | h
            · exact fun he => hka (he ▸ h)
            · exact fun he => hkb (he ▸ h)
          have hsjr : s ∈ (FT.node k ck wk a b).idxs := by
            simp only [FT.idxs, List.mem_append, List.mem_cons]
            rcases hs with h | h
            · exact Or.inl h
            · exact Or.inr (Or.inr h)
          exact ht3out s (fun he => hi_jr (he ▸ hsjr)) (fun he => hj_jr (he ▸ hsjr)) hsk
        have ht3rep : ReprOf t3 (some k) (.node k ck wk a b) := by
          have hta2 : ReprOf t3 tk.left a :=
            reprOf_agree hta (fun s hs => hjragree s (Or.inl hs))
          have htb2 : ReprOf t3 tk.right b :=
            reprOf_agree htb (fun s hs => hjragree s (Or.inr hs))
          have h1 := ReprOf.node k { tk with parent := some i } a b hk0 hkself
            (by exact hta2) (by exact htb2)
          rw [show ({ tk with parent := some i } : GNode).color = ck from htkc,
            show ({ tk with parent := some i } : GNode).value = wk from htkv] at h1
          exact h1
        have ht3pok : parentsOk t3 (some i) (.node k ck wk a b) = true := by
          obtain ⟨⟨tk2, htk2, htk2p⟩, hpa, hpb⟩ := parentsOk_node hpjr
          simp only [parentsOk, Bool.and_eq_true]
          refine ⟨⟨?_, ?_⟩, ?_⟩
          · rw [hkself]
            simp
          · exact parentsOk_agree hpa (fun s hs => hjragree s (Or.inl hs))
          · exact parentsOk_agree hpb (fun s hs => hjragree s (Or.inr hs))
        have hriagree : ∀ s ∈ ri.idxs, t3.nodes[s]? = t.nodes[s]? := fun s hs =>
          ht3out s (fun he => hi_ri (he ▸ hs)) (fun he => hjRi (he ▸ hs))
            (fun he => hdisj_jt_ri k (hjmem k (Or.inr (Or.inr hkmem))) (he ▸ hs))
        have hjlagree : ∀ s ∈ jl.idxs, t3.nodes[s]? = t.nodes[s]? := fun s hs =>
          ht3out s (fun he => hi_jl (he ▸ hs)) (fun he => hj_jl (he ▸ hs))
            (fun he => hdisj_jljr s hs (he ▸ hkmem))
        have hri3 := reprOf_agree hri hriagree
        have hjl3 := reprOf_agree hjl hjlagree
        have hpri3 := parentsOk_agree hpri hriagree
        have hpjl3 := parentsOk_agree hpjl hjlagree
        have hfn_t3 : t3.nodes[fi]? = some fn := by
          rw [ht3out fi (fun h => hifi h.symm) (fun h => hjfi h.symm)
            (fun h => hkfi h.symm)]
          exact hfn
        rw [getE_ok ht3i]
        simp only [ebind_ok]
        rw [getE_ok hfn_t3]
        simp only [ebind_ok]
        rw [if_pos hfchild]
        rw [sR _ fi (some j) fn hfn_t3]
        simp only [ebind_ok]
        set t4 := upd t3 fi { fn with right := some j } with ht4def
        have ht4i : t4.nodes[i]? = some
            { color := nc, parent := some fi, left := some k, right := nrt, value := nv } := by
          rw [ht4def, upd_get_ne hifi]
          exact ht3i
        rw [getE_ok ht4i]
        simp only [ebind_ok]
        have ht4j : t4.nodes[j]? = some
            { color := mc, parent := mp, left := ml, right := some i, value := mv } := by
          rw [ht4def, upd_get_ne hjfi]
          exact ht3j
        rw [sP _ j (some fi) _ ht4j]
        simp only [ebind_ok]
        set t5 := upd t4 j { color := mc, parent := some fi, left := ml, right := some i, value := mv } with ht5def
        have ht5i : t5.nodes[i]? = some
            { color := nc, parent := some fi, left := some k, right := nrt, value := nv } := by
          rw [ht5def, upd_get_ne hij]
          exact ht4i
        rw [sP _ i (some j) _ ht5i]
        have hagree4 : ∀ s, s ∈ sib.idxs ∨ s ∈ ctxIdxs ctx2 →
            t4.nodes[s]? = t.nodes[s]? := by
          intro s hs
          have hsC := hmemC s hs
          have hsfi : s ≠ fi := by
            rcases hs with h | h
            · exact fun he => hfi_nodup.1 (he ▸ h)
            · exact fun he => hfi_nodup.2 (he ▸ h)
          rw [ht4def, upd_get_ne hsfi]
          exact ht3out s (hCne s hsC).1 (hCne s hsC).2.1
            (fun he => (hCne s hsC).2.2.1 (he ▸ hkmem))
        have hctx4 : CtxAt t4 (some j) (Frame.rf fi fc fv sib :: ctx2) := by
          refine ctxAt_retarget_rf hctx ?_ ?_ ?_ ?_
          · rw [ht4def, upd_root]
            exact ht3root
          · intro s hs
            exact hagree4 s (Or.inr hs)
          · intro s hs
            exact hagree4 s (Or.inl hs)
          · intro nn hnn
            rw [hfn, Option.some.injEq] at hnn
            rw [← hnn, ht4def]
            exact upd_get_self (getElem?_some_lt hfn_t3)
        have hfiRi : fi ∉ ri.idxs := fun hc =>
          hdisjctx fi (hsmem fi (Or.inr (Or.inr hc))) hfiC
        have hfiJl : fi ∉ jl.idxs := fun hc =>
          hdisjctx fi (hsmem fi (Or.inr (Or.inl (hjmem fi (Or.inr (Or.inl hc)))))) hfiC
        have h34ri : ∀ s ∈ ri.idxs, t4.nodes[s]? = t3.nodes[s]? := fun s hs => by
          rw [ht4def]
          exact upd_get_ne (fun he => hfiRi (he ▸ hs))
        have h34jl : ∀ s ∈ jl.idxs, t4.nodes[s]? = t3.nodes[s]? := fun s hs => by
          rw [ht4def]
          exact upd_get_ne (fun he => hfiJl (he ▸ hs))
        have hfiJr : fi ∉ (FT.node k ck wk a b).idxs := fun hc =>
          hdisjctx fi (hsmem fi (Or.inr (Or.inl (hjmem fi (Or.inr (Or.inr hc)))))) hfiC
        have h34jr : ∀ s ∈ (FT.node k ck wk a b).idxs,
            t4.nodes[s]? = t3.nodes[s]? := fun s hs => by
          rw [ht4def]
          exact upd_get_ne (fun he => hfiJr (he ▸ hs))
        have ht4size : t4.nodes.size = t.nodes.size := by
          rw [ht4def, upd_size]
          exact ht3size
        have ht40 : t4.nodes[0]? = t.nodes[0]? := by
          rw [ht4def, upd_get_ne (fun h => hfi0 h.symm)]
          exact ht3out 0 (fun h => hi0 h.symm) (fun h => hj0 h.symm) (fun h => hk0 h.symm)
        obtain ⟨hA, hB, hC, hD, hE, hF⟩ :=
          rotateRight_assemble hi0 hj0 hij ht4i ht4j hnc hnv
            (show _ = ctxParent (Frame.rf fi fc fv sib :: ctx2) from rfl) hmc hmv rfl
            (reprOf_agree hjl3 h34jl) (reprOf_agree ht3rep h34jr)
            (reprOf_agree hri3 h34ri)
            (parentsOk_agree hpjl3 h34jl) (parentsOk_agree ht3pok h34jr)
            (parentsOk_agree hpri3 h34ri)
            hctx4 hi_jl hi_jr hi_ri hj_jl hj_jr hjRi hiC hjC
            (upd (upd t4 j
            { color := mc, parent := some fi, left := ml, right := some i, value := mv }) i
            { color := nc, parent := some j, left := some k, right := nrt, value := nv }) rfl
        exact ⟨upd (upd t4 j
            { color := mc, parent := some fi, left := ml, right := some i, value := mv }) i
            { color := nc, parent := some j, left := some k, right := nrt, value := nv }, rfl,
          hA, hB, hC, hD.trans ht4size, hE.trans ht40⟩


/-! Zipper navigation and recoloring helpers for the fixup loops. -/

theorem reprOf_zero_not_mem {t : RBTree} {p : Ptr} {σ : FT}
    (h : ReprOf t p σ) : 0 ∉ σ.idxs := by
  induction h with
  | leaf => simp [FT.idxs]
  | node i n l r hi hn hl hr ihl ihr =>
    simp only [FT.idxs, List.mem_append, List.mem_cons]
    intro hc
    rcases hc with hc | hc | hc
    · exact ihl hc
    · exact hi hc.symm
    · exact ihr hc

theorem ctxAt_zero_not_mem {t : RBTree} {p : Ptr} {ctx : Ctx}
    (h : CtxAt t p ctx) : 0 ∉ ctxIdxs ctx := by
  induction h with
  | root => simp [ctxIdxs]
  | left hchain hi hn hpar hleft hsib hsibok ih =>
    simp only [ctxIdxs, List.cons_append, List.mem_cons, List.mem_append]
    intro hc
    rcases hc with hc | hc | hc
    · exact hi hc.symm
    · exact reprOf_zero_not_mem hsib hc
    · exact ih hc
  | right hchain hi hn hpar hright hsib hsibok ih =>
    simp only [ctxIdxs, List.cons_append, List.mem_cons, List.mem_append]
    intro hc
    rcases hc with hc | hc | hc
    · exact hi hc.symm
    · exact reprOf_zero_not_mem hsib hc
    · exact ih hc

theorem reprOf_rootPtr {t : RBTree} {p : Ptr} {σ : FT}
    (h : ReprOf t p σ) : p = σ.rootPtr := by
  cases h with
  | leaf => rfl
  | node i n l r hi hn hl hr => rfl

theorem ctxAt_cons_lf2 {t : RBTree} {p : Ptr} {fi : Nat} {fc : Bool}
    {fv : Int} {sib : FT} {ctx : Ctx}
    (h : CtxAt t p (.lf fi fc fv sib :: ctx)) :
    ∃ fn, CtxAt t (some fi) ctx ∧ fi ≠ 0 ∧ t.nodes[fi]? = some fn ∧
      fn.parent = ctxParent ctx ∧ fn.left = p ∧
      ReprOf t fn.right sib ∧ parentsOk t (some fi) sib = true ∧
      fn.color = fc ∧ fn.value = fv := by
  cases h with
  | left hchain hi hn hpar hleft hsib hsibok =>
    rename_i n
    exact ⟨n, hchain, hi, hn, hpar, hleft, hsib, hsibok, rfl, rfl⟩

theorem ctxAt_cons_rf2 {t : RBTree} {p : Ptr} {fi : Nat} {fc : Bool}
    {fv : Int} {sib : FT} {ctx : Ctx}
    (h : CtxAt t p (.rf fi fc fv sib :: ctx)) :
    ∃ fn, CtxAt t (some fi) ctx ∧ fi ≠ 0 ∧ t.nodes[fi]? = some fn ∧
      fn.parent = ctxParent ctx ∧ fn.right = p ∧
      ReprOf t fn.left sib ∧ parentsOk t (some fi) sib = true ∧
      fn.color = fc ∧ fn.value = fv := by
  cases h with
  | right hchain hi hn hpar hright hsib hsibok =>
    rename_i n
    exact ⟨n, hchain, hi, hn, hpar, hright, hsib, hsibok, rfl, rfl⟩

/-- Refocus one frame up (left form): the parent node of the focus becomes
the focus, its subtree being the one-frame plug. -/
theorem zip_up_lf {t : RBTree} {q : Ptr} {fi : Nat} {fc : Bool} {fv : Int}
    {sib : FT} {ctx : Ctx} {σ : FT}
    (hctx : CtxAt t q (.lf fi fc fv sib :: ctx))
    (hrep : ReprOf t q σ)
    (hpok : parentsOk t (some fi) σ = true) :
    CtxAt t (some fi) ctx ∧
    ReprOf t (some fi) (.node fi fc fv σ sib) ∧
    parentsOk t (ctxParent ctx) (.node fi fc fv σ sib) = true := by
  obtain ⟨fn, hchain, hfi0, hfn, hfpar, hfchild, hfsib, hfsibok, hfcc, hfvv⟩ :=
    ctxAt_cons_lf2 hctx
  refine ⟨hchain, ?_, ?_⟩
  · have h1 := ReprOf.node fi fn σ sib hfi0 hfn (hfchild ▸ hrep) hfsib
    rw [hfcc, hfvv] at h1
    exact h1
  · simp only [parentsOk, Bool.and_eq_true, hfn]
    exact ⟨⟨by simp [hfpar], hpok⟩, hfsibok⟩

/-- Refocus one frame up (right form). -/
theorem zip_up_rf {t : RBTree} {q : Ptr} {fi : Nat} {fc : Bool} {fv : Int}
    {sib : FT} {ctx : Ctx} {σ : FT}
    (hctx : CtxAt t q (.rf fi fc fv sib :: ctx))
    (hrep : ReprOf t q σ)
    (hpok : parentsOk t (some fi) σ = true) :
    CtxAt t (some fi) ctx ∧
    ReprOf t (some fi) (.node fi fc fv sib σ) ∧
    parentsOk t (ctxParent ctx) (.node fi fc fv sib σ) = true := by
  obtain ⟨fn, hchain, hfi0, hfn, hfpar, hfchild, hfsib, hfsibok, hfcc, hfvv⟩ :=
    ctxAt_cons_rf2 hctx
  refine ⟨hchain, ?_, ?_⟩
  · have h1 := ReprOf.node fi fn sib σ hfi0 hfn hfsib (hfchild ▸ hrep)
    rw [hfcc, hfvv] at h1
    exact h1
  · simp only [parentsOk, Bool.and_eq_true, hfn]
    exact ⟨⟨by simp [hfpar], hfsibok⟩, hpok⟩

/-- Refocus to the left child of the focus node. -/
theorem zip_down_lf {t : RBTree} {fi : Nat} {c : Bool} {v : Int} {l r : FT}
    {ctx : Ctx}
    (hctx : CtxAt t (some fi) ctx)
    (hrep : ReprOf t (some fi) (.node fi c v l r))
    (hpok : parentsOk t (ctxParent ctx) (.node fi c v l r) = true) :
    CtxAt t l.rootPtr (.lf fi c v r :: ctx) ∧
    ReprOf t l.rootPtr l ∧ parentsOk t (some fi) l = true := by
  obtain ⟨_, hfi0, fn, hfn, hfc, hfv, hl, hr⟩ := reprOf_node_ptr hrep
  obtain ⟨⟨fn2, hfn2, hfp2⟩, hpl, hpr⟩ := parentsOk_node hpok
  rw [hfn] at hfn2
  injection hfn2 with he
  subst he
  have hlp : fn.left = l.rootPtr := reprOf_rootPtr hl
  refine ⟨?_, hlp ▸ hl, hpl⟩
  have h1 := CtxAt.left hctx hfi0 hfn hfp2 hlp hr hpr
  rw [hfc, hfv] at h1
  exact h1

/-- Refocus to the right child of the focus node. -/
theorem zip_down_rf {t : RBTree} {fi : Nat} {c : Bool} {v : Int} {l r : FT}
    {ctx : Ctx}
    (hctx : CtxAt t (some fi) ctx)
    (hrep : ReprOf t (some fi) (.node fi c v l r))
    (hpok : parentsOk t (ctxParent ctx) (.node fi c v l r) = true) :
    CtxAt t r.rootPtr (.rf fi c v l :: ctx) ∧
    ReprOf t r.rootPtr r ∧ parentsOk t (some fi) r = true := by
  obtain ⟨_, hfi0, fn, hfn, hfc, hfv, hl, hr⟩ := reprOf_node_ptr hrep
  obtain ⟨⟨fn2, hfn2, hfp2⟩, hpl, hpr⟩ := parentsOk_node hpok
  rw [hfn] at hfn2
  injection hfn2 with he
  subst he
  have hrp : fn.right = r.rootPtr := reprOf_rootPtr hr
  refine ⟨?_, hrp ▸ hr, hpr⟩
  have h1 := CtxAt.right hctx hfi0 hfn hfp2 hrp hl hpl
  rw [hfc, hfv] at h1
  exact h1

/-- Recolor the focus node: structure, links and the context all survive,
only the focus root color changes. -/
theorem setColor_root_zip {t : RBTree} {g : Nat} {c : Bool} {v : Int}
    {l r : FT} {ctx : Ctx} (c2 : Bool)
    (hctx : CtxAt t (some g) ctx)
    (hrep : ReprOf t (some g) (.node g c v l r))
    (hpok : parentsOk t (ctxParent ctx) (.node g c v l r) = true)
    (hnodup : (plug (.node g c v l r) ctx).idxs.Nodup) :
    ∃ t2, t.setColor (some g) c2 = .ok t2 ∧
      CtxAt t2 (some g) ctx ∧
      ReprOf t2 (some g) (.node g c2 v l r) ∧
      parentsOk t2 (ctxParent ctx) (.node g c2 v l r) = true ∧
      t2.nodes.size = t.nodes.size ∧ t2.nodes[0]? = t.nodes[0]? ∧
      t2.root = t.root := by
  obtain ⟨_, hg0, x, hx, hxc, hxv, hl, hr⟩ := reprOf_node_ptr hrep
  subst hxv
  obtain ⟨⟨x2, hx2, hxp⟩, hpl, hpr⟩ := parentsOk_node hpok
  rw [hx] at hx2
  injection hx2 with he
  subst he
  obtain ⟨hndσ, hndctx, hdisjctx⟩ := nodup_plug_split hnodup
  obtain ⟨hndl, hndr, hg_l, hg_r, hdisj_lr⟩ := idxs_node_nodup hndσ
  have hgmem : g ∈ (FT.node g c x.value l r).idxs := by
    simp [FT.idxs]
  have hgC : g ∉ ctxIdxs ctx := hdisjctx g hgmem
  refine ⟨upd t g { x with color := c2 }, ?_, ?_, ?_, ?_, upd_size, ?_, rfl⟩
  · unfold RBTree.setColor
    exact setF_okU hx
  · exact ctxAt_agree hctx rfl
      (fun s hs => upd_get_ne (fun he => hgC (he ▸ hs)))
  · have hgl : (upd t g { x with color := c2 }).nodes[g]? =
        some { x with color := c2 } := upd_get_self (getElem?_some_lt hx)
    have hl2 : ReprOf (upd t g { x with color := c2 }) x.left l :=
      reprOf_agree hl (fun s hs => upd_get_ne (fun he => hg_l (he ▸ hs)))
    have hr2 : ReprOf (upd t g { x with color := c2 }) x.right r :=
      reprOf_agree hr (fun s hs => upd_get_ne (fun he => hg_r (he ▸ hs)))
    exact ReprOf.node g { x with color := c2 } l r hg0 hgl
      (by exact hl2) (by exact hr2)
  · simp only [parentsOk, Bool.and_eq_true]
    refine ⟨⟨?_, ?_⟩, ?_⟩
    · rw [upd_get_self (getElem?_some_lt hx)]
      simp [hxp]
    · exact parentsOk_agree hpl
        (fun s hs => upd_get_ne (fun he => hg_l (he ▸ hs)))
    · exact parentsOk_agree hpr
        (fun s hs => upd_get_ne (fun he => hg_r (he ▸ hs)))
  · exact upd_get_ne (fun he => hg0 he.symm)

/-- Recolor the sentinel: the tree and the context do not notice, and the
sentinel keeps its Go-nil links. -/
theorem setColor_sentinel_zip {t : RBTree} {q : Ptr} {ctx : Ctx} {σ : FT}
    (c2 : Bool) {s0 : GNode}
    (hctx : CtxAt t q ctx) (hrep : ReprOf t q σ)
    (hpok : parentsOk t (ctxParent ctx) σ = true)
    (hs0 : t.nodes[0]? = some s0) :
    ∃ t2, t.setColor nilP c2 = .ok t2 ∧
      CtxAt t2 q ctx ∧ ReprOf t2 q σ ∧
      parentsOk t2 (ctxParent ctx) σ = true ∧
      t2.nodes.size = t.nodes.size ∧
      t2.nodes[0]? = some { s0 with color := c2 } ∧
      t2.root = t.root := by
  have h0σ := reprOf_zero_not_mem hrep
  have h0C := ctxAt_zero_not_mem hctx
  refine ⟨upd t 0 { s0 with color := c2 }, ?_, ?_, ?_, ?_, upd_size, ?_, rfl⟩
  · unfold RBTree.setColor
    exact setF_okU hs0
  · exact ctxAt_agree hctx rfl
      (fun s hs => upd_get_ne (fun he => h0C (he ▸ hs)))
  · exact reprOf_agree hrep
      (fun s hs => upd_get_ne (fun he => h0σ (he ▸ hs)))
  · exact parentsOk_agree hpok
      (fun s hs => upd_get_ne (fun he => h0σ (he ▸ hs)))
  · exact upd_get_self (getElem?_some_lt hs0)

/-- Building block for BST order of a node. -/
theorem bstB_intro {lo hi : Option Int} {i : Nat} {c : Bool} {v : Int}
    {l r : FT}
    (hl : FT.bstB lo (some v) l = true) (hr : FT.bstB (some v) hi r = true)
    (hlo : ∀ a, lo = some a → a < v) (hhi : ∀ b, hi = some b → v < b) :
    FT.bstB lo hi (.node i c v l r) = true := by
  simp only [FT.bstB, Bool.and_eq_true]
  refine ⟨⟨⟨?_, ?_⟩, hl⟩, hr⟩
  · cases lo with
    | none => rfl
    | some a => simp [hlo a rfl]
  · cases hi with
    | none => rfl
    | some b => simp [hhi b rfl]

/-- A left rotation preserves BST order within any bounds. -/
theorem bstB_rotL {lo hi : Option Int} {i : Nat} {ci : Bool} {vi : Int}
    {li : FT} {j : Nat} {cj : Bool} {vj : Int} {rl rr : FT}
    (h : FT.bstB lo hi (.node i ci vi li (.node j cj vj rl rr)) = true) :
    FT.bstB lo hi (.node j cj vj (.node i ci vi li rl) rr) = true := by
  obtain ⟨hli, hR, hloi, hhii⟩ := bstB_node h
  obtain ⟨hrl, hrr, hvij, hhij⟩ := bstB_node hR
  have hij : vi < vj := hvij vi rfl
  refine bstB_intro (bstB_intro hli hrl hloi (fun b hb => by
    injection hb with hb
    omega)) hrr (fun a ha => ?_) hhij
  have := hloi a ha
  omega

/-- A right rotation preserves BST order within any bounds. -/
theorem bstB_rotR {lo hi : Option Int} {i : Nat} {ci : Bool} {vi : Int}
    {ri : FT} {j : Nat} {cj : Bool} {vj : Int} {jl jr : FT}
    (h : FT.bstB lo hi (.node i ci vi (.node j cj vj jl jr) ri) = true) :
    FT.bstB lo hi (.node j cj vj jl (.node i ci vi jr ri)) = true := by
  obtain ⟨hL, hri, hloi, hhii⟩ := bstB_node h
  obtain ⟨hjl, hjr, hloj, hvji⟩ := bstB_node hL
  have hji : vj < vi := hvji vi rfl
  refine bstB_intro hjl (bstB_intro hjr hri (fun a ha => by
    injection ha with ha
    omega) hhii) hloj (fun b hb => ?_)
  have := hhii b hb
  omega

/-- Key lists transported through a context: permutation congruence. -/
theorem plug_keys_congr {σ σ2 : FT} (ctx : Ctx)
    (h : σ2.keys.Perm σ.keys) :
    (plug σ2 ctx).keys.Perm (plug σ ctx).keys :=
  (plug_keys_perm σ2 ctx).trans
    ((h.append_right _).trans (plug_keys_perm σ ctx).symm)

/-- Slot lists transported through a context: permutation congruence. -/
theorem plug_idxs_congr {σ σ2 : FT} (ctx : Ctx)
    (h : σ2.idxs.Perm σ.idxs) :
    (plug σ2 ctx).idxs.Perm (plug σ ctx).idxs :=
  (plug_idxs_perm σ2 ctx).trans
    ((h.append_right _).trans (plug_idxs_perm σ ctx).symm)

theorem topBlack_nil : topBlack [] := by
  intro f hf
  simp [List.getLast?] at hf

theorem topBlack_tail {f : Frame} {ctx : Ctx} (h : topBlack (f :: ctx)) :
    topBlack ctx := by
  intro f2 hf2
  cases ctx with
  | nil => simp [List.getLast?] at hf2
  | cons f3 ctx3 =>
    exact h f2 ((List.getLast?_cons_cons).trans hf2)

theorem topBlack_cons {f : Frame} {ctx : Ctx} (hf : Frame.color f = black)
    (h : topBlack ctx) : topBlack (f :: ctx) := by
  intro f2 hf2
  cases ctx with
  | nil =>
    rw [List.getLast?_singleton, Option.some.injEq] at hf2
    rw [← hf2]
    exact hf
  | cons f3 ctx3 =>
    exact h f2 ((List.getLast?_cons_cons).symm.trans hf2)

/-- The descent loop of `Insert` on a zipper: starting from a focused
non-empty subtree, with the inserted value inside the hole's BST bounds and
a fresh red orphan at slot `x`, a successful run attaches the orphan as a
leaf, producing a zipper focused at `x` whose plugged tree gains exactly the
key `v` and the slot `x`. -/
theorem insertDescend_zip :
    ∀ (fuel : Nat) (t : RBTree) (v : Int) (x g : Nat) (ctx : Ctx) (σ : FT)
      (t' : RBTree),
    g ≠ 0 →
    CtxAt t (some g) ctx →
    ReprOf t (some g) σ →
    parentsOk t (ctxParent ctx) σ = true →
    (plug σ ctx).idxs.Nodup →
    FT.bstB none none (plug σ ctx) = true →
    (∀ a, ctxLo none ctx = some a → a < v) →
    (∀ b, ctxHi none ctx = some b → v < b) →
    t.nodes[x]? = some
      { color := red, parent := none, left := nilP,
        right := nilP, value := v } →
    x ≠ 0 →
    x ∉ (plug σ ctx).idxs →
    (∃ s0, t.nodes[0]? = some s0 ∧ s0.left = none ∧ s0.right = none) →
    insertDescend t v x fuel (some g) = .ok t' →
    ∃ ctx2, ZipInv t' x ctx2 (.node x red v .leaf .leaf) ∧
      (plug (.node x red v .leaf .leaf) ctx2).idxs.Perm
        (x :: (plug σ ctx).idxs) ∧
      (plug (.node x red v .leaf .leaf) ctx2).keys.Perm
        (v :: (plug σ ctx).keys) ∧
      t'.nodes.size = t.nodes.size ∧ t'.root = t.root ∧
      (ctx2.getLast? = ctx.getLast? ∨
        (ctx = [] ∧ ∀ f, ctx2.getLast? = some f →
          Frame.color f = σ.colorOf)) := by
  intro fuel
  induction fuel with
  | zero =>
    intro t v x g ctx σ t' _ _ _ _ _ _ _ _ _ _ _ _ hrun
    simp [insertDescend] at hrun
  | succ fuel ih =>
    intro t v x g ctx σ t' hg0 hctx hrep hpok hnd hbst hloV hhiV hx hx0
      hxmem hsent hrun
    cases σ with
    | leaf =>
      have hleaf := reprOf_leaf hrep
      simp only [nilP, Option.some.injEq] at hleaf
      exact absurd hleaf hg0
    | node gi gc gv gl gr =>
      obtain ⟨hpg, _, cur, hcur, hcc, hcv, hcl, hcr⟩ := reprOf_node_ptr hrep
      injection hpg with hgg
      subst hgg
      have hne : ¬((some g : Ptr) = nilP) := by
        simp only [nilP, Option.some.injEq]
        exact hg0
      simp only [insertDescend, if_neg hne, RBTree.getE, hcur, mbind_def,
        ebind_ok] at hrun
      obtain ⟨hndσ, hndctx, hdisj⟩ := nodup_plug_split hnd
      have hgmem : g ∈ (FT.node g gc gv gl gr).idxs := by simp [FT.idxs]
      have hmemplug : ∀ s, s ∈ (FT.node g gc gv gl gr).idxs →
          s ∈ (plug (FT.node g gc gv gl gr) ctx).idxs := fun s hs =>
        (plug_idxs_perm _ ctx).mem_iff.mpr (List.mem_append.mpr (Or.inl hs))
      have hmemctx : ∀ s, s ∈ ctxIdxs ctx →
          s ∈ (plug (FT.node g gc gv gl gr) ctx).idxs := fun s hs =>
        (plug_idxs_perm _ ctx).mem_iff.mpr (List.mem_append.mpr (Or.inr hs))
      have hxg : x ≠ g := fun he => hxmem (he ▸ hmemplug g hgmem)
      obtain ⟨⟨cur2, hcur2, hcurp⟩, hpokl, hpokr⟩ := parentsOk_node hpok
      rw [hcur] at hcur2
      injection hcur2 with he2
      subst he2
      obtain ⟨hndgl, hndgr, hg_gl, hg_gr, hdisj_lr⟩ := idxs_node_nodup hndσ
      rcases lt_trichotomy v gv with hlt | heqv | hgt
      · rw [if_pos (show cmp v cur.value < 0 by
          rw [hcv]; exact cmp_neg.mpr hlt)] at hrun
        cases gl with
        | leaf =>
          have hclP : cur.left = nilP := reprOf_leaf hcl
          rw [if_pos hclP] at hrun
          have hsP : t.setParent (some x) (some g) = .ok (upd t x
              { color := red, parent := some g, left := nilP, right := nilP,
                value := v }) := by
            unfold RBTree.setParent
            exact setF_okU hx
          rw [hsP] at hrun
          simp only [ebind_ok] at hrun
          set t1 := upd t x
            { color := red, parent := some g, left := nilP,
              right := nilP, value := v } with ht1def
          have hcur1 : t1.nodes[g]? = some cur := by
            rw [ht1def, upd_get_ne (Ne.symm hxg)]
            exact hcur
          have hsL : t1.setLeft (some g) (some x) =
              .ok (upd t1 g { cur with left := some x }) := by
            unfold RBTree.setLeft
            exact setF_okU hcur1
          rw [hsL, Except.ok.injEq] at hrun
          set t2 := upd t1 g { cur with left := some x } with ht2def
          subst hrun
          have hglt : g < t1.nodes.size := by
            rw [ht1def, upd_size]
            exact getElem?_some_lt hcur
          have ht2g : t2.nodes[g]? = some { cur with left := some x } := by
            rw [ht2def]
            exact upd_get_self hglt
          have ht2x : t2.nodes[x]? = some
              { color := red, parent := some g,
                left := nilP, right := nilP, value := v } := by
            rw [ht2def, upd_get_ne hxg, ht1def]
            exact upd_get_self (getElem?_some_lt hx)
          have ht2other : ∀ s, s ≠ x → s ≠ g →
              t2.nodes[s]? = t.nodes[s]? := by
            intro s hsx hsg
            rw [ht2def, upd_get_ne hsg, ht1def, upd_get_ne hsx]
          have hGRmem : ∀ s ∈ gr.idxs,
              s ∈ (FT.node g gc gv FT.leaf gr).idxs := by
            intro s hs
            simp only [FT.idxs, List.nil_append, List.mem_cons]
            exact Or.inr hs
          have hagreeGR : ∀ s ∈ gr.idxs, t2.nodes[s]? = t.nodes[s]? := by
            intro s hs
            refine ht2other s ?_ ?_
            · intro he
              exact hxmem (he ▸ hmemplug s (hGRmem s hs))
            · intro he
              exact hg_gr (he ▸ hs)
          have hagreeC : ∀ s ∈ ctxIdxs ctx, t2.nodes[s]? = t.nodes[s]? := by
            intro s hs
            refine ht2other s ?_ ?_
            · intro he
              exact hxmem (he ▸ hmemctx s hs)
            · intro he
              exact hdisj g hgmem (he ▸ hs)
          have hrx : ReprOf t2 (some x) (.node x red v .leaf .leaf) := by
            have h1 := ReprOf.node x
              { color := red, parent := some g,
                left := nilP, right := nilP, value := v }
              FT.leaf FT.leaf hx0 ht2x ReprOf.leaf ReprOf.leaf
            exact h1
          have hpx : parentsOk t2 (some g)
              (.node x red v .leaf .leaf) = true := by
            simp [parentsOk, ht2x]
          have hrGR : ReprOf t2 cur.right gr := reprOf_agree hcr hagreeGR
          have hpGR : parentsOk t2 (some g) gr = true :=
            parentsOk_agree hpokr hagreeGR
          have hctx2 : CtxAt t2 (some g) ctx := ctxAt_agree hctx rfl hagreeC
          have hctxX : CtxAt t2 (some x) (.lf g gc gv gr :: ctx) := by
            have h1 := CtxAt.left hctx2 hg0 ht2g
              (show ({ cur with left := some x } : GNode).parent =
                ctxParent ctx from hcurp)
              (show ({ cur with left := some x } : GNode).left =
                some x from rfl)
              (show ReprOf t2 ({ cur with left := some x } : GNode).right gr
                from hrGR)
              hpGR
            rw [show ({ cur with left := some x } : GNode).color = gc from hcc,
              show ({ cur with left := some x } : GNode).value = gv
                from hcv] at h1
            exact h1
          have hIdxEq : (FT.node g gc gv (FT.node x red v .leaf .leaf)
              gr).idxs = x :: (FT.node g gc gv .leaf gr).idxs := by
            simp [FT.idxs]
          have hKeyEq : (FT.node g gc gv (FT.node x red v .leaf .leaf)
              gr).keys = v :: (FT.node g gc gv .leaf gr).keys := by
            simp [FT.keys]
          have hpermI : (plug (FT.node x red v .leaf .leaf)
              (Frame.lf g gc gv gr :: ctx)).idxs.Perm
              (x :: (plug (FT.node g gc gv .leaf gr) ctx).idxs) := by
            simp only [plug]
            refine (plug_idxs_perm _ ctx).trans ?_
            rw [hIdxEq, List.cons_append]
            exact List.Perm.cons x (plug_idxs_perm _ ctx).symm
          have hpermK : (plug (FT.node x red v .leaf .leaf)
              (Frame.lf g gc gv gr :: ctx)).keys.Perm
              (v :: (plug (FT.node g gc gv .leaf gr) ctx).keys) := by
            simp only [plug]
            refine (plug_keys_perm _ ctx).trans ?_
            rw [hKeyEq, List.cons_append]
            exact List.Perm.cons v (plug_keys_perm _ ctx).symm
          have hnd2 : (plug (FT.node x red v .leaf .leaf)
              (Frame.lf g gc gv gr :: ctx)).idxs.Nodup := by
            refine hpermI.nodup_iff.mpr ?_
            rw [List.nodup_cons]
            exact ⟨hxmem, hnd⟩
          have hbst2 : FT.bstB none none (plug (FT.node x red v .leaf .leaf)
              (Frame.lf g gc gv gr :: ctx)) = true := by
            simp only [plug]
            have hhole := bst_plug_hole hbst
            obtain ⟨hbgl, hbgr, hloG, hhiG⟩ := bstB_node hhole
            refine bst_plug_replace hbst ?_
            refine bstB_intro ?_ hbgr hloG hhiG
            refine bstB_intro rfl rfl hloV ?_
            intro b hb
            injection hb with hb
            omega
          obtain ⟨s0, hs0, hs0l, hs0r⟩ := hsent
          have hs0' : t2.nodes[0]? = some s0 :=
            (ht2other 0 (fun he => hx0 he.symm) (fun he => hg0 he.symm)).trans
              hs0
          have hsz : t2.nodes.size = t.nodes.size := by
            rw [ht2def, upd_size, ht1def, upd_size]
          have hlast : (Frame.lf g gc gv gr :: ctx).getLast? =
              ctx.getLast? ∨
              (ctx = [] ∧ ∀ f,
                (Frame.lf g gc gv gr :: ctx).getLast? = some f →
                Frame.color f = (FT.node g gc gv FT.leaf gr).colorOf) := by
            cases ctx with
            | nil =>
              refine Or.inr ⟨rfl, ?_⟩
              intro f hf
              rw [List.getLast?_singleton, Option.some.injEq] at hf
              rw [← hf]
              rfl
            | cons f2 ctx3 =>
              exact Or.inl List.getLast?_cons_cons
          exact ⟨Frame.lf g gc gv gr :: ctx,
            ⟨hctxX, hrx, hpx, hnd2, hbst2, s0, hs0', hs0l, hs0r⟩,
            hpermI, hpermK, hsz, rfl, hlast⟩
        | node li lc lv ll lr =>
          obtain ⟨hpl, hli0, _⟩ := reprOf_node_ptr hcl
          rw [if_neg (show ¬(cur.left = nilP) by
            rw [hpl]
            simp only [nilP, Option.some.injEq]
            exact hli0), hpl] at hrun
          obtain ⟨hctxD, hrepD, hpokD⟩ := zip_down_lf hctx hrep hpok
          have hhiV2 : ∀ b, ctxHi none (Frame.lf g gc gv gr :: ctx) = some b →
              v < b := by
            intro b hb
            simp only [ctxHi] at hb
            injection hb with hb
            omega
          obtain ⟨ctx2, hzip, hpi, hpk, hszr, hrtr, hlastr⟩ :=
            ih t v x li (Frame.lf g gc gv gr :: ctx)
              (FT.node li lc lv ll lr) t' hli0 hctxD hrepD hpokD hnd hbst
              hloV hhiV2 hx hx0 hxmem hsent hrun
          refine ⟨ctx2, hzip, hpi, hpk, hszr, hrtr, ?_⟩
          rcases hlastr with hlastr | hlastr
          · cases ctx with
            | nil =>
              refine Or.inr ⟨rfl, ?_⟩
              intro f hf
              rw [hlastr, List.getLast?_singleton, Option.some.injEq] at hf
              rw [← hf]
              rfl
            | cons f2 ctx3 =>
              exact Or.inl (hlastr.trans List.getLast?_cons_cons)
          · exact absurd hlastr.1 (List.cons_ne_nil _ _)
      · have hc0 : cmp v cur.value = 0 := by
          rw [hcv]
          exact cmp_zero.mpr heqv
        rw [if_neg (show ¬(cmp v cur.value < 0) by rw [hc0]; omega),
          if_neg (show ¬(cmp v cur.value > 0) by
            show ¬((0 : Int) < cmp v cur.value)
            rw [hc0]
            omega)] at hrun
        simp at hrun
      · rw [if_neg (show ¬(cmp v cur.value < 0) by
          rw [hcv, cmp_neg]; omega),
          if_pos (show cmp v cur.value > 0 by
            show (0 : Int) < cmp v cur.value
            rw [hcv]
            exact cmp_pos.mpr hgt)] at hrun
        cases gr with
        | leaf =>
          have hcrP : cur.right = nilP := reprOf_leaf hcr
          rw [if_pos hcrP] at hrun
          have hsP : t.setParent (some x) (some g) = .ok (upd t x
              { color := red, parent := some g, left := nilP, right := nilP,
                value := v }) := by
            unfold RBTree.setParent
            exact setF_okU hx
          rw [hsP] at hrun
          simp only [ebind_ok] at hrun
          set t1 := upd t x
            { color := red, parent := some g, left := nilP,
              right := nilP, value := v } with ht1def
          have hcur1 : t1.nodes[g]? = some cur := by
            rw [ht1def, upd_get_ne (Ne.symm hxg)]
            exact hcur
          have hsR : t1.setRight (some g) (some x) =
              .ok (upd t1 g { cur with right := some x }) := by
            unfold RBTree.setRight
            exact setF_okU hcur1
          rw [hsR, Except.ok.injEq] at hrun
          set t2 := upd t1 g { cur with right := some x } with ht2def
          subst hrun
          have hglt : g < t1.nodes.size := by
            rw [ht1def, upd_size]
            exact getElem?_some_lt hcur
          have ht2g : t2.nodes[g]? = some { cur with right := some x } := by
            rw [ht2def]
            exact upd_get_self hglt
          have ht2x : t2.nodes[x]? = some
              { color := red, parent := some g,
                left := nilP, right := nilP, value := v } := by
            rw [ht2def, upd_get_ne hxg, ht1def]
            exact upd_get_self (getElem?_some_lt hx)
          have ht2other : ∀ s, s ≠ x → s ≠ g →
              t2.nodes[s]? = t.nodes[s]? := by
            intro s hsx hsg
            rw [ht2def, upd_get_ne hsg, ht1def, upd_get_ne hsx]
          have hGLmem : ∀ s ∈ gl.idxs,
              s ∈ (FT.node g gc gv gl FT.leaf).idxs := by
            intro s hs
            simp only [FT.idxs, List.mem_append, List.mem_cons]
            exact Or.inl hs
          have hagreeGL : ∀ s ∈ gl.idxs, t2.nodes[s]? = t.nodes[s]? := by
            intro s hs
            refine ht2other s ?_ ?_
            · intro he
              exact hxmem (he ▸ hmemplug s (hGLmem s hs))
            · intro he
              exact hg_gl (he ▸ hs)
          have hagreeC : ∀ s ∈ ctxIdxs ctx, t2.nodes[s]? = t.nodes[s]? := by
            intro s hs
            refine ht2other s ?_ ?_
            · intro he
              exact hxmem (he ▸ hmemctx s hs)
            · intro he
              exact hdisj g hgmem (he ▸ hs)
          have hrx : ReprOf t2 (some x) (.node x red v .leaf .leaf) := by
            have h1 := ReprOf.node x
              { color := red, parent := some g,
                left := nilP, right := nilP, value := v }
              FT.leaf FT.leaf hx0 ht2x ReprOf.leaf ReprOf.leaf
            exact h1
          have hpx : parentsOk t2 (some g)
              (.node x red v .leaf .leaf) = true := by
            simp [parentsOk, ht2x]
          have hrGL : ReprOf t2 cur.left gl := reprOf_agree hcl hagreeGL
          have hpGL : parentsOk t2 (some g) gl = true :=
            parentsOk_agree hpokl hagreeGL
          have hctx2 : CtxAt t2 (some g) ctx := ctxAt_agree hctx rfl hagreeC
          have hctxX : CtxAt t2 (some x) (.rf g gc gv gl :: ctx) := by
            have h1 := CtxAt.right hctx2 hg0 ht2g
              (show ({ cur with right := some x } : GNode).parent =
                ctxParent ctx from hcurp)
              (show ({ cur with right := some x } : GNode).right =
                some x from rfl)
              (show ReprOf t2 ({ cur with right := some x } : GNode).left gl
                from hrGL)
              hpGL
            rw [show ({ cur with right := some x } : GNode).color = gc
                from hcc,
              show ({ cur with right := some x } : GNode).value = gv
                from hcv] at h1
            exact h1
          have hIdxEq : (FT.node g gc gv gl
              (FT.node x red v .leaf .leaf)).idxs =
              (FT.node g gc gv gl .leaf).idxs ++ [x] := by
            simp [FT.idxs]
          have hKeyEq : (FT.node g gc gv gl
              (FT.node x red v .leaf .leaf)).keys =
              (FT.node g gc gv gl .leaf).keys ++ [v] := by
            simp [FT.keys]
          have hpermI : (plug (FT.node x red v .leaf .leaf)
              (Frame.rf g gc gv gl :: ctx)).idxs.Perm
              (x :: (plug (FT.node g gc gv gl .leaf) ctx).idxs) := by
            simp only [plug]
            refine (plug_idxs_perm _ ctx).trans ?_
            refine List.Perm.trans ?_
              (List.Perm.cons x (plug_idxs_perm _ ctx).symm)
            rw [hIdxEq, List.append_assoc]
            exact List.perm_middle
          have hpermK : (plug (FT.node x red v .leaf .leaf)
              (Frame.rf g gc gv gl :: ctx)).keys.Perm
              (v :: (plug (FT.node g gc gv gl .leaf) ctx).keys) := by
            simp only [plug]
            refine (plug_keys_perm _ ctx).trans ?_
            refine List.Perm.trans ?_
              (List.Perm.cons v (plug_keys_perm _ ctx).symm)
            rw [hKeyEq, List.append_assoc]
            exact List.perm_middle
          have hnd2 : (plug (FT.node x red v .leaf .leaf)
              (Frame.rf g gc gv gl :: ctx)).idxs.Nodup := by
            refine hpermI.nodup_iff.mpr ?_
            rw [List.nodup_cons]
            exact ⟨hxmem, hnd⟩
          have hbst2 : FT.bstB none none (plug (FT.node x red v .leaf .leaf)
              (Frame.rf g gc gv gl :: ctx)) = true := by
            simp only [plug]
            have hhole := bst_plug_hole hbst
            obtain ⟨hbgl, hbgr, hloG, hhiG⟩ := bstB_node hhole
            refine bst_plug_replace hbst ?_
            refine bstB_intro hbgl ?_ hloG hhiG
            refine bstB_intro rfl rfl ?_ hhiV
            intro a ha
            injection ha with ha
            omega
          obtain ⟨s0, hs0, hs0l, hs0r⟩ := hsent
          have hs0' : t2.nodes[0]? = some s0 :=
            (ht2other 0 (fun he => hx0 he.symm) (fun he => hg0 he.symm)).trans
              hs0
          have hsz : t2.nodes.size = t.nodes.size := by
            rw [ht2def, upd_size, ht1def, upd_size]
          have hlast : (Frame.rf g gc gv gl :: ctx).getLast? =
              ctx.getLast? ∨
              (ctx = [] ∧ ∀ f,
                (Frame.rf g gc gv gl :: ctx).getLast? = some f →
                Frame.color f = (FT.node g gc gv gl FT.leaf).colorOf) := by
            cases ctx with
            | nil =>
              refine Or.inr ⟨rfl, ?_⟩
              intro f hf
              rw [List.getLast?_singleton, Option.some.injEq] at hf
              rw [← hf]
              rfl
            | cons f2 ctx3 =>
              exact Or.inl List.getLast?_cons_cons
          exact ⟨Frame.rf g gc gv gl :: ctx,
            ⟨hctxX, hrx, hpx, hnd2, hbst2, s0, hs0', hs0l, hs0r⟩,
            hpermI, hpermK, hsz, rfl, hlast⟩
        | node li lc lv ll lr =>
          obtain ⟨hpr, hli0, _⟩ := reprOf_node_ptr hcr
          rw [if_neg (show ¬(cur.right = nilP) by
            rw [hpr]
            simp only [nilP, Option.some.injEq]
            exact hli0), hpr] at hrun
          obtain ⟨hctxD, hrepD, hpokD⟩ := zip_down_rf hctx hrep hpok
          have hloV2 : ∀ a, ctxLo none (Frame.rf g gc gv gl :: ctx) = some a →
              a < v := by
            intro a ha
            simp only [ctxLo] at ha
            injection ha with ha
            omega
          obtain ⟨ctx2, hzip, hpi, hpk, hszr, hrtr, hlastr⟩ :=
            ih t v x li (Frame.rf g gc gv gl :: ctx)
              (FT.node li lc lv ll lr) t' hli0 hctxD hrepD hpokD hnd hbst
              hloV2 hhiV hx hx0 hxmem hsent hrun
          refine ⟨ctx2, hzip, hpi, hpk, hszr, hrtr, ?_⟩
          rcases hlastr with hlastr | hlastr
          · cases ctx with
            | nil =>
              refine Or.inr ⟨rfl, ?_⟩
              intro f hf
              rw [hlastr, List.getLast?_singleton, Option.some.injEq] at hf
              rw [← hf]
              rfl
            | cons f2 ctx3 =>
              exact Or.inl (hlastr.trans List.getLast?_cons_cons)
          · exact absurd hlastr.1 (List.cons_ne_nil _ _)

theorem FT.paint_idxs (c : Bool) (σ : FT) : (FT.paint c σ).idxs = σ.idxs := by
  cases σ <;> rfl

theorem FT.paint_keys (c : Bool) (σ : FT) : (FT.paint c σ).keys = σ.keys := by
  cases σ <;> rfl

theorem FT.paint_bstB (lo hi : Option Int) (c : Bool) (σ : FT) :
    FT.bstB lo hi (FT.paint c σ) = FT.bstB lo hi σ := by
  cases σ <;> rfl

/-- BST order never depends on the root color. -/
theorem bstB_recolor_root {lo hi : Option Int} {i : Nat} {c c2 : Bool}
    {v : Int} {l r : FT} (h : FT.bstB lo hi (.node i c v l r) = true) :
    FT.bstB lo hi (.node i c2 v l r) = true := by
  obtain ⟨hl, hr, hlo, hhi⟩ := bstB_node h
  exact bstB_intro hl hr hlo hhi

/-- In-order key lists transported through a context: equality congruence. -/
theorem plug_keys_congrE : ∀ (ctx : Ctx) {σ1 σ2 : FT}, σ1.keys = σ2.keys →
    (plug σ1 ctx).keys = (plug σ2 ctx).keys := by
  intro ctx
  induction ctx with
  | nil => intro σ1 σ2 h; exact h
  | cons f ctx ih =>
    intro σ1 σ2 h
    cases f with
    | lf i c v r =>
      simp only [plug]
      refine ih ?_
      simp only [FT.keys, h]
    | rf i c v l =>
      simp only [plug]
      refine ih ?_
      simp only [FT.keys, h]

/-- In-order slot lists transported through a context: equality congruence. -/
theorem plug_idxs_congrE : ∀ (ctx : Ctx) {σ1 σ2 : FT}, σ1.idxs = σ2.idxs →
    (plug σ1 ctx).idxs = (plug σ2 ctx).idxs := by
  intro ctx
  induction ctx with
  | nil => intro σ1 σ2 h; exact h
  | cons f ctx ih =>
    intro σ1 σ2 h
    cases f with
    | lf i c v r =>
      simp only [plug]
      refine ih ?_
      simp only [FT.idxs, h]
    | rf i c v l =>
      simp only [plug]
      refine ih ?_
      simp only [FT.idxs, h]

/-- A zipper invariant plugs back into full structural well-formedness. -/
theorem zipInv_wfs {t : RBTree} {g : Nat} {ctx : Ctx} {σ : FT}
    (h : ZipInv t g ctx σ) : WfS t (plug σ ctx) := by
  obtain ⟨hctx, hrep, hpok, hnd, hbst, hsent⟩ := h
  obtain ⟨hr, hp⟩ := ctxAt_plug hctx hrep hpok
  exact ⟨hr, hp, hnd, hbst, hsent⟩

/-- The three recolorings of the red-uncle insert-fixup case, left arm
(parent is the left child of the grandparent): parent black, uncle black,
grandparent red, ending focused at the grandparent. -/
theorem insert_recolor_left_zip {t : RBTree} {y : Nat} {cy : Bool} {vy : Int}
    {A B : FT} {q : Nat} {c2 : Bool} {v2 : Int} {u : FT} {ctx2 : Ctx}
    {s0 : GNode}
    (hctx : CtxAt t (some y) (.lf q c2 v2 u :: ctx2))
    (hrep : ReprOf t (some y) (.node y cy vy A B))
    (hpok : parentsOk t (some q) (.node y cy vy A B) = true)
    (hnd : (plug (.node y cy vy A B) (.lf q c2 v2 u :: ctx2)).idxs.Nodup)
    (hs0 : t.nodes[0]? = some s0) (hs0l : s0.left = none)
    (hs0r : s0.right = none) :
    ∃ ta tb tc,
      t.setColor (some y) black = .ok ta ∧
      ta.setColor u.rootPtr black = .ok tb ∧
      tb.setColor (some q) red = .ok tc ∧
      CtxAt tc (some q) ctx2 ∧
      ReprOf tc (some q)
        (.node q red v2 (.node y black vy A B) (FT.paint black u)) ∧
      parentsOk tc (ctxParent ctx2)
        (.node q red v2 (.node y black vy A B) (FT.paint black u)) = true ∧
      tc.nodes.size = t.nodes.size ∧
      (∃ s1, tc.nodes[0]? = some s1 ∧ s1.left = none ∧ s1.right = none) := by
  have hndC : (plug (.node q c2 v2 (.node y black vy A B) u)
      ctx2).idxs.Nodup := by
    rw [plug_idxs_congrE ctx2
      (show (FT.node q c2 v2 (FT.node y black vy A B) u).idxs
        = (FT.node q c2 v2 (FT.node y cy vy A B) u).idxs by simp [FT.idxs])]
    exact hnd
  obtain ⟨ta, hA, hctxA, hrepA, hpokA, hszA, hs0A, _⟩ :=
    setColor_root_zip black hctx hrep hpok hnd
  obtain ⟨hctxQ, hrepQ, hpokQ⟩ := zip_up_lf hctxA hrepA hpokA
  obtain ⟨hctxU, hrepU, hpokU⟩ := zip_down_rf hctxQ hrepQ hpokQ
  cases u with
  | leaf =>
    obtain ⟨tb, hB, hctxB, hrepB, hpokB, hszB, hs0B, _⟩ :=
      setColor_sentinel_zip black hctxU hrepU hpokU
        (show ta.nodes[0]? = some s0 from hs0A.trans hs0)
    obtain ⟨hctxQ2, hrepQ2, hpokQ2⟩ := zip_up_rf hctxB hrepB hpokB
    obtain ⟨tc, hC, hctxC, hrepC, hpokC, hszC, hs0C, _⟩ :=
      setColor_root_zip red hctxQ2 hrepQ2 hpokQ2 hndC
    refine ⟨ta, tb, tc, hA, hB, hC, hctxC, hrepC, hpokC, ?_, ?_⟩
    · rw [hszC, hszB, hszA]
    · refine ⟨{ s0 with color := black }, ?_, hs0l, hs0r⟩
      rw [hs0C]
      exact hs0B
  | node ui uc uv ul ur =>
    obtain ⟨tb, hB, hctxB, hrepB, hpokB, hszB, hs0B, _⟩ :=
      setColor_root_zip black hctxU hrepU hpokU hndC
    obtain ⟨hctxQ2, hrepQ2, hpokQ2⟩ := zip_up_rf hctxB hrepB hpokB
    have hndC2 : (plug (.node q c2 v2 (.node y black vy A B)
        (.node ui black uv ul ur)) ctx2).idxs.Nodup := by
      rw [plug_idxs_congrE ctx2
        (show (FT.node q c2 v2 (FT.node y black vy A B)
            (FT.node ui black uv ul ur)).idxs
          = (FT.node q c2 v2 (FT.node y black vy A B)
            (FT.node ui uc uv ul ur)).idxs by simp [FT.idxs])]
      exact hndC
    obtain ⟨tc, hC, hctxC, hrepC, hpokC, hszC, hs0C, _⟩ :=
      setColor_root_zip red hctxQ2 hrepQ2 hpokQ2 hndC2
    refine ⟨ta, tb, tc, hA, hB, hC, hctxC, hrepC, hpokC, ?_, ?_⟩
    · rw [hszC, hszB, hszA]
    · refine ⟨s0, ?_, hs0l, hs0r⟩
      rw [hs0C, hs0B, hs0A]
      exact hs0

/-- The three recolorings of the red-uncle insert-fixup case, right arm. -/
theorem insert_recolor_right_zip {t : RBTree} {y : Nat} {cy : Bool} {vy : Int}
    {A B : FT} {q : Nat} {c2 : Bool} {v2 : Int} {u : FT} {ctx2 : Ctx}
    {s0 : GNode}
    (hctx : CtxAt t (some y) (.rf q c2 v2 u :: ctx2))
    (hrep : ReprOf t (some y) (.node y cy vy A B))
    (hpok : parentsOk t (some q) (.node y cy vy A B) = true)
    (hnd : (plug (.node y cy vy A B) (.rf q c2 v2 u :: ctx2)).idxs.Nodup)
    (hs0 : t.nodes[0]? = some s0) (hs0l : s0.left = none)
    (hs0r : s0.right = none) :
    ∃ ta tb tc,
      t.setColor (some y) black = .ok ta ∧
      ta.setColor u.rootPtr black = .ok tb ∧
      tb.setColor (some q) red = .ok tc ∧
      CtxAt tc (some q) ctx2 ∧
      ReprOf tc (some q)
        (.node q red v2 (FT.paint black u) (.node y black vy A B)) ∧
      parentsOk tc (ctxParent ctx2)
        (.node q red v2 (FT.paint black u) (.node y black vy A B)) = true ∧
      tc.nodes.size = t.nodes.size ∧
      (∃ s1, tc.nodes[0]? = some s1 ∧ s1.left = none ∧ s1.right = none) := by
  have hndC : (plug (.node q c2 v2 u (.node y black vy A B))
      ctx2).idxs.Nodup := by
    rw [plug_idxs_congrE ctx2
      (show (FT.node q c2 v2 u (FT.node y black vy A B)).idxs
        = (FT.node q c2 v2 u (FT.node y cy vy A B)).idxs by simp [FT.idxs])]
    exact hnd
  obtain ⟨ta, hA, hctxA, hrepA, hpokA, hszA, hs0A, _⟩ :=
    setColor_root_zip black hctx hrep hpok hnd
  obtain ⟨hctxQ, hrepQ, hpokQ⟩ := zip_up_rf hctxA hrepA hpokA
  obtain ⟨hctxU, hrepU, hpokU⟩ := zip_down_lf hctxQ hrepQ hpokQ
  cases u with
  | leaf =>
    obtain ⟨tb, hB, hctxB, hrepB, hpokB, hszB, hs0B, _⟩ :=
      setColor_sentinel_zip black hctxU hrepU hpokU
        (show ta.nodes[0]? = some s0 from hs0A.trans hs0)
    obtain ⟨hctxQ2, hrepQ2, hpokQ2⟩ := zip_up_lf hctxB hrepB hpokB
    obtain ⟨tc, hC, hctxC, hrepC, hpokC, hszC, hs0C, _⟩ :=
      setColor_root_zip red hctxQ2 hrepQ2 hpokQ2 hndC
    refine ⟨ta, tb, tc, hA, hB, hC, hctxC, hrepC, hpokC, ?_, ?_⟩
    · rw [hszC, hszB, hszA]
    · refine ⟨{ s0 with color := black }, ?_, hs0l, hs0r⟩
      rw [hs0C]
      exact hs0B
  | node ui uc uv ul ur =>
    obtain ⟨tb, hB, hctxB, hrepB, hpokB, hszB, hs0B, _⟩ :=
      setColor_root_zip black hctxU hrepU hpokU hndC
    obtain ⟨hctxQ2, hrepQ2, hpokQ2⟩ := zip_up_lf hctxB hrepB hpokB
    have hndC2 : (plug (.node q c2 v2 (.node ui black uv ul ur)
        (.node y black vy A B)) ctx2).idxs.Nodup := by
      rw [plug_idxs_congrE ctx2
        (show (FT.node q c2 v2 (FT.node ui black uv ul ur)
            (FT.node y black vy A B)).idxs
          = (FT.node q c2 v2 (FT.node ui uc uv ul ur)
            (FT.node y black vy A B)).idxs by simp [FT.idxs])]
      exact hndC
    obtain ⟨tc, hC, hctxC, hrepC, hpokC, hszC, hs0C, _⟩ :=
      setColor_root_zip red hctxQ2 hrepQ2 hpokQ2 hndC2
    refine ⟨ta, tb, tc, hA, hB, hC, hctxC, hrepC, hpokC, ?_, ?_⟩
    · rw [hszC, hszB, hszA]
    · refine ⟨s0, ?_, hs0l, hs0r⟩
      rw [hs0C, hs0B, hs0A]
      exact hs0

/-- The straight-line (left-left) insert-fixup case: recolor the parent
black and the grandparent red, then rotate right at the grandparent.  All
heap reads the Go code performs along the way are exported, together with
the rebuilt zipper. -/
theorem insert_rotate_left_zip {t : RBTree} {y : Nat} {cy : Bool} {vy : Int}
    {a : Nat} {ca : Bool} {va : Int} {al ar : FT} {B : FT}
    {q : Nat} {c2 : Bool} {v2 : Int} {u : FT} {ctx2 : Ctx}
    (hctx : CtxAt t (some y) (.lf q c2 v2 u :: ctx2))
    (hrep : ReprOf t (some y) (.node y cy vy (.node a ca va al ar) B))
    (hpok : parentsOk t (some q)
      (.node y cy vy (.node a ca va al ar) B) = true)
    (hnd : (plug (.node y cy vy (.node a ca va al ar) B)
      (.lf q c2 v2 u :: ctx2)).idxs.Nodup) :
    ∃ na ta na2 ny2 tb na3 ny3 tc,
      t.nodes[a]? = some na ∧ na.parent = some y ∧
      t.setColor (some y) black = .ok ta ∧
      ta.nodes[a]? = some na2 ∧ na2.parent = some y ∧
      ta.nodes[y]? = some ny2 ∧ ny2.parent = some q ∧
      ta.setColor (some q) red = .ok tb ∧
      tb.nodes[a]? = some na3 ∧ na3.parent = some y ∧
      tb.nodes[y]? = some ny3 ∧ ny3.parent = some q ∧
      rotateRight tb (some q) = .ok tc ∧
      CtxAt tc (some y) ctx2 ∧
      ReprOf tc (some y) (.node y black vy (.node a ca va al ar)
        (.node q red v2 B u)) ∧
      parentsOk tc (ctxParent ctx2) (.node y black vy (.node a ca va al ar)
        (.node q red v2 B u)) = true ∧
      tc.nodes.size = t.nodes.size ∧ tc.nodes[0]? = t.nodes[0]? := by
  obtain ⟨_, hy0, ny, hny, hnyc, hnyv, hnyA, hnyB⟩ := reprOf_node_ptr hrep
  obtain ⟨hnyl, ha0, na, hna, hnac, hnav, hnal, hnar⟩ := reprOf_node_ptr hnyA
  obtain ⟨⟨nyx, hnyx, hnyp⟩, hpokA, hpokB0⟩ := parentsOk_node hpok
  rw [hny] at hnyx
  injection hnyx with he
  subst he
  obtain ⟨⟨nax, hnax, hnap⟩, _, _⟩ := parentsOk_node hpokA
  rw [hna] at hnax
  injection hnax with he2
  subst he2
  obtain ⟨ta, hA, hctxA, hrepA, hpokA2, hszA, hs0A, _⟩ :=
    setColor_root_zip black hctx hrep hpok hnd
  obtain ⟨_, _, nyA, hnyA', _, _, hrepAA, _⟩ := reprOf_node_ptr hrepA
  obtain ⟨hnylA, _, naA, hnaA, _, _, _, _⟩ := reprOf_node_ptr hrepAA
  have hpokA2' : parentsOk ta (some q)
      (.node y black vy (.node a ca va al ar) B) = true := hpokA2
  obtain ⟨⟨nyAx, hnyAx, hnyAp⟩, hpokAA, _⟩ := parentsOk_node hpokA2'
  rw [hnyA'] at hnyAx
  injection hnyAx with he3
  subst he3
  obtain ⟨⟨naAx, hnaAx, hnaAp⟩, _, _⟩ := parentsOk_node hpokAA
  rw [hnaA] at hnaAx
  injection hnaAx with he4
  subst he4
  obtain ⟨hctxQ, hrepQ, hpokQ⟩ := zip_up_lf hctxA hrepA hpokA2
  have hndG : (plug (.node q c2 v2
      (.node y black vy (.node a ca va al ar) B) u) ctx2).idxs.Nodup := by
    rw [plug_idxs_congrE ctx2
      (show (FT.node q c2 v2
          (FT.node y black vy (FT.node a ca va al ar) B) u).idxs
        = (FT.node q c2 v2
          (FT.node y cy vy (FT.node a ca va al ar) B) u).idxs
        by simp [FT.idxs])]
    exact hnd
  obtain ⟨tb, hB, hctxB, hrepB, hpokB, hszB, hs0B, _⟩ :=
    setColor_root_zip red hctxQ hrepQ hpokQ hndG
  obtain ⟨_, _, nqB, hnqB, _, _, hrepYB, _⟩ := reprOf_node_ptr hrepB
  obtain ⟨hqleft, _, nyB, hnyB', _, _, hrepAB, _⟩ := reprOf_node_ptr hrepYB
  obtain ⟨hylB, _, naB, hnaB, _, _, _, _⟩ := reprOf_node_ptr hrepAB
  obtain ⟨⟨nqBx, hnqBx, hnqBp⟩, hpokYB, _⟩ := parentsOk_node hpokB
  obtain ⟨⟨nyBx, hnyBx, hnyBp⟩, hpokAB, _⟩ := parentsOk_node hpokYB
  rw [hnyB'] at hnyBx
  injection hnyBx with he5
  subst he5
  obtain ⟨⟨naBx, hnaBx, hnaBp⟩, _, _⟩ := parentsOk_node hpokAB
  rw [hnaB] at hnaBx
  injection hnaBx with he6
  subst he6
  have hndB2 : (plug (.node q red v2
      (.node y black vy (.node a ca va al ar) B) u) ctx2).idxs.Nodup := by
    rw [plug_idxs_congrE ctx2
      (show (FT.node q red v2
          (FT.node y black vy (FT.node a ca va al ar) B) u).idxs
        = (FT.node q c2 v2
          (FT.node y black vy (FT.node a ca va al ar) B) u).idxs
        by simp [FT.idxs])]
    exact hndG
  obtain ⟨tc, hC, hctxC, hrepC, hpokC, hszC, hs0C⟩ :=
    rotateRight_zip hctxB hrepB hpokB hndB2
  refine ⟨na, ta, naA, nyA, tb, naB, nyB, tc, hna, hnap, hA, hnaA, hnaAp,
    hnyA', hnyAp, hB, hnaB, hnaBp, hnyB', hnyBp, hC, hctxC, hrepC, hpokC,
    ?_, ?_⟩
  · rw [hszC, hszB, hszA]
  · rw [hs0C, hs0B, hs0A]

/-- The straight-line (right-right) insert-fixup case: mirror image of
`insert_rotate_left_zip`. -/
theorem insert_rotate_right_zip {t : RBTree} {y : Nat} {cy : Bool} {vy : Int}
    {A : FT} {b : Nat} {cb : Bool} {vb : Int} {bl br : FT}
    {q : Nat} {c2 : Bool} {v2 : Int} {u : FT} {ctx2 : Ctx}
    (hctx : CtxAt t (some y) (.rf q c2 v2 u :: ctx2))
    (hrep : ReprOf t (some y) (.node y cy vy A (.node b cb vb bl br)))
    (hpok : parentsOk t (some q)
      (.node y cy vy A (.node b cb vb bl br)) = true)
    (hnd : (plug (.node y cy vy A (.node b cb vb bl br))
      (.rf q c2 v2 u :: ctx2)).idxs.Nodup) :
    ∃ nb ta nb2 ny2 tb nb3 ny3 tc,
      t.nodes[b]? = some nb ∧ nb.parent = some y ∧
      t.setColor (some y) black = .ok ta ∧
      ta.nodes[b]? = some nb2 ∧ nb2.parent = some y ∧
      ta.nodes[y]? = some ny2 ∧ ny2.parent = some q ∧
      ta.setColor (some q) red = .ok tb ∧
      tb.nodes[b]? = some nb3 ∧ nb3.parent = some y ∧
      tb.nodes[y]? = some ny3 ∧ ny3.parent = some q ∧
      rotateLeft tb (some q) = .ok tc ∧
      CtxAt tc (some y) ctx2 ∧
      ReprOf tc (some y) (.node y black vy (.node q red v2 u A)
        (.node b cb vb bl br)) ∧
      parentsOk tc (ctxParent ctx2) (.node y black vy (.node q red v2 u A)
        (.node b cb vb bl br)) = true ∧
      tc.nodes.size = t.nodes.size ∧ tc.nodes[0]? = t.nodes[0]? := by
  obtain ⟨_, hy0, ny, hny, hnyc, hnyv, hnyA, hnyB⟩ := reprOf_node_ptr hrep
  obtain ⟨hnyr, hb0, nb, hnb, hnbc, hnbv, hnbl, hnbr⟩ := reprOf_node_ptr hnyB
  obtain ⟨⟨nyx, hnyx, hnyp⟩, hpokA0, hpokB0⟩ := parentsOk_node hpok
  rw [hny] at hnyx
  injection hnyx with he
  subst he
  obtain ⟨⟨nbx, hnbx, hnbp⟩, _, _⟩ := parentsOk_node hpokB0
  rw [hnb] at hnbx
  injection hnbx with he2
  subst he2
  obtain ⟨ta, hA, hctxA, hrepA, hpokA2, hszA, hs0A, _⟩ :=
    setColor_root_zip black hctx hrep hpok hnd
  obtain ⟨_, _, nyA, hnyA', _, _, _, hrepAB⟩ := reprOf_node_ptr hrepA
  obtain ⟨hnyrA, _, nbA, hnbA, _, _, _, _⟩ := reprOf_node_ptr hrepAB
  have hpokA2' : parentsOk ta (some q)
      (.node y black vy A (.node b cb vb bl br)) = true := hpokA2
  obtain ⟨⟨nyAx, hnyAx, hnyAp⟩, _, hpokBA⟩ := parentsOk_node hpokA2'
  rw [hnyA'] at hnyAx
  injection hnyAx with he3
  subst he3
  obtain ⟨⟨nbAx, hnbAx, hnbAp⟩, _, _⟩ := parentsOk_node hpokBA
  rw [hnbA] at hnbAx
  injection hnbAx with he4
  subst he4
  obtain ⟨hctxQ, hrepQ, hpokQ⟩ := zip_up_rf hctxA hrepA hpokA2
  have hndG : (plug (.node q c2 v2 u
      (.node y black vy A (.node b cb vb bl br))) ctx2).idxs.Nodup := by
    rw [plug_idxs_congrE ctx2
      (show (FT.node q c2 v2 u
          (FT.node y black vy A (FT.node b cb vb bl br))).idxs
        = (FT.node q c2 v2 u
          (FT.node y cy vy A (FT.node b cb vb bl br))).idxs
        by simp [FT.idxs])]
    exact hnd
  obtain ⟨tb, hB, hctxB, hrepB, hpokB, hszB, hs0B, _⟩ :=
    setColor_root_zip red hctxQ hrepQ hpokQ hndG
  obtain ⟨_, _, nqB, hnqB, _, _, _, hrepYB⟩ := reprOf_node_ptr hrepB
  obtain ⟨hqright, _, nyB, hnyB', _, _, _, hrepBB⟩ := reprOf_node_ptr hrepYB
  obtain ⟨hyrB, _, nbB, hnbB, _, _, _, _⟩ := reprOf_node_ptr hrepBB
  obtain ⟨⟨nqBx, hnqBx, hnqBp⟩, _, hpokYB⟩ := parentsOk_node hpokB
  obtain ⟨⟨nyBx, hnyBx, hnyBp⟩, _, hpokBB⟩ := parentsOk_node hpokYB
  rw [hnyB'] at hnyBx
  injection hnyBx with he5
  subst he5
  obtain ⟨⟨nbBx, hnbBx, hnbBp⟩, _, _⟩ := parentsOk_node hpokBB
  rw [hnbB] at hnbBx
  injection hnbBx with he6
  subst he6
  have hndB2 : (plug (.node q red v2 u
      (.node y black vy A (.node b cb vb bl br))) ctx2).idxs.Nodup := by
    rw [plug_idxs_congrE ctx2
      (show (FT.node q red v2 u
          (FT.node y black vy A (FT.node b cb vb bl br))).idxs
        = (FT.node q c2 v2 u
          (FT.node y black vy A (FT.node b cb vb bl br))).idxs
        by simp [FT.idxs])]
    exact hndG
  obtain ⟨tc, hC, hctxC, hrepC, hpokC, hszC, hs0C⟩ :=
    rotateLeft_zip hctxB hrepB hpokB hndB2
  refine ⟨nb, ta, nbA, nyA, tb, nbB, nyB, tc, hnb, hnbp, hA, hnbA, hnbAp,
    hnyA', hnyAp, hB, hnbB, hnbBp, hnyB', hnyBp, hC, hctxC, hrepC, hpokC,
    ?_, ?_⟩
  · rw [hszC, hszB, hszA]
  · rw [hs0C, hs0B, hs0A]

/-- The loop of `insertFixup` on a zipper: from a focused real node with
coherent structure, a black outermost context frame and enough fuel, the
loop terminates successfully and preserves the in-order key and slot lists
of the plugged tree (recolorings change no list, rotations preserve
in-order traversal). -/
theorem insertFixupLoop_zip :
    ∀ (fuel : Nat) (t : RBTree) (g : Nat) (ctx : Ctx) (sc : Bool) (sv : Int)
      (sl sr : FT),
    ZipInv t g ctx (.node g sc sv sl sr) →
    topBlack ctx →
    ctx.length + 2 ≤ fuel →
    ∃ t', insertFixupLoop t (some g) fuel = .ok t' ∧
      ∃ τ, WfS t' τ ∧ τ.keys = (plug (.node g sc sv sl sr) ctx).keys ∧
        τ.idxs = (plug (.node g sc sv sl sr) ctx).idxs ∧
        t'.nodes.size = t.nodes.size := by
  intro fuel
  induction fuel with
  | zero =>
    intro t g ctx sc sv sl sr _ _ hfuel
    omega
  | succ fuel ih =>
    intro t g ctx sc sv sl sr hzip htb hfuel
    obtain ⟨hctx, hrep, hpok, hnd, hbst, s0, hs0, hs0l, hs0r⟩ := hzip
    obtain ⟨_, hg0, cn, hcn, hcnc, hcnv, hcnl, hcnr⟩ := reprOf_node_ptr hrep
    obtain ⟨⟨cnx, hcnx, hcnp⟩, hpokL, hpokR⟩ := parentsOk_node hpok
    rw [hcn] at hcnx
    injection hcnx with hex
    subst hex
    simp only [insertFixupLoop, mbind_def]
    rw [getE_ok hcn]
    simp only [ebind_ok]
    rw [hcnp]
    cases ctx with
    | nil =>
      rw [if_pos (show t.getColor (ctxParent ([] : Ctx)) ≠ red by
        simp [ctxParent, RBTree.getColor, red, black])]
      refine ⟨t, rfl, plug (.node g sc sv sl sr) [], ?_, rfl, rfl, rfl⟩
      exact zipInv_wfs ⟨hctx, hrep, hpok, hnd, hbst, s0, hs0, hs0l, hs0r⟩
    | cons f1 ctx1 =>
      cases f1 with
      | lf p c1 v1 sib1 =>
        obtain ⟨pn, hchain1, hp0, hpn, hpnp, hpnl, hsib1, hsib1ok, hpnc,
          hpnv⟩ := ctxAt_cons_lf2 hctx
        simp only [ctxParent, Frame.idx]
        by_cases hred : t.getColor (some p) = red
        case neg =>
          rw [if_pos hred]
          refine ⟨t, rfl,
            plug (.node g sc sv sl sr) (.lf p c1 v1 sib1 :: ctx1), ?_,
            rfl, rfl, rfl⟩
          exact zipInv_wfs ⟨hctx, hrep, hpok, hnd, hbst, s0, hs0, hs0l, hs0r⟩
        case pos =>
          rw [if_neg (not_not_intro hred)]
          rw [getE_ok hpn]
          simp only [ebind_ok]
          rw [hpnp]
          cases ctx1 with
          | nil =>
            exfalso
            have hgc : t.getColor (some p) = pn.color := by
              simp [RBTree.getColor, hpn]
            rw [hgc, hpnc] at hred
            have hlast := htb (Frame.lf p c1 v1 sib1)
              (by rw [List.getLast?_singleton])
            simp only [Frame.color] at hlast
            rw [hlast] at hred
            exact absurd hred (by decide)
          | cons f2 ctx2 =>
            cases f2 with
            | lf q c2 v2 u =>
              obtain ⟨gn, hchain2, hq0, hgn, hgnp, hgnl, hu, huok, hgnc,
                hgnv⟩ := ctxAt_cons_lf2 hchain1
              simp only [ctxParent, Frame.idx]
              rw [getE_ok hgn]
              simp only [ebind_ok]
              rw [if_pos hgnl.symm]
              have hur : gn.right = u.rootPtr := reprOf_rootPtr hu
              rw [hur]
              have hbstG0 : FT.bstB none none (plug (FT.node q c2 v2
                  (FT.node p c1 v1 (FT.node g sc sv sl sr) sib1) u)
                  ctx2) = true := hbst
              have hhole := bst_plug_hole hbstG0
              obtain ⟨hbP, hbu, hloQ, hhiQ⟩ := bstB_node hhole
              by_cases huc : t.getColor u.rootPtr = red
              · rw [if_pos huc]
                obtain ⟨hctxP, hrepP, hpokP⟩ := zip_up_lf hctx hrep hpok
                obtain ⟨ta, tb, tc, hA, hB, hC, hctxC, hrepC, hpokC, hszC,
                  hsentC⟩ := insert_recolor_left_zip hctxP hrepP hpokP hnd
                    hs0 hs0l hs0r
                rw [hA]
                simp only [ebind_ok]
                rw [hB]
                simp only [ebind_ok]
                rw [hC]
                simp only [ebind_ok]
                have hndF : (plug (FT.node q red v2
                    (FT.node p black v1 (FT.node g sc sv sl sr) sib1)
                    (FT.paint black u)) ctx2).idxs.Nodup := by
                  rw [plug_idxs_congrE ctx2
                    (show (FT.node q red v2
                        (FT.node p black v1 (FT.node g sc sv sl sr) sib1)
                        (FT.paint black u)).idxs
                      = (FT.node q c2 v2
                        (FT.node p c1 v1 (FT.node g sc sv sl sr) sib1)
                        u).idxs by simp [FT.idxs, FT.paint_idxs])]
                  exact hnd
                have hbstF : FT.bstB none none (plug (FT.node q red v2
                    (FT.node p black v1 (FT.node g sc sv sl sr) sib1)
                    (FT.paint black u)) ctx2) = true := by
                  refine bst_plug_replace hbstG0 ?_
                  refine bstB_intro ?_ ?_ hloQ hhiQ
                  · exact bstB_recolor_root hbP
                  · rw [FT.paint_bstB]
                    exact hbu
                have htb2 : topBlack ctx2 := topBlack_tail (topBlack_tail htb)
                have hfl2 : ctx2.length + 2 ≤ fuel := by
                  simp only [List.length_cons] at hfuel
                  omega
                obtain ⟨t', hrun', τ, hwfs, hkeys, hidxs, hsz'⟩ :=
                  ih tc q ctx2 red v2
                    (.node p black v1 (.node g sc sv sl sr) sib1)
                    (FT.paint black u)
                    ⟨hctxC, hrepC, hpokC, hndF, hbstF, hsentC⟩ htb2 hfl2
                refine ⟨t', hrun', τ, hwfs, ?_, ?_, ?_⟩
                · rw [hkeys]
                  exact plug_keys_congrE ctx2
                    (by simp [FT.keys, FT.paint_keys])
                · rw [hidxs]
                  exact plug_idxs_congrE ctx2
                    (by simp [FT.idxs, FT.paint_idxs])
                · rw [hsz', hszC]
              · rw [if_neg huc]
                have hsr : pn.right = sib1.rootPtr := reprOf_rootPtr hsib1
                have hne2 : ¬((some g : Ptr) = pn.right) := by
                  rw [hsr]
                  cases sib1 with
                  | leaf =>
                    simp only [FT.rootPtr, nilP, Option.some.injEq]
                    exact hg0
                  | node si si1 si2 si3 si4 =>
                    simp only [FT.rootPtr, Option.some.injEq]
                    intro he
                    refine (nodup_plug_split hnd).2.2 g
                      (by simp [FT.idxs]) ?_
                    rw [he]
                    simp [ctxIdxs, FT.idxs]
                rw [if_neg hne2]
                simp only [mpure_def, ebind_ok]
                obtain ⟨hctxP, hrepP, hpokP⟩ := zip_up_lf hctx hrep hpok
                obtain ⟨na, ta, na2, ny2, tb, na3, ny3, tc, hna, hnap, hA,
                  hna2, hna2p, hny2, hny2p, hB, hna3, hna3p, hny3, hny3p,
                  hC, hctxC, hrepC, hpokC, hszC, hs0C⟩ :=
                  insert_rotate_left_zip hctxP hrepP hpokP hnd
                rw [getE_ok hna]
                simp only [ebind_ok]
                rw [hnap, hA]
                simp only [ebind_ok]
                rw [getE_ok hna2]
                simp only [ebind_ok]
                rw [hna2p, getE_ok hny2]
                simp only [ebind_ok]
                rw [hny2p, hB]
                simp only [ebind_ok]
                rw [getE_ok hna3]
                simp only [ebind_ok]
                rw [hna3p, getE_ok hny3]
                simp only [ebind_ok]
                rw [hny3p, hC]
                simp only [ebind_ok]
                obtain ⟨hctx3, hrep3, hpok3⟩ := zip_down_lf hctxC hrepC hpokC
                have hnd3 : (plug (FT.node p black v1
                    (FT.node g sc sv sl sr) (FT.node q red v2 sib1 u))
                    ctx2).idxs.Nodup := by
                  rw [plug_idxs_congrE ctx2
                    (show (FT.node p black v1 (FT.node g sc sv sl sr)
                        (FT.node q red v2 sib1 u)).idxs
                      = (FT.node q c2 v2
                        (FT.node p c1 v1 (FT.node g sc sv sl sr) sib1)
                        u).idxs by simp [FT.idxs])]
                  exact hnd
                have h1 := bstB_rotR hhole
                obtain ⟨hsf, hQside, hloP, hhiP⟩ := bstB_node h1
                have hbst3 : FT.bstB none none (plug (FT.node p black v1
                    (FT.node g sc sv sl sr) (FT.node q red v2 sib1 u))
                    ctx2) = true := by
                  refine bst_plug_replace hbstG0 ?_
                  exact bstB_intro hsf (bstB_recolor_root hQside) hloP hhiP
                have htb3 : topBlack (Frame.lf p black v1
                    (FT.node q red v2 sib1 u) :: ctx2) :=
                  topBlack_cons rfl (topBlack_tail (topBlack_tail htb))
                have hfl3 : (Frame.lf p black v1
                    (FT.node q red v2 sib1 u) :: ctx2).length + 2 ≤ fuel := by
                  simp only [List.length_cons] at hfuel ⊢
                  omega
                obtain ⟨t', hrun', τ, hwfs, hkeys, hidxs, hsz'⟩ :=
                  ih tc g (Frame.lf p black v1 (FT.node q red v2 sib1 u)
                    :: ctx2) sc sv sl sr
                    ⟨hctx3, hrep3, hpok3, hnd3, hbst3, s0,
                      by rw [hs0C]; exact hs0, hs0l, hs0r⟩ htb3 hfl3
                refine ⟨t', hrun', τ, hwfs, ?_, ?_, ?_⟩
                · rw [hkeys]
                  exact plug_keys_congrE ctx2 (by simp [FT.keys])
                · rw [hidxs]
                  exact plug_idxs_congrE ctx2 (by simp [FT.idxs])
                · rw [hsz', hszC]
            | rf q c2 v2 u =>
              obtain ⟨gn, hchain2, hq0, hgn, hgnp, hgnr, hu, huok, hgnc,
                hgnv⟩ := ctxAt_cons_rf2 hchain1
              simp only [ctxParent, Frame.idx]
              rw [getE_ok hgn]
              simp only [ebind_ok]
              have hgl : gn.left = u.rootPtr := reprOf_rootPtr hu
              have hneL : ¬((some p : Ptr) = gn.left) := by
                rw [hgl]
                cases u with
                | leaf =>
                  simp only [FT.rootPtr, nilP, Option.some.injEq]
                  exact hp0
                | node ui ui1 ui2 ui3 ui4 =>
                  simp only [FT.rootPtr, Option.some.injEq]
                  intro he
                  have hctxnd := (nodup_plug_split hnd).2.1
                  simp only [ctxIdxs] at hctxnd
                  rw [List.cons_append, List.nodup_cons] at hctxnd
                  refine hctxnd.1 ?_
                  rw [he]
                  simp [FT.idxs, ctxIdxs]
              rw [if_neg hneL]
              rw [hgl]
              have hbstG0 : FT.bstB none none (plug (FT.node q c2 v2 u
                  (FT.node p c1 v1 (FT.node g sc sv sl sr) sib1))
                  ctx2) = true := hbst
              have hhole := bst_plug_hole hbstG0
              obtain ⟨hbu, hbP, hloQ, hhiQ⟩ := bstB_node hhole
              by_cases huc : t.getColor u.rootPtr = red
              · rw [if_pos huc]
                obtain ⟨hctxP, hrepP, hpokP⟩ := zip_up_lf hctx hrep hpok
                obtain ⟨ta, tb, tc, hA, hB, hC, hctxC, hrepC, hpokC, hszC,
                  hsentC⟩ := insert_recolor_right_zip hctxP hrepP hpokP hnd
                    hs0 hs0l hs0r
                rw [hA]
                simp only [ebind_ok]
                rw [hB]
                simp only [ebind_ok]
                rw [hC]
                simp only [ebind_ok]
                have hndF : (plug (FT.node q red v2 (FT.paint black u)
                    (FT.node p black v1 (FT.node g sc sv sl sr) sib1))
                    ctx2).idxs.Nodup := by
                  rw [plug_idxs_congrE ctx2
                    (show (FT.node q red v2 (FT.paint black u)
                        (FT.node p black v1 (FT.node g sc sv sl sr)
                          sib1)).idxs
                      = (FT.node q c2 v2 u
                        (FT.node p c1 v1 (FT.node g sc sv sl sr)
                          sib1)).idxs by simp [FT.idxs, FT.paint_idxs])]
                  exact hnd
                have hbstF : FT.bstB none none (plug (FT.node q red v2
                    (FT.paint black u)
                    (FT.node p black v1 (FT.node g sc sv sl sr) sib1))
                    ctx2) = true := by
                  refine bst_plug_replace hbstG0 ?_
                  refine bstB_intro ?_ ?_ hloQ hhiQ
                  · rw [FT.paint_bstB]
                    exact hbu
                  · exact bstB_recolor_root hbP
                have htb2 : topBlack ctx2 := topBlack_tail (topBlack_tail htb)
                have hfl2 : ctx2.length + 2 ≤ fuel := by
                  simp only [List.length_cons] at hfuel
                  omega
                obtain ⟨t', hrun', τ, hwfs, hkeys, hidxs, hsz'⟩ :=
                  ih tc q ctx2 red v2 (FT.paint black u)
                    (.node p black v1 (.node g sc sv sl sr) sib1)
                    ⟨hctxC, hrepC, hpokC, hndF, hbstF, hsentC⟩ htb2 hfl2
                refine ⟨t', hrun', τ, hwfs, ?_, ?_, ?_⟩
                · rw [hkeys]
                  exact plug_keys_congrE ctx2
                    (by simp [FT.keys, FT.paint_keys])
                · rw [hidxs]
                  exact plug_idxs_congrE ctx2
                    (by simp [FT.idxs, FT.paint_idxs])
                · rw [hsz', hszC]
              · rw [if_neg huc]
                rw [if_pos hpnl.symm]
                obtain ⟨hctxP, hrepP, hpokP⟩ := zip_up_lf hctx hrep hpok
                obtain ⟨ta, hRot, hctxA, hrepA, hpokA, hszA, hs0A⟩ :=
                  rotateRight_zip hctxP hrepP hpokP hnd
                rw [hRot]
                simp only [ebind_ok, mpure_def]
                have hndA : (plug (FT.node q c2 v2 u
                    (FT.node g sc sv sl (FT.node p c1 v1 sr sib1)))
                    ctx2).idxs.Nodup := by
                  rw [plug_idxs_congrE ctx2
                    (show (FT.node q c2 v2 u
                        (FT.node g sc sv sl (FT.node p c1 v1 sr
                          sib1))).idxs
                      = (FT.node q c2 v2 u
                        (FT.node p c1 v1 (FT.node g sc sv sl sr)
                          sib1)).idxs by simp [FT.idxs])]
                  exact hnd
                obtain ⟨nb, ta2, nb2, ny2, tb, nb3, ny3, tc, hnb, hnbp, hA,
                  hnb2, hnb2p, hny2, hny2p, hB, hnb3, hnb3p, hny3, hny3p,
                  hC, hctxC, hrepC, hpokC, hszC, hs0C⟩ :=
                  insert_rotate_right_zip hctxA hrepA hpokA hndA
                rw [getE_ok hnb]
                simp only [ebind_ok]
                rw [hnbp, hA]
                simp only [ebind_ok]
                rw [getE_ok hnb2]
                simp only [ebind_ok]
                rw [hnb2p, getE_ok hny2]
                simp only [ebind_ok]
                rw [hny2p, hB]
                simp only [ebind_ok]
                rw [getE_ok hnb3]
                simp only [ebind_ok]
                rw [hnb3p, getE_ok hny3]
                simp only [ebind_ok]
                rw [hny3p, hC]
                simp only [ebind_ok]
                obtain ⟨hctx3, hrep3, hpok3⟩ := zip_down_rf hctxC hrepC hpokC
                have hnd3 : (plug (FT.node g black sv
                    (FT.node q red v2 u sl) (FT.node p c1 v1 sr sib1))
                    ctx2).idxs.Nodup := by
                  rw [plug_idxs_congrE ctx2
                    (show (FT.node g black sv (FT.node q red v2 u sl)
                        (FT.node p c1 v1 sr sib1)).idxs
                      = (FT.node q c2 v2 u
                        (FT.node p c1 v1 (FT.node g sc sv sl sr)
                          sib1)).idxs by simp [FT.idxs])]
                  exact hnd
                have hbP2 := bstB_rotR hbP
                have hG1 : FT.bstB none none (plug (FT.node q c2 v2 u
                    (FT.node g sc sv sl (FT.node p c1 v1 sr sib1)))
                    ctx2) = true := by
                  refine bst_plug_replace hbstG0 ?_
                  exact bstB_intro hbu hbP2 hloQ hhiQ
                have hG2 := bstB_rotL (bst_plug_hole hG1)
                obtain ⟨hQin, hX, hloG2, hhiG2⟩ := bstB_node hG2
                have hbst3 : FT.bstB none none (plug (FT.node g black sv
                    (FT.node q red v2 u sl) (FT.node p c1 v1 sr sib1))
                    ctx2) = true := by
                  refine bst_plug_replace hbstG0 ?_
                  exact bstB_intro (bstB_recolor_root hQin) hX hloG2 hhiG2
                have htb3 : topBlack (Frame.rf g black sv
                    (FT.node q red v2 u sl) :: ctx2) :=
                  topBlack_cons rfl (topBlack_tail (topBlack_tail htb))
                have hfl3 : (Frame.rf g black sv
                    (FT.node q red v2 u sl) :: ctx2).length + 2 ≤ fuel := by
                  simp only [List.length_cons] at hfuel ⊢
                  omega
                obtain ⟨t', hrun', τ, hwfs, hkeys, hidxs, hsz'⟩ :=
                  ih tc p (Frame.rf g black sv (FT.node q red v2 u sl)
                    :: ctx2) c1 v1 sr sib1
                    ⟨hctx3, hrep3, hpok3, hnd3, hbst3, s0,
                      by rw [hs0C, hs0A]; exact hs0, hs0l, hs0r⟩ htb3 hfl3
                refine ⟨t', hrun', τ, hwfs, ?_, ?_, ?_⟩
                · rw [hkeys]
                  exact plug_keys_congrE ctx2 (by simp [FT.keys])
                · rw [hidxs]
                  exact plug_idxs_congrE ctx2 (by simp [FT.idxs])
                · rw [hsz', hszC, hszA]
      | rf p c1 v1 sib1 =>
        obtain ⟨pn, hchain1, hp0, hpn, hpnp, hpnr, hsib1, hsib1ok, hpnc,
          hpnv⟩ := ctxAt_cons_rf2 hctx
        simp only [ctxParent, Frame.idx]
        by_cases hred : t.getColor (some p) = red
        case neg =>
          rw [if_pos hred]
          refine ⟨t, rfl,
            plug (.node g sc sv sl sr) (.rf p c1 v1 sib1 :: ctx1), ?_,
            rfl, rfl, rfl⟩
          exact zipInv_wfs ⟨hctx, hrep, hpok, hnd, hbst, s0, hs0, hs0l, hs0r⟩
        case pos =>
          rw [if_neg (not_not_intro hred)]
          rw [getE_ok hpn]
          simp only [ebind_ok]
          rw [hpnp]
          cases ctx1 with
          | nil =>
            exfalso
            have hgc : t.getColor (some p) = pn.color := by
              simp [RBTree.getColor, hpn]
            rw [hgc, hpnc] at hred
            have hlast := htb (Frame.rf p c1 v1 sib1)
              (by rw [List.getLast?_singleton])
            simp only [Frame.color] at hlast
            rw [hlast] at hred
            exact absurd hred (by decide)
          | cons f2 ctx2 =>
            cases f2 with
            | lf q c2 v2 u =>
              obtain ⟨gn, hchain2, hq0, hgn, hgnp, hgnl, hu, huok, hgnc,
                hgnv⟩ := ctxAt_cons_lf2 hchain1
              simp only [ctxParent, Frame.idx]
              rw [getE_ok hgn]
              simp only [ebind_ok]
              rw [if_pos hgnl.symm]
              have hur : gn.right = u.rootPtr := reprOf_rootPtr hu
              rw [hur]
              have hbstG0 : FT.bstB none none (plug (FT.node q c2 v2
                  (FT.node p c1 v1 sib1 (FT.node g sc sv sl sr)) u)
                  ctx2) = true := hbst
              have hhole := bst_plug_hole hbstG0
              obtain ⟨hbP, hbu, hloQ, hhiQ⟩ := bstB_node hhole
              by_cases huc : t.getColor u.rootPtr = red
              · rw [if_pos huc]
                obtain ⟨hctxP, hrepP, hpokP⟩ := zip_up_rf hctx hrep hpok
                obtain ⟨ta, tb, tc, hA, hB, hC, hctxC, hrepC, hpokC, hszC,
                  hsentC⟩ := insert_recolor_left_zip hctxP hrepP hpokP hnd
                    hs0 hs0l hs0r
                rw [hA]
                simp only [ebind_ok]
                rw [hB]
                simp only [ebind_ok]
                rw [hC]
                simp only [ebind_ok]
                have hndF : (plug (FT.node q red v2
                    (FT.node p black v1 sib1 (FT.node g sc sv sl sr))
                    (FT.paint black u)) ctx2).idxs.Nodup := by
                  rw [plug_idxs_congrE ctx2
                    (show (FT.node q red v2
                        (FT.node p black v1 sib1 (FT.node g sc sv sl sr))
                        (FT.paint black u)).idxs
                      = (FT.node q c2 v2
                        (FT.node p c1 v1 sib1 (FT.node g sc sv sl sr))
                        u).idxs by simp [FT.idxs, FT.paint_idxs])]
                  exact hnd
                have hbstF : FT.bstB none none (plug (FT.node q red v2
                    (FT.node p black v1 sib1 (FT.node g sc sv sl sr))
                    (FT.paint black u)) ctx2) = true := by
                  refine bst_plug_replace hbstG0 ?_
                  refine bstB_intro ?_ ?_ hloQ hhiQ
                  · exact bstB_recolor_root hbP
                  · rw [FT.paint_bstB]
                    exact hbu
                have htb2 : topBlack ctx2 := topBlack_tail (topBlack_tail htb)
                have hfl2 : ctx2.length + 2 ≤ fuel := by
                  simp only [List.length_cons] at hfuel
                  omega
                obtain ⟨t', hrun', τ, hwfs, hkeys, hidxs, hsz'⟩ :=
                  ih tc q ctx2 red v2
                    (.node p black v1 sib1 (.node g sc sv sl sr))
                    (FT.paint black u)
                    ⟨hctxC, hrepC, hpokC, hndF, hbstF, hsentC⟩ htb2 hfl2
                refine ⟨t', hrun', τ, hwfs, ?_, ?_, ?_⟩
                · rw [hkeys]
                  exact plug_keys_congrE ctx2
                    (by simp [FT.keys, FT.paint_keys])
                · rw [hidxs]
                  exact plug_idxs_congrE ctx2
                    (by simp [FT.idxs, FT.paint_idxs])
                · rw [hsz', hszC]
              · rw [if_neg huc]
                rw [if_pos hpnr.symm]
                obtain ⟨hctxP, hrepP, hpokP⟩ := zip_up_rf hctx hrep hpok
                obtain ⟨ta, hRot, hctxA, hrepA, hpokA, hszA, hs0A⟩ :=
                  rotateLeft_zip hctxP hrepP hpokP hnd
                rw [hRot]
                simp only [ebind_ok, mpure_def]
                have hndA : (plug (FT.node q c2 v2
                    (FT.node g sc sv (FT.node p c1 v1 sib1 sl) sr) u)
                    ctx2).idxs.Nodup := by
                  rw [plug_idxs_congrE ctx2
                    (show (FT.node q c2 v2
                        (FT.node g sc sv (FT.node p c1 v1 sib1 sl) sr)
                        u).idxs
                      = (FT.node q c2 v2
                        (FT.node p c1 v1 sib1 (FT.node g sc sv sl sr))
                        u).idxs by simp [FT.idxs])]
                  exact hnd
                obtain ⟨na, ta2, na2, ny2, tb, na3, ny3, tc, hna, hnap, hA,
                  hna2, hna2p, hny2, hny2p, hB, hna3, hna3p, hny3, hny3p,
                  hC, hctxC, hrepC, hpokC, hszC, hs0C⟩ :=
                  insert_rotate_left_zip hctxA hrepA hpokA hndA
                rw [getE_ok hna]
                simp only [ebind_ok]
                rw [hnap, hA]
                simp only [ebind_ok]
                rw [getE_ok hna2]
                simp only [ebind_ok]
                rw [hna2p, getE_ok hny2]
                simp only [ebind_ok]
                rw [hny2p, hB]
                simp only [ebind_ok]
                rw [getE_ok hna3]
                simp only [ebind_ok]
                rw [hna3p, getE_ok hny3]
                simp only [ebind_ok]
                rw [hny3p, hC]
                simp only [ebind_ok]
                obtain ⟨hctx3, hrep3, hpok3⟩ := zip_down_lf hctxC hrepC hpokC
                have hnd3 : (plug (FT.node g black sv
                    (FT.node p c1 v1 sib1 sl) (FT.node q red v2 sr u))
                    ctx2).idxs.Nodup := by
                  rw [plug_idxs_congrE ctx2
                    (show (FT.node g black sv (FT.node p c1 v1 sib1 sl)
                        (FT.node q red v2 sr u)).idxs
                      = (FT.node q c2 v2
                        (FT.node p c1 v1 sib1 (FT.node g sc sv sl sr))
                        u).idxs by simp [FT.idxs])]
                  exact hnd
                have hbP2 := bstB_rotL hbP
                have hG1 : FT.bstB none none (plug (FT.node q c2 v2
                    (FT.node g sc sv (FT.node p c1 v1 sib1 sl) sr) u)
                    ctx2) = true := by
                  refine bst_plug_replace hbstG0 ?_
                  exact bstB_intro hbP2 hbu hloQ hhiQ
                have hG2 := bstB_rotR (bst_plug_hole hG1)
                obtain ⟨hX, hQin, hloG2, hhiG2⟩ := bstB_node hG2
                have hbst3 : FT.bstB none none (plug (FT.node g black sv
                    (FT.node p c1 v1 sib1 sl) (FT.node q red v2 sr u))
                    ctx2) = true := by
                  refine bst_plug_replace hbstG0 ?_
                  exact bstB_intro hX (bstB_recolor_root hQin) hloG2 hhiG2
                have htb3 : topBlack (Frame.lf g black sv
                    (FT.node q red v2 sr u) :: ctx2) :=
                  topBlack_cons rfl (topBlack_tail (topBlack_tail htb))
                have hfl3 : (Frame.lf g black sv
                    (FT.node q red v2 sr u) :: ctx2).length + 2 ≤ fuel := by
                  simp only [List.length_cons] at hfuel ⊢
                  omega
                obtain ⟨t', hrun', τ, hwfs, hkeys, hidxs, hsz'⟩ :=
                  ih tc p (Frame.lf g black sv (FT.node q red v2 sr u)
                    :: ctx2) c1 v1 sib1 sl
                    ⟨hctx3, hrep3, hpok3, hnd3, hbst3, s0,
                      by rw [hs0C, hs0A]; exact hs0, hs0l, hs0r⟩ htb3 hfl3
                refine ⟨t', hrun', τ, hwfs, ?_, ?_, ?_⟩
                · rw [hkeys]
                  exact plug_keys_congrE ctx2 (by simp [FT.keys])
                · rw [hidxs]
                  exact plug_idxs_congrE ctx2 (by simp [FT.idxs])
                · rw [hsz', hszC, hszA]
            | rf q c2 v2 u =>
              obtain ⟨gn, hchain2, hq0, hgn, hgnp, hgnr, hu, huok, hgnc,
                hgnv⟩ := ctxAt_cons_rf2 hchain1
              simp only [ctxParent, Frame.idx]
              rw [getE_ok hgn]
              simp only [ebind_ok]
              have hgl : gn.left = u.rootPtr := reprOf_rootPtr hu
              have hneL : ¬((some p : Ptr) = gn.left) := by
                rw [hgl]
                cases u with
                | leaf =>
                  simp only [FT.rootPtr, nilP, Option.some.injEq]
                  exact hp0
                | node ui ui1 ui2 ui3 ui4 =>
                  simp only [FT.rootPtr, Option.some.injEq]
                  intro he
                  have hctxnd := (nodup_plug_split hnd).2.1
                  simp only [ctxIdxs] at hctxnd
                  rw [List.cons_append, List.nodup_cons] at hctxnd
                  refine hctxnd.1 ?_
                  rw [he]
                  simp [FT.idxs, ctxIdxs]
              rw [if_neg hneL]
              rw [hgl]
              have hbstG0 : FT.bstB none none (plug (FT.node q c2 v2 u
                  (FT.node p c1 v1 sib1 (FT.node g sc sv sl sr)))
                  ctx2) = true := hbst
              have hhole := bst_plug_hole hbstG0
              obtain ⟨hbu, hbP, hloQ, hhiQ⟩ := bstB_node hhole
              by_cases huc : t.getColor u.rootPtr = red
              · rw [if_pos huc]
                obtain ⟨hctxP, hrepP, hpokP⟩ := zip_up_rf hctx hrep hpok
                obtain ⟨ta, tb, tc, hA, hB, hC, hctxC, hrepC, hpokC, hszC,
                  hsentC⟩ := insert_recolor_right_zip hctxP hrepP hpokP hnd
                    hs0 hs0l hs0r
                rw [hA]
                simp only [ebind_ok]
                rw [hB]
                simp only [ebind_ok]
                rw [hC]
                simp only [ebind_ok]
                have hndF : (plug (FT.node q red v2 (FT.paint black u)
                    (FT.node p black v1 sib1 (FT.node g sc sv sl sr)))
                    ctx2).idxs.Nodup := by
                  rw [plug_idxs_congrE ctx2
                    (show (FT.node q red v2 (FT.paint black u)
                        (FT.node p black v1 sib1
                          (FT.node g sc sv sl sr))).idxs
                      = (FT.node q c2 v2 u
                        (FT.node p c1 v1 sib1
                          (FT.node g sc sv sl sr))).idxs
                        by simp [FT.idxs, FT.paint_idxs])]
                  exact hnd
                have hbstF : FT.bstB none none (plug (FT.node q red v2
                    (FT.paint black u)
                    (FT.node p black v1 sib1 (FT.node g sc sv sl sr)))
                    ctx2) = true := by
                  refine bst_plug_replace hbstG0 ?_
                  refine bstB_intro ?_ ?_ hloQ hhiQ
                  · rw [FT.paint_bstB]
                    exact hbu
                  · exact bstB_recolor_root hbP
                have htb2 : topBlack ctx2 := topBlack_tail (topBlack_tail htb)
                have hfl2 : ctx2.length + 2 ≤ fuel := by
                  simp only [List.length_cons] at hfuel
                  omega
                obtain ⟨t', hrun', τ, hwfs, hkeys, hidxs, hsz'⟩ :=
                  ih tc q ctx2 red v2 (FT.paint black u)
                    (.node p black v1 sib1 (.node g sc sv sl sr))
                    ⟨hctxC, hrepC, hpokC, hndF, hbstF, hsentC⟩ htb2 hfl2
                refine ⟨t', hrun', τ, hwfs, ?_, ?_, ?_⟩
                · rw [hkeys]
                  exact plug_keys_congrE ctx2
                    (by simp [FT.keys, FT.paint_keys])
                · rw [hidxs]
                  exact plug_idxs_congrE ctx2
                    (by simp [FT.idxs, FT.paint_idxs])
                · rw [hsz', hszC]
              · rw [if_neg huc]
                have hsls : pn.left = sib1.rootPtr := reprOf_rootPtr hsib1
                have hne2 : ¬((some g : Ptr) = pn.left) := by
                  rw [hsls]
                  cases sib1 with
                  | leaf =>
                    simp only [FT.rootPtr, nilP, Option.some.injEq]
                    exact hg0
                  | node si si1 si2 si3 si4 =>
                    simp only [FT.rootPtr, Option.some.injEq]
                    intro he
                    refine (nodup_plug_split hnd).2.2 g
                      (by simp [FT.idxs]) ?_
                    rw [he]
                    simp [ctxIdxs, FT.idxs]
                rw [if_neg hne2]
                simp only [mpure_def, ebind_ok]
                obtain ⟨hctxP, hrepP, hpokP⟩ := zip_up_rf hctx hrep hpok
                obtain ⟨nb, ta, nb2, ny2, tb, nb3, ny3, tc, hnb, hnbp, hA,
                  hnb2, hnb2p, hny2, hny2p, hB, hnb3, hnb3p, hny3, hny3p,
                  hC, hctxC, hrepC, hpokC, hszC, hs0C⟩ :=
                  insert_rotate_right_zip hctxP hrepP hpokP hnd
                rw [getE_ok hnb]
                simp only [ebind_ok]
                rw [hnbp, hA]
                simp only [ebind_ok]
                rw [getE_ok hnb2]
                simp only [ebind_ok]
                rw [hnb2p, getE_ok hny2]
                simp only [ebind_ok]
                rw [hny2p, hB]
                simp only [ebind_ok]
                rw [getE_ok hnb3]
                simp only [ebind_ok]
                rw [hnb3p, getE_ok hny3]
                simp only [ebind_ok]
                rw [hny3p, hC]
                simp only [ebind_ok]
                obtain ⟨hctx3, hrep3, hpok3⟩ := zip_down_rf hctxC hrepC hpokC
                have hnd3 : (plug (FT.node p black v1
                    (FT.node q red v2 u sib1) (FT.node g sc sv sl sr))
                    ctx2).idxs.Nodup := by
                  rw [plug_idxs_congrE ctx2
                    (show (FT.node p black v1 (FT.node q red v2 u sib1)
                        (FT.node g sc sv sl sr)).idxs
                      = (FT.node q c2 v2 u
                        (FT.node p c1 v1 sib1
                          (FT.node g sc sv sl sr))).idxs
                        by simp [FT.idxs])]
                  exact hnd
                have h1 := bstB_rotL hhole
                obtain ⟨hQin, hsf, hloP, hhiP⟩ := bstB_node h1
                have hbst3 : FT.bstB none none (plug (FT.node p black v1
                    (FT.node q red v2 u sib1) (FT.node g sc sv sl sr))
                    ctx2) = true := by
                  refine bst_plug_replace hbstG0 ?_
                  exact bstB_intro (bstB_recolor_root hQin) hsf hloP hhiP
                have htb3 : topBlack (Frame.rf p black v1
                    (FT.node q red v2 u sib1) :: ctx2) :=
                  topBlack_cons rfl (topBlack_tail (topBlack_tail htb))
                have hfl3 : (Frame.rf p black v1
                    (FT.node q red v2 u sib1) :: ctx2).length + 2 ≤ fuel := by
                  simp only [List.length_cons] at hfuel ⊢
                  omega
                obtain ⟨t', hrun', τ, hwfs, hkeys, hidxs, hsz'⟩ :=
                  ih tc g (Frame.rf p black v1 (FT.node q red v2 u sib1)
                    :: ctx2) sc sv sl sr
                    ⟨hctx3, hrep3, hpok3, hnd3, hbst3, s0,
                      by rw [hs0C]; exact hs0, hs0l, hs0r⟩ htb3 hfl3
                refine ⟨t', hrun', τ, hwfs, ?_, ?_, ?_⟩
                · rw [hkeys]
                  exact plug_keys_congrE ctx2 (by simp [FT.keys])
                · rw [hidxs]
                  exact plug_idxs_congrE ctx2 (by simp [FT.idxs])
                · rw [hsz', hszC]

end Rbt
